import Mathlib

/-!
Shallow embedding of the `nfa2regex` Go package (src/nfa2regex.go, current
package version: the one exporting `Match`, `ToRegex`, `ToRegexWithConfig`).

Modelling choices, chosen to mirror the Go source:

* Go node values are heap-allocated records compared by pointer identity
  (`*NFANode`).  We model the heap explicitly: a `Heap` is a list of
  `NFANode` records and a "pointer" is an index into that list.  Allocation
  (`&NFANode{...}`) appends a record; a nil pointer is modelled by `Option`.
* The `NFA.Nodes` Go map is modelled as an association list from names to
  pointers.  Go map iteration order is unspecified; this embedding fixes it
  to insertion order (updates keep the position of the key).
* Go strings are modelled by Lean `String`; `len(s)` on a Go string is the
  UTF-8 byte length (`String.utf8ByteSize`), and `for _, r := range s`
  iterates code points (`String.data`).
* Errors are returned as values; Go's `error` is modelled by `String`
  (each error in the source is a fixed message produced by `errors.New` or
  `fmt.Errorf`).
-/

namespace Nfa2Regex

/-- `NFANode` from the source: a node record with `Name`, `IsInitial`,
`IsTerminal`. -/
structure NFANode where
  name : String
  isInitial : Bool
  isTerminal : Bool
deriving Repr, DecidableEq

/-- The Go heap of node records; a pointer (`*NFANode`) is an index. -/
abbrev Heap := List NFANode

/-- `NFAEdge` from the source: source pointer, destination pointer, value.
Edge records are never mutated in place by the package (ReplaceNode builds
fresh records), so edges are modelled as plain values. -/
structure NFAEdge where
  src : Nat
  dst : Nat
  value : String
deriving Repr, DecidableEq

/-- `NFA` from the source: the name-keyed node map and the edge list. -/
structure NFA where
  nodes : List (String × Nat)
  edges : List NFAEdge
deriving Repr, DecidableEq

/-- Dereference a pointer (`*node`).  The default record is never reached
for automata built through the package API. -/
def heapGet (h : Heap) (p : Nat) : NFANode :=
  h.getD p ⟨"", false, false⟩

/-- In-place field assignment through a pointer (e.g.
`initialNode.IsInitial = true`). -/
def heapSet (h : Heap) (p : Nat) (n : NFANode) : Heap :=
  h.set p n

/-- `&NFANode{...}`: allocate a fresh record, returning the new heap and the
pointer. -/
def heapAlloc (h : Heap) (n : NFANode) : Heap × Nat :=
  (h ++ [n], h.length)

/-- Go map lookup `nfa.Nodes[name]`: `none` models the nil pointer returned
for a missing key. -/
def lookupName : List (String × Nat) → String → Option Nat
  | [], _ => none
  | (k, v) :: rest, name => if k = name then some v else lookupName rest name

/-- Go map assignment `nfa.Nodes[name] = p`: replace the binding if the key
is present (keeping its position), otherwise append it. -/
def mapSet (m : List (String × Nat)) (k : String) (v : Nat) : List (String × Nat) :=
  match m with
  | [] => [(k, v)]
  | (k', v') :: rest =>
    if k' = k then (k, v) :: rest else (k', v') :: mapSet rest k v

/-- Go map deletion `delete(nfa.Nodes, name)`. -/
def mapDelete (m : List (String × Nat)) (k : String) : List (String × Nat) :=
  m.filter (fun pr => !(pr.1 = k : Bool))

/-- A heap together with an `NFA` value: the state threaded through the
mutating methods of the source. -/
structure St where
  heap : Heap
  nfa : NFA
deriving Repr, DecidableEq

/-- `GetOrCreateNode`: gets node `name`, or creates it (flags false) if it
does not exist. -/
def getOrCreateNode (st : St) (name : String) : St × Nat :=
  match lookupName st.nfa.nodes name with
  | some p => (st, p)
  | none =>
    let (h, p) := heapAlloc st.heap ⟨name, false, false⟩
    (⟨h, { st.nfa with nodes := mapSet st.nfa.nodes name p }⟩, p)

/-- `AddEdge`: create endpoints on demand and append a new edge record. -/
def addEdge (st : St) (srcName dstName value : String) : St :=
  let (st, s) := getOrCreateNode st srcName
  let (st, d) := getOrCreateNode st dstName
  ⟨st.heap, { st.nfa with edges := st.nfa.edges ++ [⟨s, d, value⟩] }⟩

/-- `ReplaceNode`: allocate the replacement record, rebind the map entry and
rewrite every edge endpoint that pointed at the old record.  The old record
itself is never mutated. -/
def replaceNode (st : St) (name : String) (rec : NFANode) : St :=
  let (h, q) := heapAlloc st.heap rec
  let old := lookupName st.nfa.nodes name
  let nodes := mapSet st.nfa.nodes name q
  let edges := st.nfa.edges.map (fun e =>
    let e := if some e.src = old then { e with src := q } else e
    if some e.dst = old then { e with dst := q } else e)
  ⟨h, nodes, edges⟩

/-- `RemoveNode`: drop the map entry and every edge incident (by pointer) to
the removed record. -/
def removeNode (nfa : NFA) (name : String) : NFA :=
  let old := lookupName nfa.nodes name
  ⟨mapDelete nfa.nodes name,
    nfa.edges.filter (fun e => !(some e.src = old ∨ some e.dst = old : Bool))⟩

/-- `EdgesIn`: edges whose destination pointer equals the record currently
registered under `name` (a missing name is the nil pointer, matching no
edge). -/
def edgesIn (nfa : NFA) (name : String) : List NFAEdge :=
  let node := lookupName nfa.nodes name
  nfa.edges.filter (fun e => (some e.dst = node : Bool))

/-- `EdgesOut`: edges whose source pointer equals the record currently
registered under `name`. -/
def edgesOut (nfa : NFA) (name : String) : List NFAEdge :=
  let node := lookupName nfa.nodes name
  nfa.edges.filter (fun e => (some e.src = node : Bool))

/-- `ShallowCopy` copies the two containers while sharing node records; with
the node heap factored out, the `NFA` value itself is the copy. -/
def shallowCopy (nfa : NFA) : NFA := nfa

/-- `NewNFA`. -/
def newNFA : NFA := ⟨[], []⟩

/-- Embedding of the caller-side flag assignment
`nfa.Nodes[name].IsInitial = true` (a field write through the looked-up
pointer). -/
def setInitial (st : St) (name : String) : St :=
  match lookupName st.nfa.nodes name with
  | some p => ⟨heapSet st.heap p { heapGet st.heap p with isInitial := true }, st.nfa⟩
  | none => st

/-- Embedding of `nfa.Nodes[name].IsTerminal = true`. -/
def setTerminal (st : St) (name : String) : St :=
  match lookupName st.nfa.nodes name with
  | some p => ⟨heapSet st.heap p { heapGet st.heap p with isTerminal := true }, st.nfa⟩
  | none => st

/-! ## Expression combinators -/

/-- `addKleenStar` from the source.  Go's `len(s)` is the UTF-8 byte length
of the string; the variadic `noWrap` parameter is modelled by an explicit
`Bool` (absent argument = `false`). -/
def addKleenStar (s : String) (noWrap : Bool) : String :=
  if s.utf8ByteSize = 0 then ""
  else if s.utf8ByteSize = 1 then s ++ "*"
  else if noWrap then s ++ "*"
  else "(" ++ s ++ ")*"

/-- `orJoin` from the source: drop empty strings, then `""`, the single
string, or a parenthesised `|`-join. -/
def orJoin (inputStrs : List String) : String :=
  let strs := inputStrs.filter (fun s => s.utf8ByteSize > 0)
  match strs with
  | [] => ""
  | [s] => s
  | _ => "(" ++ String.intercalate "|" strs ++ ")"

/-! ## The simulator (`Match`) -/

/-- One symbol-consumption step of `Match`: the new active list collects, for
each active node in order, the destinations of its outbound edges whose value
equals the one-symbol string. -/
def matchStep (h : Heap) (nfa : NFA) (act : List Nat) (c : Char) : List Nat :=
  act.flatMap (fun p =>
    ((edgesOut nfa (heapGet h p).name).filter
        (fun e => (e.value = String.singleton c : Bool))).map NFAEdge.dst)

/-- `Match` from the source: seed the active list with every node flagged
initial, consume the input code point by code point, and accept iff an
active node is flagged terminal. -/
def matchNFA (h : Heap) (nfa : NFA) (input : String) : Bool :=
  let act0 := (nfa.nodes.map Prod.snd).filter (fun p => (heapGet h p).isInitial)
  let actF := input.data.foldl (matchStep h nfa) act0
  actF.any (fun p => (heapGet h p).isTerminal)

/-! ## `ToRegexWithConfig` -/

/-- Minimal model of Go's `%q` for the step names appearing in callback
errors: wrap in double quotes, escaping backslash and quote (the full `%q`
also escapes non-printable characters, which the claims never use). -/
def goQuote (s : String) : String :=
  "\"" ++ String.join (s.data.map (fun c =>
    if c = '\\' then "\\\\" else if c = '"' then "\\\"" else String.singleton c)) ++ "\""

/-- The error built by
`fmt.Errorf("StepCallback for %q returned error: %w", stepName, err)`. -/
def stepCallbackErrMsg (stepName err : String) : String :=
  "StepCallback for " ++ goQuote stepName ++ " returned error: " ++ err

/-- The observer: receives the working automaton snapshot and the step name,
returns `some err` to signal an error (Go: a non-nil `error`). -/
abbrev StepCallback := NFA → String → Option String

/-- Running state during conversion: heap, working automaton, and the list
of step names at which the callback has been invoked so far (the
instrumentation used to state the observer claims). -/
structure RunSt where
  heap : Heap
  nfa : NFA
  trace : List String
deriving Repr, DecidableEq

/-- State carried out of an aborted conversion. -/
structure Abort where
  heap : Heap
  trace : List String
  msg : String
deriving Repr, DecidableEq

instance {α β : Type} [DecidableEq α] [DecidableEq β] : DecidableEq (Except α β) := fun a b =>
  match a, b with
  | .ok x, .ok y =>
    if h : x = y then .isTrue (h ▸ rfl)
    else .isFalse (fun hh => Except.noConfusion hh (fun hxy => h hxy))
  | .error x, .error y =>
    if h : x = y then .isTrue (h ▸ rfl)
    else .isFalse (fun hh => Except.noConfusion hh (fun hxy => h hxy))
  | .ok _, .error _ => .isFalse (fun hh => Except.noConfusion hh)
  | .error _, .ok _ => .isFalse (fun hh => Except.noConfusion hh)

/-- Result of `ToRegexWithConfig`: final heap, callback invocation trace,
and the returned `(string, error)` pair. -/
structure ConvOut where
  heap : Heap
  trace : List String
  result : Except String String
deriving Repr, DecidableEq

/-- Step 1 of `ToRegexWithConfig`: `GetOrCreateNode("__initial__")` then
`GetOrCreateNode("__terminal__")`, returning the two captured pointers. -/
def setupSynthetic (st : St) : St × Nat × Nat :=
  let r1 := getOrCreateNode st "__initial__"
  let r2 := getOrCreateNode r1.1 "__terminal__"
  (r2.1, r1.2, r2.2)

/-- State of the normalization loop: heap/NFA plus the `nfaHasInitial` /
`nfaHasTerminal` booleans. -/
structure NormSt where
  st : St
  hasI : Bool
  hasT : Bool
deriving Repr, DecidableEq

/-- Body of the normalization loop for one yielded node record pointer.
The record is read once (the Go loop variable); after the initial branch the
terminal branch still tests the same captured record. -/
def normalizeOne (ns : NormSt) (p : Nat) : NormSt :=
  let node := heapGet ns.st.heap p
  let ns :=
    if node.isInitial then
      let st := addEdge ns.st "__initial__" node.name ""
      let st := replaceNode st node.name ⟨node.name, false, false⟩
      NormSt.mk st true ns.hasT
    else ns
  if node.isTerminal then
    let st := addEdge ns.st node.name "__terminal__" ""
    let st := replaceNode st node.name ⟨node.name, false, false⟩
    NormSt.mk st ns.hasI true
  else ns

/-- The full normalization stage: iterate over the node map (fixed to map
order, one yield per entry present at loop start — entries are only
self-updated during the loop), then set the two flags through the captured
pointers. -/
def normalizeNFA (st : St) (iPtr tPtr : Nat) : NormSt :=
  let ns := (st.nfa.nodes.map Prod.snd).foldl normalizeOne ⟨st, false, false⟩
  let h := heapSet ns.st.heap iPtr { heapGet ns.st.heap iPtr with isInitial := true }
  let h := heapSet h tPtr { heapGet h tPtr with isTerminal := true }
  ⟨⟨h, ns.st.nfa⟩, ns.hasI, ns.hasT⟩

/-- The inner product loop of the elimination step: for every non-self
inbound edge and every non-self outbound edge (outbound edges re-queried
from the current state, as in the source), add the bypass edge. -/
def elimProducts (st : St) (name mid : String) (inEdges : List NFAEdge) : St :=
  inEdges.foldl (fun st inE =>
    if inE.src = inE.dst then st
    else
      (edgesOut st.nfa name).foldl (fun st2 outE =>
        if outE.src = outE.dst then st2
        else addEdge st2 (heapGet st2.heap inE.src).name (heapGet st2.heap outE.dst).name
          (inE.value ++ mid ++ outE.value)) st) st

/-- Elimination of one node: collect self-loop values into the Kleene-star
middle, synthesize the bypass edges, then remove the node. -/
def elimNode (st : St) (name : String) : St :=
  let inEdges := edgesIn st.nfa name
  let ksv := (inEdges.filter (fun e => (e.src = e.dst : Bool))).map NFAEdge.value
  let mid := addKleenStar (orJoin ksv) (decide (ksv.length > 1))
  let st := elimProducts st name mid inEdges
  ⟨st.heap, removeNode st.nfa name⟩

/-- One pass of the elimination loop over a snapshot of yielded node
pointers: skip the two captured synthetic pointers, eliminate every other
node, invoking the callback after each removal; a callback error returns
out of the conversion immediately. -/
def elimPass (iPtr tPtr : Nat) (cb : StepCallback) : List Nat → RunSt → Except Abort RunSt
  | [], r => .ok r
  | p :: ps, r =>
    if p = iPtr ∨ p = tPtr then elimPass iPtr tPtr cb ps r
    else
      let name := (heapGet r.heap p).name
      let st := elimNode ⟨r.heap, r.nfa⟩ name
      let stepName := "remove-node-" ++ name
      let trace := r.trace ++ [stepName]
      match cb st.nfa stepName with
      | some e => .error ⟨st.heap, trace, stepCallbackErrMsg stepName e⟩
      | none => elimPass iPtr tPtr cb ps ⟨st.heap, st.nfa, trace⟩

/-- The `for len(nfa.Nodes) > 2` loop.  Fuel bounds the number of passes so
the model is a total function; `toRegexWithConfig` supplies one unit of fuel
per node, which is sufficient because every pass on a well-formed automaton
with more than two nodes removes at least one node (for an automaton the Go
code would loop on forever, the model stops when fuel runs out). -/
def elimLoopF (iPtr tPtr : Nat) (cb : StepCallback) :
    Nat → RunSt → Except Abort RunSt
  | 0, r => .ok r
  | fuel + 1, r =>
    if r.nfa.nodes.length > 2 then
      match elimPass iPtr tPtr cb (r.nfa.nodes.map Prod.snd) r with
      | .error a => .error a
      | .ok r' => elimLoopF iPtr tPtr cb fuel r'
    else .ok r

/-- Step 3 of `ToRegexWithConfig`: scan the remaining edges for one running
from an initial-flagged record to a terminal-flagged record; if none, the
"no path" error, otherwise `orJoin` of all remaining edge values. -/
def finalizeRegex (r : RunSt) : ConvOut :=
  let hasIT := r.nfa.edges.any (fun e =>
    (heapGet r.heap e.src).isInitial && (heapGet r.heap e.dst).isTerminal)
  if hasIT then ⟨r.heap, r.trace, .ok (orJoin (r.nfa.edges.map NFAEdge.value))⟩
  else ⟨r.heap, r.trace, .error "NFA has no path between initial and terminal node(s)"⟩

/-- The part of `ToRegexWithConfig` following a successful `"start"`
callback: normalization, the two structural checks, the
`"create-initial-terminal"` callback, the elimination loop, and
finalization. -/
def convertAfterStart (h : Heap) (nfa : NFA) (cb : StepCallback) : ConvOut :=
  let s := setupSynthetic ⟨h, nfa⟩
  let iPtr := s.2.1
  let tPtr := s.2.2
  let ns := normalizeNFA s.1 iPtr tPtr
  if !ns.hasI then ⟨ns.st.heap, ["start"], .error "NFA has no initial node(s)"⟩
  else if !ns.hasT then ⟨ns.st.heap, ["start"], .error "NFA has no terminal node(s)"⟩
  else
    match cb ns.st.nfa "create-initial-terminal" with
    | some e =>
      ⟨ns.st.heap, ["start", "create-initial-terminal"],
        .error (stepCallbackErrMsg "create-initial-terminal" e)⟩
    | none =>
      let r0 : RunSt := ⟨ns.st.heap, ns.st.nfa, ["start", "create-initial-terminal"]⟩
      match elimLoopF iPtr tPtr cb r0.nfa.nodes.length r0 with
      | .error a => ⟨a.heap, a.trace, .error a.msg⟩
      | .ok r => finalizeRegex r

/-- `ToRegexWithConfig` from the source.  `onfa = none` models a nil `*NFA`
argument. -/
def toRegexWithConfig (h : Heap) (onfa : Option NFA) (cb : StepCallback) : ConvOut :=
  match onfa with
  | none => ⟨h, [], .error "NFA must be non-nil"⟩
  | some nfa0 =>
    let nfa := shallowCopy nfa0
    match cb nfa "start" with
    | some e => ⟨h, ["start"], .error (stepCallbackErrMsg "start" e)⟩
    | none => convertAfterStart h nfa cb

/-- `ToRegex`: `ToRegexWithConfig` with the default (never-failing)
callback. -/
def toRegex (h : Heap) (onfa : Option NFA) : ConvOut :=
  toRegexWithConfig h onfa (fun _ _ => none)

/-! ## Claim C7: `addKleenStar` -/

theorem utf8Go_eq_length (l : List Char) (h : ∀ c ∈ l, c.utf8Size = 1) :
    String.utf8ByteSize.go l = l.length := by
  induction l with
  | nil => rfl
  | cons c cs ih =>
    have hc : c.utf8Size = 1 := h c (by simp)
    have hcs : ∀ c ∈ cs, c.utf8Size = 1 := fun x hx => h x (by simp [hx])
    show String.utf8ByteSize.go cs + c.utf8Size = (c :: cs).length
    rw [ih hcs, hc, List.length_cons]

theorem utf8ByteSize_eq_length (s : String) (h : ∀ c ∈ s.data, c.utf8Size = 1) :
    s.utf8ByteSize = s.data.length := by
  cases s with
  | mk l => simpa [String.utf8ByteSize] using utf8Go_eq_length l h

/-- Claim C7 (counterexample): the claim maps a single-symbol string `s` to
`s ++ "*"` for `bare = false`, but `addKleenStar` measures Go byte length:
the single code point `é` occupies two bytes, so it is parenthesised. -/
theorem c7_counterexample :
    ("é".data.length = 1 ∧ addKleenStar "é" false = "(é)*") ∧ "(é)*" ≠ "é" ++ "*" := by
  constructor
  · constructor
    · decide
    · decide
  · decide

/-- Claim C7 (amended): `addKleenStar` distinguishes cases by the UTF-8 byte
length of `s`, not its symbol count.  For strings of single-byte symbols the
claimed case split holds verbatim, and all four concrete examples of the
claim hold. -/
theorem c7_addKleenStar_spec :
    (∀ s : String, (∀ c ∈ s.data, c.utf8Size = 1) →
      addKleenStar s false =
        (if s.data.length = 0 then ""
         else if s.data.length = 1 then s ++ "*"
         else "(" ++ s ++ ")*")) ∧
    (∀ s : String, (∀ c ∈ s.data, c.utf8Size = 1) →
      addKleenStar s true =
        (if s.data.length = 0 then ""
         else s ++ "*")) ∧
    addKleenStar "" false = "" ∧
    addKleenStar "a" false = "a*" ∧
    addKleenStar "abc" false = "(abc)*" ∧
    addKleenStar "(abc|123)" true = "(abc|123)*" := by
  refine ⟨?_, ?_, by decide, by decide, by decide, by decide⟩
  · intro s h
    rw [addKleenStar, utf8ByteSize_eq_length s h]
    simp
  · intro s h
    rw [addKleenStar, utf8ByteSize_eq_length s h]
    rcases l : s.data with _ | ⟨c, cs⟩
    · simp
    · rcases cs with _ | ⟨d, ds⟩ <;> simp

/-- Claim C7 (witness for the amended theorem): instantiate both universal
parts at concrete inputs. -/
theorem c7_addKleenStar_spec_witness :
    addKleenStar "ab" false = "(ab)*" ∧ addKleenStar "ab" true = "ab*" := by
  constructor
  · have := c7_addKleenStar_spec.1 "ab" (by decide)
    simpa using this
  · have := c7_addKleenStar_spec.2.1 "ab" (by decide)
    simpa using this

/-! ## Claim C10: `Match` on the empty input -/

/-- Claim C10: `Match(automaton, "")` is true iff some node of the automaton
is flagged both initial and terminal. -/
theorem c10_match_empty_iff (h : Heap) (nfa : NFA) :
    matchNFA h nfa "" = true ↔
      ∃ pr ∈ nfa.nodes, (heapGet h pr.2).isInitial = true ∧
        (heapGet h pr.2).isTerminal = true := by
  show (((nfa.nodes.map Prod.snd).filter (fun p => (heapGet h p).isInitial)).any
      (fun p => (heapGet h p).isTerminal)) = true ↔ _
  simp only [List.any_eq_true, List.mem_filter, List.mem_map]
  constructor
  · rintro ⟨p, ⟨⟨pr, hpr, rfl⟩, hinit⟩, hterm⟩
    exact ⟨pr, hpr, hinit, hterm⟩
  · rintro ⟨pr, hpr, hinit, hterm⟩
    exact ⟨pr.2, ⟨⟨pr, hpr, rfl⟩, hinit⟩, hterm⟩

/-! ## Heap evolution lemmas

The conversion never mutates an existing heap cell except through the two
flag assignments on the captured synthetic pointers: every other heap
change is an allocation of a fresh record whose two flags are `false`.
`ClearedExt h h'` captures this: `h'` extends `h`, keeps every old cell
intact, and every cell beyond `h` (allocated or out of range) has clear
flags. -/

def ClearedExt (h h' : Heap) : Prop :=
  h.length ≤ h'.length ∧
    (∀ p, p < h.length → heapGet h' p = heapGet h p) ∧
    ∀ p, h.length ≤ p →
      (heapGet h' p).isInitial = false ∧ (heapGet h' p).isTerminal = false

theorem heapGet_of_ge (h : Heap) (p : Nat) (hp : h.length ≤ p) :
    heapGet h p = ⟨"", false, false⟩ := by
  unfold heapGet
  rw [List.getD_eq_getElem?_getD, List.getElem?_eq_none hp]
  rfl

theorem clearedExt_refl (h : Heap) : ClearedExt h h :=
  ⟨le_refl _, fun _ _ => rfl, fun p hp => by rw [heapGet_of_ge h p hp]; exact ⟨rfl, rfl⟩⟩

theorem clearedExt_trans {h h' h'' : Heap} (a : ClearedExt h h') (b : ClearedExt h' h'') :
    ClearedExt h h'' := by
  obtain ⟨al, ao, an⟩ := a
  obtain ⟨bl, bo, bn⟩ := b
  refine ⟨le_trans al bl, fun p hp => ?_, fun p hp => ?_⟩
  · rw [bo p (lt_of_lt_of_le hp al), ao p hp]
  · by_cases hp' : p < h'.length
    · rw [bo p hp']; exact an p hp
    · exact bn p (by omega)

theorem clearedExt_alloc (h : Heap) (name : String) :
    ClearedExt h (h ++ [⟨name, false, false⟩]) := by
  refine ⟨by simp, fun p hp => ?_, fun p hp => ?_⟩
  · simp [heapGet, List.getD_eq_getElem?_getD, List.getElem?_append_left hp]
  · rcases Nat.lt_or_ge p (h.length + 1) with hlt | hge
    · have hp' : p = h.length := by omega
      subst hp'
      simp [heapGet, List.getD_eq_getElem?_getD, List.getElem?_append_right (le_refl _)]
    · rw [heapGet_of_ge _ p (by simp; omega)]
      exact ⟨rfl, rfl⟩

theorem clearedExt_getOrCreateNode (st : St) (name : String) :
    ClearedExt st.heap (getOrCreateNode st name).1.heap := by
  unfold getOrCreateNode
  cases lookupName st.nfa.nodes name with
  | some p => exact clearedExt_refl _
  | none => exact clearedExt_alloc _ _

theorem clearedExt_addEdge (st : St) (a b v : String) :
    ClearedExt st.heap (addEdge st a b v).heap := by
  unfold addEdge
  exact clearedExt_trans (clearedExt_getOrCreateNode st a)
    (clearedExt_getOrCreateNode (getOrCreateNode st a).1 b)

theorem clearedExt_replaceNode (st : St) (name : String) (nm : String) :
    ClearedExt st.heap (replaceNode st name ⟨nm, false, false⟩).heap := by
  unfold replaceNode heapAlloc
  exact clearedExt_alloc _ _

theorem clearedExt_normalizeOne (ns : NormSt) (p : Nat) :
    ClearedExt ns.st.heap (normalizeOne ns p).st.heap := by
  unfold normalizeOne
  dsimp only
  split
  · split
    · exact clearedExt_trans (clearedExt_trans (clearedExt_addEdge _ _ _ _)
        (clearedExt_replaceNode _ _ _))
        (clearedExt_trans (clearedExt_addEdge _ _ _ _) (clearedExt_replaceNode _ _ _))
    · exact clearedExt_trans (clearedExt_addEdge _ _ _ _) (clearedExt_replaceNode _ _ _)
  · split
    · exact clearedExt_trans (clearedExt_addEdge _ _ _ _) (clearedExt_replaceNode _ _ _)
    · exact clearedExt_refl _

theorem clearedExt_normalizeFold (ps : List Nat) (ns : NormSt) :
    ClearedExt ns.st.heap ((ps.foldl normalizeOne ns).st.heap) := by
  induction ps generalizing ns with
  | nil => exact clearedExt_refl _
  | cons p ps ih =>
    exact clearedExt_trans (clearedExt_normalizeOne ns p) (ih (normalizeOne ns p))

/-- Old flags are preserved pointwise by a cleared extension (out-of-range
cells read as the clear default on both sides). -/
theorem clearedExt_isInitial {h h' : Heap} (e : ClearedExt h h') (p : Nat) :
    (heapGet h' p).isInitial = (heapGet h p).isInitial := by
  obtain ⟨_, ho, hn⟩ := e
  by_cases hp : p < h.length
  · rw [ho p hp]
  · rw [(hn p (by omega)).1, heapGet_of_ge h p (by omega)]

theorem clearedExt_isTerminal {h h' : Heap} (e : ClearedExt h h') (p : Nat) :
    (heapGet h' p).isTerminal = (heapGet h p).isTerminal := by
  obtain ⟨_, ho, hn⟩ := e
  by_cases hp : p < h.length
  · rw [ho p hp]
  · rw [(hn p (by omega)).2, heapGet_of_ge h p (by omega)]

/-! ### The `nfaHasInitial` / `nfaHasTerminal` booleans -/

theorem normalizeOne_hasI (ns : NormSt) (p : Nat) :
    (normalizeOne ns p).hasI = (ns.hasI || (heapGet ns.st.heap p).isInitial) := by
  unfold normalizeOne
  dsimp only
  split
  · split <;> simp_all
  · split <;> simp_all

theorem normalizeOne_hasT (ns : NormSt) (p : Nat) :
    (normalizeOne ns p).hasT = (ns.hasT || (heapGet ns.st.heap p).isTerminal) := by
  unfold normalizeOne
  dsimp only
  split
  · split <;> simp_all
  · split <;> simp_all

theorem normalizeFold_hasI (ps : List Nat) (ns : NormSt) :
    ((ps.foldl normalizeOne ns).hasI : Bool) =
      (ns.hasI || ps.any (fun p => (heapGet ns.st.heap p).isInitial)) := by
  induction ps generalizing ns with
  | nil => simp
  | cons p ps ih =>
    rw [List.foldl_cons, ih, normalizeOne_hasI]
    have hpt : ∀ q, (heapGet (normalizeOne ns p).st.heap q).isInitial =
        (heapGet ns.st.heap q).isInitial :=
      fun q => clearedExt_isInitial (clearedExt_normalizeOne ns p) q
    simp only [List.any_cons, hpt]
    cases ns.hasI <;> simp [Bool.or_assoc]

theorem normalizeFold_hasT (ps : List Nat) (ns : NormSt) :
    ((ps.foldl normalizeOne ns).hasT : Bool) =
      (ns.hasT || ps.any (fun p => (heapGet ns.st.heap p).isTerminal)) := by
  induction ps generalizing ns with
  | nil => simp
  | cons p ps ih =>
    rw [List.foldl_cons, ih, normalizeOne_hasT]
    have hpt : ∀ q, (heapGet (normalizeOne ns p).st.heap q).isTerminal =
        (heapGet ns.st.heap q).isTerminal :=
      fun q => clearedExt_isTerminal (clearedExt_normalizeOne ns p) q
    simp only [List.any_cons, hpt]
    cases ns.hasT <;> simp [Bool.or_assoc]

/-! ### Structure of `getOrCreateNode` and `setupSynthetic` -/

theorem mapSet_absent (m : List (String × Nat)) (k : String) (v : Nat)
    (h : lookupName m k = none) : mapSet m k v = m ++ [(k, v)] := by
  induction m with
  | nil => rfl
  | cons pr rest ih =>
    obtain ⟨k', v'⟩ := pr
    unfold lookupName at h
    by_cases hk : k' = k
    · simp [hk] at h
    · simp only [hk, if_false] at h
      unfold mapSet
      simp [hk, ih h]

theorem getOrCreateNode_absent (st : St) (name : String)
    (h : lookupName st.nfa.nodes name = none) :
    getOrCreateNode st name =
      (⟨st.heap ++ [⟨name, false, false⟩],
        ⟨st.nfa.nodes ++ [(name, st.heap.length)], st.nfa.edges⟩⟩, st.heap.length) := by
  unfold getOrCreateNode heapAlloc
  rw [h]
  simp [mapSet_absent _ _ _ h]

theorem getOrCreateNode_present (st : St) (name : String) (p : Nat)
    (h : lookupName st.nfa.nodes name = some p) :
    getOrCreateNode st name = (st, p) := by
  unfold getOrCreateNode
  rw [h]

/-- Structure of `getOrCreateNode`: it extends the heap with clear records,
possibly appends one node-map entry pointing into the extension, and leaves
the edge list alone. -/
theorem getOrCreateNode_spec (st : St) (name : String) :
    ClearedExt st.heap (getOrCreateNode st name).1.heap ∧
    (getOrCreateNode st name).1.nfa.edges = st.nfa.edges ∧
    ∃ ext, (getOrCreateNode st name).1.nfa.nodes = st.nfa.nodes ++ ext ∧
      ∀ pr ∈ ext, st.heap.length ≤ pr.2 := by
  rcases hL : lookupName st.nfa.nodes name with _ | p
  · rw [getOrCreateNode_absent st name hL]
    exact ⟨clearedExt_alloc _ _, rfl, ⟨[(name, st.heap.length)], rfl, by simp⟩⟩
  · rw [getOrCreateNode_present st name p hL]
    exact ⟨clearedExt_refl _, rfl, ⟨[], by simp, by simp⟩⟩

/-- Structure of `setupSynthetic`: it only extends the heap with clear
records, appends to the node map (with pointers into the extension), and
leaves the edge list alone. -/
theorem setupSynthetic_spec (h : Heap) (nfa : NFA) :
    ClearedExt h (setupSynthetic ⟨h, nfa⟩).1.heap ∧
    (setupSynthetic ⟨h, nfa⟩).1.nfa.edges = nfa.edges ∧
    ∃ ext, (setupSynthetic ⟨h, nfa⟩).1.nfa.nodes = nfa.nodes ++ ext ∧
      ∀ pr ∈ ext, h.length ≤ pr.2 := by
  obtain ⟨ce1, he1, ext1, hn1, hb1⟩ := getOrCreateNode_spec ⟨h, nfa⟩ "__initial__"
  obtain ⟨ce2, he2, ext2, hn2, hb2⟩ :=
    getOrCreateNode_spec (getOrCreateNode ⟨h, nfa⟩ "__initial__").1 "__terminal__"
  have hsetup : (setupSynthetic ⟨h, nfa⟩).1 =
      (getOrCreateNode (getOrCreateNode ⟨h, nfa⟩ "__initial__").1 "__terminal__").1 := rfl
  rw [hsetup]
  refine ⟨clearedExt_trans ce1 ce2, by rw [he2, he1], ⟨ext1 ++ ext2, ?_, ?_⟩⟩
  · rw [hn2, hn1, List.append_assoc]
  · intro pr hpr
    rcases List.mem_append.1 hpr with hpr | hpr
    · exact hb1 pr hpr
    · exact le_trans ce1.1 (hb2 pr hpr)

/-! ## Claim C8: missing initial node -/

/-- Claim C8: a non-null automaton with at least one edge and no node
flagged initial makes `convert` return exactly the "no initial node(s)"
error (stated here for any automaton with no initial flag; the edge
hypothesis of the claim is kept although the code does not need it). -/
theorem c8_no_initial_error (h : Heap) (nfa : NFA)
    (_hedges : nfa.edges ≠ [])
    (hno : ∀ pr ∈ nfa.nodes, (heapGet h pr.2).isInitial = false) :
    (toRegex h (some nfa)).result = .error "NFA has no initial node(s)" := by
  obtain ⟨hce, _, ext, hnodes, hext⟩ := setupSynthetic_spec h nfa
  have hasIfalse : (normalizeNFA (setupSynthetic ⟨h, nfa⟩).1
      (setupSynthetic ⟨h, nfa⟩).2.1 (setupSynthetic ⟨h, nfa⟩).2.2).hasI = false := by
    show (((setupSynthetic ⟨h, nfa⟩).1.nfa.nodes.map Prod.snd).foldl normalizeOne
      ⟨(setupSynthetic ⟨h, nfa⟩).1, false, false⟩).hasI = false
    rw [normalizeFold_hasI]
    simp only [Bool.false_or, List.any_eq_false]
    rintro p hp
    rw [List.mem_map] at hp
    obtain ⟨pr, hpr, rfl⟩ := hp
    rw [hnodes, List.mem_append] at hpr
    rcases hpr with hpr | hpr
    · rw [clearedExt_isInitial hce]
      simp [hno pr hpr]
    · simp [(hce.2.2 pr.2 (hext pr hpr)).1]
  show (convertAfterStart h nfa (fun _ _ => none)).result = _
  unfold convertAfterStart
  simp only [hasIfalse]
  rfl

/-- Claim C8 (witness): a concrete automaton with an edge and no initial
flag. -/
theorem c8_no_initial_error_witness :
    (toRegex [⟨"a", false, false⟩, ⟨"b", false, true⟩]
      (some ⟨[("a", 0), ("b", 1)], [⟨0, 1, "z"⟩]⟩)).result =
      .error "NFA has no initial node(s)" := by
  have := c8_no_initial_error [⟨"a", false, false⟩, ⟨"b", false, true⟩]
    ⟨[("a", 0), ("b", 1)], [⟨0, 1, "z"⟩]⟩ (by decide) (by decide)
  exact this

/-! ## Well-formed automata

An automaton reachable through the package API (`NewNFA`, `AddEdge`, flag
assignment on looked-up nodes) satisfies: every map entry binds a name to an
in-range record carrying that name, map keys are distinct, and every edge
endpoint is a registered record. -/

/-- Pointer `p` is registered: looking its record's name up in the node map
yields `p` itself. -/
def Registered (h : Heap) (nfa : NFA) (p : Nat) : Prop :=
  lookupName nfa.nodes (heapGet h p).name = some p

instance (h : Heap) (nfa : NFA) (p : Nat) : Decidable (Registered h nfa p) := by
  unfold Registered; infer_instance

/-- Well-formed heap/automaton pair. -/
def WF (h : Heap) (nfa : NFA) : Prop :=
  (∀ pr ∈ nfa.nodes, pr.2 < h.length ∧ (heapGet h pr.2).name = pr.1) ∧
    (nfa.nodes.map Prod.fst).Nodup ∧
    ∀ e ∈ nfa.edges, Registered h nfa e.src ∧ Registered h nfa e.dst

instance (h : Heap) (nfa : NFA) : Decidable (WF h nfa) := by
  unfold WF; infer_instance

theorem lookupName_of_mem (m : List (String × Nat)) (hnd : (m.map Prod.fst).Nodup)
    (pr : String × Nat) (hpr : pr ∈ m) : lookupName m pr.1 = some pr.2 := by
  induction m with
  | nil => cases hpr
  | cons q rest ih =>
    rw [List.map_cons, List.nodup_cons] at hnd
    rcases List.mem_cons.1 hpr with rfl | hpr'
    · unfold lookupName; simp
    · have hq : q.1 ≠ pr.1 := fun hc => hnd.1 (hc ▸ List.mem_map.2 ⟨pr, hpr', rfl⟩)
      unfold lookupName
      rw [if_neg hq]
      exact ih hnd.2 hpr' 

theorem mem_of_lookupName (m : List (String × Nat)) (k : String) (p : Nat)
    (hL : lookupName m k = some p) : (k, p) ∈ m := by
  induction m with
  | nil => cases hL
  | cons q rest ih =>
    unfold lookupName at hL
    by_cases hq : q.1 = k
    · rw [if_pos hq] at hL
      obtain ⟨k', v'⟩ := q
      cases hL
      simp at hq
      subst hq
      exact List.mem_cons_self _ _
    · rw [if_neg hq] at hL
      exact List.mem_cons_of_mem _ (ih hL)

theorem wf_entry_registered {h : Heap} {nfa : NFA} (hwf : WF h nfa)
    {pr : String × Nat} (hpr : pr ∈ nfa.nodes) : Registered h nfa pr.2 := by
  unfold Registered
  rw [(hwf.1 pr hpr).2]
  exact lookupName_of_mem nfa.nodes hwf.2.1 pr hpr

theorem registered_name_inj {h : Heap} {nfa : NFA} {p q : Nat}
    (hp : Registered h nfa p) (hq : Registered h nfa q)
    (hn : (heapGet h p).name = (heapGet h q).name) : p = q := by
  unfold Registered at hp hq
  rw [hn] at hp
  rw [hp] at hq
  exact (Option.some_inj.1 hq)

/-! ## Claim C2: the simulator against the claim's reference computation -/

/-- Modelled from the claim text of C2 (the spec's reference computation,
§4.4): the set of names of nodes flagged initial. -/
def specInitials (h : Heap) (nfa : NFA) : Finset String :=
  ((nfa.nodes.filter (fun pr => (heapGet h pr.2).isInitial)).map Prod.fst).toFinset

/-- Modelled from the claim text of C2: one step replaces the active set by
the set of destinations of outbound edges of active nodes whose label equals
the one-symbol string exactly. -/
def specStep (h : Heap) (nfa : NFA) (A : Finset String) (c : Char) : Finset String :=
  ((nfa.edges.filter (fun e =>
      decide ((heapGet h e.src).name ∈ A) && (e.value = String.singleton c : Bool))).map
    (fun e => (heapGet h e.dst).name)).toFinset

/-- Whether the node registered under name `n` is flagged terminal. -/
def nodeTerminal (h : Heap) (nfa : NFA) (n : String) : Bool :=
  match lookupName nfa.nodes n with
  | some p => (heapGet h p).isTerminal
  | none => false

/-- Modelled from the claim text of C2: the whole reference computation —
start from the initial set, step through the input code point by code point,
accept iff some active node is flagged terminal (an empty set yields
false). -/
def matchSpec (h : Heap) (nfa : NFA) (input : String) : Bool :=
  let A := input.data.foldl (specStep h nfa) (specInitials h nfa)
  decide (∃ n ∈ A, nodeTerminal h nfa n = true)

/-- Relation between the simulator's active pointer list and the reference
computation's active name set. -/
def ActRel (h : Heap) (nfa : NFA) (act : List Nat) (A : Finset String) : Prop :=
  (∀ p ∈ act, Registered h nfa p) ∧
    ∀ n, n ∈ A ↔ ∃ p ∈ act, (heapGet h p).name = n

theorem actRel_init {h : Heap} {nfa : NFA} (hwf : WF h nfa) :
    ActRel h nfa ((nfa.nodes.map Prod.snd).filter (fun p => (heapGet h p).isInitial))
      (specInitials h nfa) := by
  constructor
  · intro p hp
    rw [List.mem_filter, List.mem_map] at hp
    obtain ⟨⟨pr, hpr, rfl⟩, _⟩ := hp
    exact wf_entry_registered hwf hpr
  · intro n
    unfold specInitials
    rw [List.mem_toFinset, List.mem_map]
    constructor
    · rintro ⟨pr, hpr, rfl⟩
      rw [List.mem_filter] at hpr
      refine ⟨pr.2, ?_, (hwf.1 pr hpr.1).2⟩
      rw [List.mem_filter, List.mem_map]
      exact ⟨⟨pr, hpr.1, rfl⟩, hpr.2⟩
    · rintro ⟨p, hp, rfl⟩
      rw [List.mem_filter, List.mem_map] at hp
      obtain ⟨⟨pr, hpr, rfl⟩, hinit⟩ := hp
      refine ⟨pr, ?_, (hwf.1 pr hpr).2.symm⟩
      rw [List.mem_filter]
      exact ⟨hpr, hinit⟩

theorem mem_matchStep {h : Heap} {nfa : NFA} {act : List Nat} {c : Char} {x : Nat} :
    x ∈ matchStep h nfa act c ↔
      ∃ p ∈ act, ∃ e ∈ nfa.edges,
        some e.src = lookupName nfa.nodes (heapGet h p).name ∧
          e.value = String.singleton c ∧ e.dst = x := by
  unfold matchStep edgesOut
  simp only [List.mem_flatMap, List.mem_map, List.mem_filter, decide_eq_true_eq]
  constructor
  · rintro ⟨p, hp, e, ⟨⟨he, hsrc⟩, hval⟩, rfl⟩
    exact ⟨p, hp, e, he, hsrc, hval, rfl⟩
  · rintro ⟨p, hp, e, he, hsrc, hval, rfl⟩
    exact ⟨p, hp, e, ⟨⟨he, hsrc⟩, hval⟩, rfl⟩

theorem actRel_step {h : Heap} {nfa : NFA} (hwf : WF h nfa) {act : List Nat}
    {A : Finset String} (hrel : ActRel h nfa act A) (c : Char) :
    ActRel h nfa (matchStep h nfa act c) (specStep h nfa A c) := by
  obtain ⟨hreg, hmem⟩ := hrel
  constructor
  · intro x hx
    rw [mem_matchStep] at hx
    obtain ⟨p, _, e, he, _, _, rfl⟩ := hx
    exact (hwf.2.2 e he).2
  · intro n
    unfold specStep
    rw [List.mem_toFinset, List.mem_map]
    constructor
    · rintro ⟨e, he, rfl⟩
      rw [List.mem_filter, Bool.and_eq_true, decide_eq_true_eq] at he
      obtain ⟨he, hA, hval⟩ := he
      obtain ⟨p, hp, hpn⟩ := (hmem _).1 hA
      have hsrc : p = e.src :=
        registered_name_inj (hreg p hp) (hwf.2.2 e he).1 hpn
      refine ⟨e.dst, ?_, rfl⟩
      rw [mem_matchStep]
      exact ⟨p, hp, e, he, by rw [hpn]; exact ((hwf.2.2 e he).1).symm, by simpa using hval, rfl⟩
    · rintro ⟨x, hx, rfl⟩
      rw [mem_matchStep] at hx
      obtain ⟨p, hp, e, he, hsrc, hval, rfl⟩ := hx
      have hps : e.src = p := by
        have := hreg p hp
        unfold Registered at this
        rw [this] at hsrc
        exact (Option.some_inj.1 hsrc)
      refine ⟨e, ?_, rfl⟩
      rw [List.mem_filter, Bool.and_eq_true, decide_eq_true_eq]
      refine ⟨he, ?_, by simpa using hval⟩
      exact (hmem _).2 ⟨p, hp, by rw [hps]⟩

theorem actRel_fold {h : Heap} {nfa : NFA} (hwf : WF h nfa) (cs : List Char)
    {act : List Nat} {A : Finset String} (hrel : ActRel h nfa act A) :
    ActRel h nfa (cs.foldl (matchStep h nfa) act) (cs.foldl (specStep h nfa) A) := by
  induction cs generalizing act A with
  | nil => exact hrel
  | cons c cs ih => exact ih (actRel_step hwf hrel c)

/-- Claim C2: on well-formed automata `Match` coincides with the reference
computation described by the claim (set of active nodes by name, one step
per code point, destinations of exactly-matching non-empty labels, terminal
check at the end, empty set propagating to false).  `Match` is a total
function, so it "never errors" by construction. -/
theorem c2_match_eq_matchSpec (h : Heap) (nfa : NFA) (hwf : WF h nfa) (input : String) :
    matchNFA h nfa input = matchSpec h nfa input := by
  unfold matchNFA matchSpec
  have hrel := actRel_fold hwf input.data (actRel_init hwf)
  obtain ⟨hreg, hmem⟩ := hrel
  rw [Bool.eq_iff_iff, List.any_eq_true, decide_eq_true_eq]
  constructor
  · rintro ⟨p, hp, hterm⟩
    refine ⟨(heapGet h p).name, (hmem _).2 ⟨p, hp, rfl⟩, ?_⟩
    unfold nodeTerminal
    rw [hreg p hp]
    exact hterm
  · rintro ⟨n, hn, hterm⟩
    obtain ⟨p, hp, rfl⟩ := (hmem _).1 hn
    refine ⟨p, hp, ?_⟩
    unfold nodeTerminal at hterm
    rw [hreg p hp] at hterm
    exact hterm

/-- Claim C2 (witness): the equality evaluated on a concrete well-formed
automaton and input. -/
theorem c2_match_eq_matchSpec_witness :
    matchNFA [⟨"1", true, false⟩, ⟨"2", false, true⟩]
        ⟨[("1", 0), ("2", 1)], [⟨0, 0, "a"⟩, ⟨0, 1, "b"⟩]⟩ "aab" =
      matchSpec [⟨"1", true, false⟩, ⟨"2", false, true⟩]
        ⟨[("1", 0), ("2", 1)], [⟨0, 0, "a"⟩, ⟨0, 1, "b"⟩]⟩ "aab" :=
  c2_match_eq_matchSpec _ _ (by decide) _

/-! ## Map and heap auxiliary lemmas -/

theorem lookupName_mapSet_self (m : List (String × Nat)) (k : String) (v : Nat) :
    lookupName (mapSet m k v) k = some v := by
  induction m with
  | nil => unfold mapSet lookupName; simp
  | cons pr rest ih =>
    obtain ⟨k', v'⟩ := pr
    unfold mapSet
    by_cases hk : k' = k
    · rw [if_pos hk]; unfold lookupName; simp
    · rw [if_neg hk]; unfold lookupName; simp [hk, ih]

theorem lookupName_cons (k0 : String) (v0 : Nat) (rest : List (String × Nat)) (name : String) :
    lookupName ((k0, v0) :: rest) name = if k0 = name then some v0 else lookupName rest name := rfl

theorem lookupName_mapSet_ne (m : List (String × Nat)) (k k' : String) (v : Nat)
    (hne : k' ≠ k) : lookupName (mapSet m k v) k' = lookupName m k' := by
  induction m with
  | nil =>
    show lookupName [(k, v)] k' = lookupName [] k'
    rw [lookupName_cons, if_neg (Ne.symm hne)]
  | cons pr rest ih =>
    obtain ⟨k0, v0⟩ := pr
    unfold mapSet
    by_cases hk : k0 = k
    · rw [if_pos hk, lookupName_cons, lookupName_cons,
        if_neg (Ne.symm hne), if_neg (by rw [hk]; exact Ne.symm hne)]
    · rw [if_neg hk, lookupName_cons, lookupName_cons]
      by_cases h0 : k0 = k'
      · rw [if_pos h0, if_pos h0]
      · rw [if_neg h0, if_neg h0, ih]

theorem mapSet_present_keys (m : List (String × Nat)) (k : String) (v : Nat)
    (hk : k ∈ m.map Prod.fst) : (mapSet m k v).map Prod.fst = m.map Prod.fst := by
  induction m with
  | nil => cases hk
  | cons pr rest ih =>
    obtain ⟨k0, v0⟩ := pr
    unfold mapSet
    by_cases h0 : k0 = k
    · rw [if_pos h0]; simp [h0]
    · rw [if_neg h0]
      have hk' : k ∈ rest.map Prod.fst := by
        rcases (by simpa using hk : k = k0 ∨ k ∈ rest.map Prod.fst) with h | h
        · exact absurd h.symm h0
        · exact h
      simp only [List.map_cons]
      rw [ih hk']

theorem lookupName_mapDelete_self (m : List (String × Nat)) (k : String) :
    lookupName (mapDelete m k) k = none := by
  induction m with
  | nil => rfl
  | cons pr rest ih =>
    obtain ⟨k0, v0⟩ := pr
    unfold mapDelete at ih ⊢
    rw [List.filter_cons]
    by_cases h0 : k0 = k
    · rw [if_neg (by simp [h0])]
      exact ih
    · rw [if_pos (by simp [h0]), lookupName_cons, if_neg h0]
      exact ih

theorem lookupName_mapDelete_ne (m : List (String × Nat)) (k k' : String) (hne : k' ≠ k) :
    lookupName (mapDelete m k) k' = lookupName m k' := by
  induction m with
  | nil => rfl
  | cons pr rest ih =>
    obtain ⟨k0, v0⟩ := pr
    unfold mapDelete at ih ⊢
    rw [List.filter_cons]
    by_cases h0 : k0 = k
    · rw [if_neg (by simp [h0]), lookupName_cons, if_neg (by rw [h0]; exact Ne.symm hne)]
      exact ih
    · rw [if_pos (by simp [h0]), lookupName_cons, lookupName_cons]
      by_cases h1 : k0 = k'
      · rw [if_pos h1, if_pos h1]
      · rw [if_neg h1, if_neg h1, ih]

theorem mapDelete_keys (m : List (String × Nat)) (k : String) :
    (mapDelete m k).map Prod.fst = (m.map Prod.fst).filter (fun n => !(n = k : Bool)) := by
  induction m with
  | nil => rfl
  | cons pr rest ih =>
    obtain ⟨k0, v0⟩ := pr
    unfold mapDelete at ih ⊢
    rw [List.filter_cons, List.map_cons, List.filter_cons]
    by_cases h0 : k0 = k
    · rw [if_neg (by simp [h0]), if_neg (by simp [h0])]
      exact ih
    · rw [if_pos (by simp [h0]), if_pos (by simp [h0]), List.map_cons, ih]

theorem mapDelete_of_not_mem (m : List (String × Nat)) (k : String)
    (hk : k ∉ m.map Prod.fst) : mapDelete m k = m := by
  induction m with
  | nil => rfl
  | cons pr rest ih =>
    obtain ⟨k0, v0⟩ := pr
    rw [List.map_cons] at hk
    unfold mapDelete at ih ⊢
    rw [List.filter_cons]
    have h0 : k0 ≠ k := fun hc => hk (by simp [hc])
    rw [if_pos (by simp [h0]), ih (fun hc => hk (by simp [hc]))]

theorem mapDelete_cons (m : List (String × Nat)) (k : String) (p : Nat)
    (hk : k ∉ m.map Prod.fst) : mapDelete ((k, p) :: m) k = m := by
  unfold mapDelete
  rw [List.filter_cons, if_neg (by simp)]
  exact mapDelete_of_not_mem m k hk

theorem heapGet_append_left (h : Heap) (ext : Heap) (p : Nat) (hp : p < h.length) :
    heapGet (h ++ ext) p = heapGet h p := by
  unfold heapGet
  rw [List.getD_eq_getElem?_getD, List.getD_eq_getElem?_getD, List.getElem?_append_left hp]

theorem heapGet_append_end (h : Heap) (r : NFANode) :
    heapGet (h ++ [r]) h.length = r := by
  unfold heapGet
  rw [List.getD_eq_getElem?_getD, List.getElem?_append_right (le_refl _)]
  simp

theorem heapGet_heapSet_ne (h : Heap) (q : Nat) (r : NFANode) (p : Nat) (hne : p ≠ q) :
    heapGet (heapSet h q r) p = heapGet h p := by
  unfold heapGet heapSet
  rw [List.getD_eq_getElem?_getD, List.getD_eq_getElem?_getD, List.getElem?_set_ne (Ne.symm hne)]

theorem heapGet_heapSet_self (h : Heap) (q : Nat) (r : NFANode) (hq : q < h.length) :
    heapGet (heapSet h q r) q = r := by
  unfold heapGet heapSet
  rw [List.getD_eq_getElem?_getD, List.getElem?_set_eq_of_lt r hq]
  rfl

/-! ## Computation lemmas for the mutating methods -/

/-- `AddEdge` when both endpoints exist: no allocation, no map change, one
appended edge. -/
theorem addEdge_present (st : St) (a b v : String) (pa pb : Nat)
    (ha : lookupName st.nfa.nodes a = some pa) (hb : lookupName st.nfa.nodes b = some pb) :
    addEdge st a b v =
      ⟨st.heap, st.nfa.nodes, st.nfa.edges ++ [⟨pa, pb, v⟩]⟩ := by
  unfold addEdge
  rw [getOrCreateNode_present st a pa ha]
  dsimp only
  rw [getOrCreateNode_present st b pb hb]

/-- `ReplaceNode` in explicit form. -/
theorem replaceNode_eq (st : St) (name : String) (rec : NFANode) :
    replaceNode st name rec =
      ⟨st.heap ++ [rec], mapSet st.nfa.nodes name st.heap.length,
        st.nfa.edges.map (fun e =>
          let e' := if some e.src = lookupName st.nfa.nodes name
            then { e with src := st.heap.length } else e
          if some e'.dst = lookupName st.nfa.nodes name
            then { e' with dst := st.heap.length } else e')⟩ := rfl

/-! ## The conversion invariant

`NInv` is the state invariant maintained from the moment the two synthetic
nodes have been created (for inputs without reserved-name collisions): the
state is well formed, the two captured pointers are registered under the
reserved names, their records are the untouched synthetic records (flags
according to `phase`: clear during normalization, set afterwards), and no
edge enters the synthetic initial node or leaves the synthetic terminal
node. -/

theorem ptr_of_lookup {h : Heap} {nfa : NFA} (hwf : WF h nfa) {n : String} {p : Nat}
    (hL : lookupName nfa.nodes n = some p) :
    p < h.length ∧ (heapGet h p).name = n := by
  have hm := mem_of_lookupName _ _ _ hL
  exact ⟨(hwf.1 _ hm).1, (hwf.1 _ hm).2⟩

theorem lookup_ptr_ne {h : Heap} {nfa : NFA} (hwf : WF h nfa) {n1 n2 : String} {p1 p2 : Nat}
    (hL1 : lookupName nfa.nodes n1 = some p1) (hL2 : lookupName nfa.nodes n2 = some p2)
    (hne : n1 ≠ n2) : p1 ≠ p2 := by
  intro hc
  apply hne
  rw [← (ptr_of_lookup hwf hL1).2, ← (ptr_of_lookup hwf hL2).2, hc]

theorem mem_mapSet_weak {m : List (String × Nat)} {k : String} {v : Nat} {pr : String × Nat}
    (hm : pr ∈ mapSet m k v) : pr = (k, v) ∨ pr ∈ m := by
  induction m with
  | nil =>
    unfold mapSet at hm
    exact Or.inl (List.mem_singleton.1 hm)
  | cons q rest ih =>
    obtain ⟨k0, v0⟩ := q
    unfold mapSet at hm
    by_cases h0 : k0 = k
    · rw [if_pos h0] at hm
      rcases List.mem_cons.1 hm with hm | hm
      · exact Or.inl hm
      · exact Or.inr (List.mem_cons_of_mem _ hm)
    · rw [if_neg h0] at hm
      rcases List.mem_cons.1 hm with hm | hm
      · exact Or.inr (hm ▸ List.mem_cons_self _ _)
      · rcases ih hm with hm' | hm'
        · exact Or.inl hm'
        · exact Or.inr (List.mem_cons_of_mem _ hm')

theorem lookup_mem_keys {m : List (String × Nat)} {k : String} {p : Nat}
    (hL : lookupName m k = some p) : k ∈ m.map Prod.fst :=
  List.mem_map.2 ⟨(k, p), mem_of_lookupName _ _ _ hL, rfl⟩

/-- `AddEdge` between two existing nodes preserves well-formedness. -/
theorem WF_addEdge_present {h : Heap} {nfa : NFA} (hwf : WF h nfa) {a b : String}
    {pa pb : Nat} (ha : lookupName nfa.nodes a = some pa)
    (hb : lookupName nfa.nodes b = some pb) (v : String) :
    WF h ⟨nfa.nodes, nfa.edges ++ [⟨pa, pb, v⟩]⟩ := by
  refine ⟨hwf.1, hwf.2.1, ?_⟩
  intro e he
  rcases List.mem_append.1 he with he | he
  · exact hwf.2.2 e he
  · rcases List.mem_singleton.1 he with rfl
    constructor
    · show lookupName nfa.nodes (heapGet h pa).name = some pa
      rw [(ptr_of_lookup hwf ha).2]
      exact ha
    · show lookupName nfa.nodes (heapGet h pb).name = some pb
      rw [(ptr_of_lookup hwf hb).2]
      exact hb

/-- The endpoint rewrite performed by `ReplaceNode`. -/
def ptrSubst (old : Option Nat) (q x : Nat) : Nat :=
  if some x = old then q else x

/-- `ReplaceNode` as an independent endpoint substitution (the sequential
two-`if` rewrite in the source never interferes: updating the source leaves
the destination untouched). -/
theorem replaceNode_eq2 (st : St) (name : String) (rec : NFANode) :
    replaceNode st name rec =
      ⟨st.heap ++ [rec], mapSet st.nfa.nodes name st.heap.length,
        st.nfa.edges.map (fun e =>
          ⟨ptrSubst (lookupName st.nfa.nodes name) st.heap.length e.src,
            ptrSubst (lookupName st.nfa.nodes name) st.heap.length e.dst, e.value⟩)⟩ := by
  rw [replaceNode_eq]
  have hmap : ∀ e : NFAEdge,
      (let e' := if some e.src = lookupName st.nfa.nodes name
        then { e with src := st.heap.length } else e
       if some e'.dst = lookupName st.nfa.nodes name
        then { e' with dst := st.heap.length } else e') =
      (⟨ptrSubst (lookupName st.nfa.nodes name) st.heap.length e.src,
        ptrSubst (lookupName st.nfa.nodes name) st.heap.length e.dst, e.value⟩ : NFAEdge) := by
    intro e
    unfold ptrSubst
    by_cases hs : some e.src = lookupName st.nfa.nodes name <;>
      by_cases hd : some e.dst = lookupName st.nfa.nodes name <;>
      simp [hs, hd]
  rw [List.map_congr_left (fun e _ => hmap e)]

/-- Pointer registration survives `ReplaceNode`'s substitution. -/
theorem registered_ptrSubst {h : Heap} {nfa : NFA} (hwf : WF h nfa) {name : String}
    {pOld : Nat} (hL : lookupName nfa.nodes name = some pOld) (bI bT : Bool)
    (edges' : List NFAEdge) {q : Nat} (hq : Registered h nfa q) :
    Registered (h ++ [⟨name, bI, bT⟩])
      ⟨mapSet nfa.nodes name h.length, edges'⟩
      (ptrSubst (some pOld) h.length q) := by
  unfold Registered at hq ⊢
  unfold ptrSubst
  by_cases hqp : some q = some pOld
  · rw [if_pos hqp]
    show lookupName (mapSet nfa.nodes name h.length)
      (heapGet (h ++ [⟨name, bI, bT⟩]) h.length).name = some h.length
    rw [heapGet_append_end]
    exact lookupName_mapSet_self _ _ _
  · rw [if_neg hqp]
    have hqp' : q ≠ pOld := fun hc => hqp (by rw [hc])
    have hqlt : q < h.length := (hwf.1 _ (mem_of_lookupName _ _ _ hq)).1
    show lookupName (mapSet nfa.nodes name h.length)
      (heapGet (h ++ [⟨name, bI, bT⟩]) q).name = some q
    rw [heapGet_append_left _ _ _ hqlt]
    have hname_ne : (heapGet h q).name ≠ name := by
      intro hc
      rw [hc] at hq
      rw [hq] at hL
      exact hqp' (Option.some_inj.1 hL.symm).symm
    rw [lookupName_mapSet_ne _ _ _ _ hname_ne]
    exact hq

/-- `ReplaceNode` (with a record carrying the replaced name) preserves
well-formedness. -/
theorem WF_replaceNode {h : Heap} {nfa : NFA} (hwf : WF h nfa) {name : String}
    {pOld : Nat} (hL : lookupName nfa.nodes name = some pOld) (bI bT : Bool) :
    WF (replaceNode ⟨h, nfa⟩ name ⟨name, bI, bT⟩).heap
      (replaceNode ⟨h, nfa⟩ name ⟨name, bI, bT⟩).nfa := by
  have heq := replaceNode_eq2 ⟨h, nfa⟩ name ⟨name, bI, bT⟩
  rw [heq]
  have hkeys := mapSet_present_keys nfa.nodes name h.length (lookup_mem_keys hL)
  refine ⟨?_, ?_, ?_⟩
  · intro pr hpr
    rcases mem_mapSet_weak hpr with rfl | hpr'
    · exact ⟨by simp, by rw [heapGet_append_end]⟩
    · obtain ⟨hlt, hname⟩ := hwf.1 pr hpr'
      refine ⟨by simp; omega, ?_⟩
      rw [heapGet_append_left _ _ _ hlt]
      exact hname
  · rw [hkeys]
    exact hwf.2.1
  · intro e' he'
    rw [List.mem_map] at he'
    obtain ⟨e, he, rfl⟩ := he'
    obtain ⟨hsrc, hdst⟩ := hwf.2.2 e he
    have h1 := registered_ptrSubst hwf hL bI bT
      ((replaceNode ⟨h, nfa⟩ name ⟨name, bI, bT⟩).nfa.edges) hsrc
    have h2 := registered_ptrSubst hwf hL bI bT
      ((replaceNode ⟨h, nfa⟩ name ⟨name, bI, bT⟩).nfa.edges) hdst
    unfold Registered at h1 h2 ⊢
    dsimp only
    rw [hL]
    rw [heq] at h1 h2
    dsimp only at h1 h2
    exact ⟨h1, h2⟩

/-- The conversion invariant, from synthetic-node creation onwards: the
state is well formed, the captured pointers are registered under the
reserved names, their records are the synthetic ones (flags `fI`/`fT`:
clear during normalization, set from the two assignments onwards), and no
edge enters the synthetic initial node or leaves the synthetic terminal
node. -/
structure CInv (h : Heap) (nfa : NFA) (iPtr tPtr : Nat) (fI fT : Bool) : Prop where
  wf : WF h nfa
  lookI : lookupName nfa.nodes "__initial__" = some iPtr
  lookT : lookupName nfa.nodes "__terminal__" = some tPtr
  recI : heapGet h iPtr = ⟨"__initial__", fI, false⟩
  recT : heapGet h tPtr = ⟨"__terminal__", false, fT⟩
  edgeInv : ∀ e ∈ nfa.edges, e.dst ≠ iPtr ∧ e.src ≠ tPtr

theorem CInv.iPtr_lt {h nfa iPtr tPtr fI fT} (inv : CInv h nfa iPtr tPtr fI fT) :
    iPtr < h.length := (ptr_of_lookup inv.wf inv.lookI).1

theorem CInv.tPtr_lt {h nfa iPtr tPtr fI fT} (inv : CInv h nfa iPtr tPtr fI fT) :
    tPtr < h.length := (ptr_of_lookup inv.wf inv.lookT).1

theorem CInv.iPtr_ne_tPtr {h nfa iPtr tPtr fI fT} (inv : CInv h nfa iPtr tPtr fI fT) :
    iPtr ≠ tPtr := by
  intro hc
  have h1 : (heapGet h iPtr).name = "__initial__" := by rw [inv.recI]
  have h2 : (heapGet h tPtr).name = "__terminal__" := by rw [inv.recT]
  rw [hc, h2] at h1
  exact absurd h1 (by decide)

/-- A pointer registered under a non-reserved name differs from the two
synthetic pointers. -/
theorem CInv.ne_synthetic {h nfa iPtr tPtr fI fT} (inv : CInv h nfa iPtr tPtr fI fT)
    {n : String} {cur : Nat} (hL : lookupName nfa.nodes n = some cur)
    (hnI : n ≠ "__initial__") (hnT : n ≠ "__terminal__") :
    cur ≠ iPtr ∧ cur ≠ tPtr :=
  ⟨lookup_ptr_ne inv.wf hL inv.lookI hnI, lookup_ptr_ne inv.wf hL inv.lookT hnT⟩

/-- `ReplaceNode` on a non-reserved name preserves the conversion
invariant; it rebinds that name to the fresh pointer and leaves the key
list unchanged. -/
theorem CInv_replaceNode {h nfa iPtr tPtr fI fT} (inv : CInv h nfa iPtr tPtr fI fT)
    {n : String} {cur : Nat} (hL : lookupName nfa.nodes n = some cur)
    (hnI : n ≠ "__initial__") (hnT : n ≠ "__terminal__") (bI bT : Bool) :
    CInv (replaceNode ⟨h, nfa⟩ n ⟨n, bI, bT⟩).heap
        (replaceNode ⟨h, nfa⟩ n ⟨n, bI, bT⟩).nfa iPtr tPtr fI fT ∧
      (replaceNode ⟨h, nfa⟩ n ⟨n, bI, bT⟩).nfa.nodes.map Prod.fst =
        nfa.nodes.map Prod.fst ∧
      lookupName (replaceNode ⟨h, nfa⟩ n ⟨n, bI, bT⟩).nfa.nodes n = some h.length ∧
      (replaceNode ⟨h, nfa⟩ n ⟨n, bI, bT⟩).heap = h ++ [⟨n, bI, bT⟩] := by
  have heq := replaceNode_eq2 ⟨h, nfa⟩ n ⟨n, bI, bT⟩
  have hwf' := WF_replaceNode inv.wf hL bI bT
  rw [heq] at hwf' ⊢
  dsimp only at hwf' ⊢
  refine ⟨⟨hwf', ?_, ?_, ?_, ?_, ?_⟩, ?_, ?_, rfl⟩
  · rw [lookupName_mapSet_ne _ _ _ _ (Ne.symm hnI)]
    exact inv.lookI
  · rw [lookupName_mapSet_ne _ _ _ _ (Ne.symm hnT)]
    exact inv.lookT
  · rw [heapGet_append_left _ _ _ inv.iPtr_lt]
    exact inv.recI
  · rw [heapGet_append_left _ _ _ inv.tPtr_lt]
    exact inv.recT
  · intro e' he'
    rw [List.mem_map] at he'
    obtain ⟨e, he, rfl⟩ := he'
    obtain ⟨hd, hs⟩ := inv.edgeInv e he
    unfold ptrSubst
    constructor
    · dsimp only
      split
      · have := inv.iPtr_lt; omega
      · exact hd
    · dsimp only
      split
      · have := inv.tPtr_lt; omega
      · exact hs
  · exact mapSet_present_keys _ _ _ (lookup_mem_keys hL)
  · exact lookupName_mapSet_self _ _ _

/-- `AddEdge("__initial__", n, "")` during normalization: explicit result
and invariant preservation. -/
theorem CInv_addEdge_initial {h nfa iPtr tPtr fI fT} (inv : CInv h nfa iPtr tPtr fI fT)
    {n : String} {cur : Nat} (hL : lookupName nfa.nodes n = some cur)
    (hnI : n ≠ "__initial__") (hnT : n ≠ "__terminal__") :
    addEdge ⟨h, nfa⟩ "__initial__" n "" =
        ⟨h, nfa.nodes, nfa.edges ++ [⟨iPtr, cur, ""⟩]⟩ ∧
      CInv h ⟨nfa.nodes, nfa.edges ++ [⟨iPtr, cur, ""⟩]⟩ iPtr tPtr fI fT := by
  have he := addEdge_present ⟨h, nfa⟩ "__initial__" n "" iPtr cur inv.lookI hL
  refine ⟨he, ⟨WF_addEdge_present inv.wf inv.lookI hL "", inv.lookI, inv.lookT,
    inv.recI, inv.recT, ?_⟩⟩
  intro e he'
  rcases List.mem_append.1 he' with he' | he'
  · exact inv.edgeInv e he'
  · rcases List.mem_singleton.1 he' with rfl
    exact ⟨(inv.ne_synthetic hL hnI hnT).1, inv.iPtr_ne_tPtr⟩

/-- `AddEdge(n, "__terminal__", "")` during normalization. -/
theorem CInv_addEdge_terminal {h nfa iPtr tPtr fI fT} (inv : CInv h nfa iPtr tPtr fI fT)
    {n : String} {cur : Nat} (hL : lookupName nfa.nodes n = some cur)
    (hnI : n ≠ "__initial__") (hnT : n ≠ "__terminal__") :
    addEdge ⟨h, nfa⟩ n "__terminal__" "" =
        ⟨h, nfa.nodes, nfa.edges ++ [⟨cur, tPtr, ""⟩]⟩ ∧
      CInv h ⟨nfa.nodes, nfa.edges ++ [⟨cur, tPtr, ""⟩]⟩ iPtr tPtr fI fT := by
  have he := addEdge_present ⟨h, nfa⟩ n "__terminal__" "" cur tPtr hL inv.lookT
  refine ⟨he, ⟨WF_addEdge_present inv.wf hL inv.lookT "", inv.lookI, inv.lookT,
    inv.recI, inv.recT, ?_⟩⟩
  intro e he'
  rcases List.mem_append.1 he' with he' | he'
  · exact inv.edgeInv e he'
  · rcases List.mem_singleton.1 he' with rfl
    exact ⟨Ne.symm inv.iPtr_ne_tPtr, (inv.ne_synthetic hL hnI hnT).2⟩

/-- Either a registered pointer or a record with both flags clear: the
property every node yielded by the normalization loop satisfies when its
turn comes. -/
def RegOrClear (st : St) (p : Nat) : Prop :=
  Registered st.heap st.nfa p ∨
    ((heapGet st.heap p).isInitial = false ∧ (heapGet st.heap p).isTerminal = false)

theorem registered_ne_name {h : Heap} {nfa : NFA} {p q : Nat}
    (hp : Registered h nfa p) (hq : Registered h nfa q) (hne : q ≠ p) :
    (heapGet h q).name ≠ (heapGet h p).name :=
  fun hc => hne (registered_name_inj hq hp hc)

theorem registered_replaceNode_other {h : Heap} {nfa : NFA} (hwf : WF h nfa)
    {n : String} {cur : Nat} (hL : lookupName nfa.nodes n = some cur) (bI bT : Bool)
    {q : Nat} (hq : Registered h nfa q) (hname : (heapGet h q).name ≠ n) :
    Registered (replaceNode ⟨h, nfa⟩ n ⟨n, bI, bT⟩).heap
      (replaceNode ⟨h, nfa⟩ n ⟨n, bI, bT⟩).nfa q := by
  rw [replaceNode_eq2]
  unfold Registered at hq ⊢
  dsimp only
  have hqlt : q < h.length := (hwf.1 _ (mem_of_lookupName _ _ _ hq)).1
  rw [heapGet_append_left _ _ _ hqlt, lookupName_mapSet_ne _ _ _ _ hname]
  exact hq

/-- The composite `AddEdge("__initial__", n, ""); ReplaceNode(n, clear)`
performed by the initial branch of the normalization loop. -/
theorem CInv_procInit {h nfa iPtr tPtr} (inv : CInv h nfa iPtr tPtr false false)
    {n : String} {cur : Nat} (hL : lookupName nfa.nodes n = some cur)
    (hnI : n ≠ "__initial__") (hnT : n ≠ "__terminal__") :
    CInv (replaceNode (addEdge ⟨h, nfa⟩ "__initial__" n "") n ⟨n, false, false⟩).heap
        (replaceNode (addEdge ⟨h, nfa⟩ "__initial__" n "") n ⟨n, false, false⟩).nfa
        iPtr tPtr false false ∧
      (replaceNode (addEdge ⟨h, nfa⟩ "__initial__" n "") n ⟨n, false, false⟩).nfa.nodes.map
          Prod.fst = nfa.nodes.map Prod.fst ∧
      lookupName (replaceNode (addEdge ⟨h, nfa⟩ "__initial__" n "") n
          ⟨n, false, false⟩).nfa.nodes n = some h.length ∧
      (replaceNode (addEdge ⟨h, nfa⟩ "__initial__" n "") n ⟨n, false, false⟩).heap =
        h ++ [⟨n, false, false⟩] ∧
      ∀ p', Registered h nfa p' → (heapGet h p').name ≠ n →
        Registered (replaceNode (addEdge ⟨h, nfa⟩ "__initial__" n "") n
            ⟨n, false, false⟩).heap
          (replaceNode (addEdge ⟨h, nfa⟩ "__initial__" n "") n ⟨n, false, false⟩).nfa p' := by
  obtain ⟨hadd, invA⟩ := CInv_addEdge_initial inv hL hnI hnT
  rw [hadd]
  obtain ⟨invR, hkeysR, hlookR, hheapR⟩ := CInv_replaceNode invA hL hnI hnT false false
  refine ⟨invR, hkeysR, hlookR, hheapR, ?_⟩
  intro p' hp' hname
  exact registered_replaceNode_other invA.wf hL false false hp' hname

/-- The composite `AddEdge(n, "__terminal__", ""); ReplaceNode(n, clear)`
performed by the terminal branch of the normalization loop. -/
theorem CInv_procTerm {h nfa iPtr tPtr} (inv : CInv h nfa iPtr tPtr false false)
    {n : String} {cur : Nat} (hL : lookupName nfa.nodes n = some cur)
    (hnI : n ≠ "__initial__") (hnT : n ≠ "__terminal__") :
    CInv (replaceNode (addEdge ⟨h, nfa⟩ n "__terminal__" "") n ⟨n, false, false⟩).heap
        (replaceNode (addEdge ⟨h, nfa⟩ n "__terminal__" "") n ⟨n, false, false⟩).nfa
        iPtr tPtr false false ∧
      (replaceNode (addEdge ⟨h, nfa⟩ n "__terminal__" "") n ⟨n, false, false⟩).nfa.nodes.map
          Prod.fst = nfa.nodes.map Prod.fst ∧
      (replaceNode (addEdge ⟨h, nfa⟩ n "__terminal__" "") n ⟨n, false, false⟩).heap =
        h ++ [⟨n, false, false⟩] ∧
      ∀ p', Registered h nfa p' → (heapGet h p').name ≠ n →
        Registered (replaceNode (addEdge ⟨h, nfa⟩ n "__terminal__" "") n
            ⟨n, false, false⟩).heap
          (replaceNode (addEdge ⟨h, nfa⟩ n "__terminal__" "") n ⟨n, false, false⟩).nfa p' := by
  obtain ⟨hadd, invA⟩ := CInv_addEdge_terminal inv hL hnI hnT
  rw [hadd]
  obtain ⟨invR, hkeysR, _, hheapR⟩ := CInv_replaceNode invA hL hnI hnT false false
  refine ⟨invR, hkeysR, hheapR, ?_⟩
  intro p' hp' hname
  exact registered_replaceNode_other invA.wf hL false false hp' hname

/-- Record names below the old heap length survive a heap extension. -/
theorem name_stable_append (h : Heap) (ext : Heap) (p : Nat) (hp : p < h.length) :
    heapGet (h ++ ext) p = heapGet h p := heapGet_append_left h ext p hp

/-- Combined induction step for the normalization loop: the invariant and
key list are preserved, and every other pointer keeps its
registered-or-clear status. -/
theorem normalize_step_all {h nfa iPtr tPtr} (inv : CInv h nfa iPtr tPtr false false)
    (b1 b2 : Bool) (p : Nat) (hp : RegOrClear ⟨h, nfa⟩ p) :
    CInv (normalizeOne ⟨⟨h, nfa⟩, b1, b2⟩ p).st.heap
        (normalizeOne ⟨⟨h, nfa⟩, b1, b2⟩ p).st.nfa iPtr tPtr false false ∧
      (normalizeOne ⟨⟨h, nfa⟩, b1, b2⟩ p).st.nfa.nodes.map Prod.fst =
        nfa.nodes.map Prod.fst ∧
      ∀ p', p' ≠ p → RegOrClear ⟨h, nfa⟩ p' →
        RegOrClear (normalizeOne ⟨⟨h, nfa⟩, b1, b2⟩ p).st p' := by
  by_cases hclear : (heapGet h p).isInitial = false ∧ (heapGet h p).isTerminal = false
  · have hid : normalizeOne ⟨⟨h, nfa⟩, b1, b2⟩ p = ⟨⟨h, nfa⟩, b1, b2⟩ := by
      unfold normalizeOne
      dsimp only
      rw [hclear.1, hclear.2]
      simp
    rw [hid]
    exact ⟨inv, rfl, fun p' _ hp' => hp'⟩
  · have hreg : Registered h nfa p := by
      rcases hp with hp | hp
      · exact hp
      · exact absurd hp hclear
    have hn_ne : (heapGet h p).name ≠ "__initial__" ∧ (heapGet h p).name ≠ "__terminal__" := by
      constructor
      · intro hc
        have hpi : p = iPtr := by
          unfold Registered at hreg
          rw [hc, inv.lookI] at hreg
          exact (Option.some_inj.1 hreg).symm
        rw [hpi, inv.recI] at hclear
        exact hclear ⟨rfl, rfl⟩
      · intro hc
        have hpt : p = tPtr := by
          unfold Registered at hreg
          rw [hc, inv.lookT] at hreg
          exact (Option.some_inj.1 hreg).symm
        rw [hpt, inv.recT] at hclear
        exact hclear ⟨rfl, rfl⟩
    by_cases hI : (heapGet h p).isInitial = true
    case neg =>
      have hIf : (heapGet h p).isInitial = false := by simpa using hI
      have hT : (heapGet h p).isTerminal = true := by
        by_contra hc
        exact hclear ⟨hIf, by simpa using hc⟩
      have hres : (normalizeOne ⟨⟨h, nfa⟩, b1, b2⟩ p).st =
          replaceNode (addEdge ⟨h, nfa⟩ (heapGet h p).name "__terminal__" "")
            (heapGet h p).name ⟨(heapGet h p).name, false, false⟩ := by
        unfold normalizeOne
        dsimp only
        rw [if_neg hI, if_pos hT]
      obtain ⟨invT, hkeysT, hheapT, hstabT⟩ := CInv_procTerm inv hreg hn_ne.1 hn_ne.2
      rw [hres]
      refine ⟨invT, hkeysT, ?_⟩
      intro p' hne hp'
      by_cases hc' : (heapGet h p').isInitial = false ∧ (heapGet h p').isTerminal = false
      · right
        have hce : ClearedExt h (replaceNode (addEdge ⟨h, nfa⟩ (heapGet h p).name
            "__terminal__" "") (heapGet h p).name
            ⟨(heapGet h p).name, false, false⟩).heap := by
          rw [hheapT]
          exact clearedExt_alloc _ _
        exact ⟨by rw [clearedExt_isInitial hce]; exact hc'.1,
          by rw [clearedExt_isTerminal hce]; exact hc'.2⟩
      · have hreg' : Registered h nfa p' := by
          rcases hp' with hp' | hp'
          · exact hp'
          · exact absurd hp' hc'
        left
        exact hstabT p' hreg' (registered_ne_name hreg hreg' hne)
    case pos =>
      have hres : (normalizeOne ⟨⟨h, nfa⟩, b1, b2⟩ p).st =
          (if (heapGet h p).isTerminal then
            replaceNode (addEdge (replaceNode (addEdge ⟨h, nfa⟩ "__initial__"
              (heapGet h p).name "") (heapGet h p).name ⟨(heapGet h p).name, false, false⟩)
              (heapGet h p).name "__terminal__" "")
              (heapGet h p).name ⟨(heapGet h p).name, false, false⟩
          else replaceNode (addEdge ⟨h, nfa⟩ "__initial__" (heapGet h p).name "")
            (heapGet h p).name ⟨(heapGet h p).name, false, false⟩) := by
        unfold normalizeOne
        dsimp only
        rw [if_pos hI]
        dsimp only
        by_cases hT : (heapGet h p).isTerminal = true
        · rw [if_pos hT, if_pos hT]
        · rw [if_neg (by simpa using hT), if_neg (by simpa using hT)]
      obtain ⟨invI, hkeysI, hlookI, hheapI, hstabI⟩ := CInv_procInit inv hreg hn_ne.1 hn_ne.2
      have hstabClear : ∀ st' : St, st'.heap = h ++ [⟨(heapGet h p).name, false, false⟩] ∨
          st'.heap = (h ++ [⟨(heapGet h p).name, false, false⟩]) ++
            [⟨(heapGet h p).name, false, false⟩] →
          ∀ p', (heapGet h p').isInitial = false ∧ (heapGet h p').isTerminal = false →
            (heapGet st'.heap p').isInitial = false ∧ (heapGet st'.heap p').isTerminal = false := by
        intro st' hh p' hc'
        have hce : ClearedExt h st'.heap := by
          rcases hh with hh | hh <;> rw [hh]
          · exact clearedExt_alloc _ _
          · exact clearedExt_trans (clearedExt_alloc _ _) (clearedExt_alloc _ _)
        exact ⟨by rw [clearedExt_isInitial hce]; exact hc'.1,
          by rw [clearedExt_isTerminal hce]; exact hc'.2⟩
      by_cases hT : (heapGet h p).isTerminal = true
      · rw [hres, if_pos hT]
        obtain ⟨invT, hkeysT, hheapT, hstabT⟩ :=
          CInv_procTerm invI hlookI hn_ne.1 hn_ne.2
        refine ⟨invT, by rw [hkeysT, hkeysI], ?_⟩
        intro p' hne hp'
        by_cases hc' : (heapGet h p').isInitial = false ∧ (heapGet h p').isTerminal = false
        · right
          refine hstabClear _ (Or.inr ?_) p' hc'
          rw [hheapT, hheapI]
        · have hreg' : Registered h nfa p' := by
            rcases hp' with hp' | hp'
            · exact hp'
            · exact absurd hp' hc'
          left
          have hname' : (heapGet h p').name ≠ (heapGet h p).name :=
            registered_ne_name hreg hreg' hne
          have hreg'' := hstabI p' hreg' hname'
          have hp'lt : p' < h.length := (inv.wf.1 _ (mem_of_lookupName _ _ _ hreg')).1
          have hname'' : (heapGet (replaceNode (addEdge ⟨h, nfa⟩ "__initial__"
              (heapGet h p).name "") (heapGet h p).name
              ⟨(heapGet h p).name, false, false⟩).heap p').name ≠ (heapGet h p).name := by
            rw [hheapI, name_stable_append _ _ _ hp'lt]
            exact hname'
          exact hstabT p' hreg'' hname''
      · rw [hres, if_neg (by simpa using hT)]
        refine ⟨invI, hkeysI, ?_⟩
        intro p' hne hp'
        by_cases hc' : (heapGet h p').isInitial = false ∧ (heapGet h p').isTerminal = false
        · right
          exact hstabClear _ (Or.inl hheapI) p' hc'
        · have hreg' : Registered h nfa p' := by
            rcases hp' with hp' | hp'
            · exact hp'
            · exact absurd hp' hc'
          left
          exact hstabI p' hreg' (registered_ne_name hreg hreg' hne)

/-! ## Setup-state facts and the normalization fold -/

theorem lookupName_append (m m' : List (String × Nat)) (k : String) :
    lookupName (m ++ m') k =
      match lookupName m k with
      | some p => some p
      | none => lookupName m' k := by
  induction m with
  | nil => rfl
  | cons pr rest ih =>
    obtain ⟨k0, v0⟩ := pr
    rw [List.cons_append, lookupName_cons, lookupName_cons]
    by_cases h0 : k0 = k
    · rw [if_pos h0, if_pos h0]
    · rw [if_neg h0, if_neg h0, ih]

theorem lookupName_eq_none_iff (m : List (String × Nat)) (k : String) :
    lookupName m k = none ↔ k ∉ m.map Prod.fst := by
  induction m with
  | nil => simp [lookupName]
  | cons pr rest ih =>
    obtain ⟨k0, v0⟩ := pr
    rw [lookupName_cons, List.map_cons]
    by_cases h0 : k0 = k
    · simp [h0]
    · simp only [if_neg h0, List.mem_cons, ih]
      constructor
      · intro hk hc
        rcases hc with hc | hc
        · exact h0 hc.symm
        · exact hk hc
      · intro hk
        exact fun hc => hk (Or.inr hc)

theorem heapGet_append_right (h ext : Heap) (p : Nat) (hp : h.length ≤ p) :
    heapGet (h ++ ext) p = heapGet ext (p - h.length) := by
  unfold heapGet
  rw [List.getD_eq_getElem?_getD, List.getD_eq_getElem?_getD,
    List.getElem?_append_right hp]

/-- With distinct keys, an entry is determined by its key. -/
theorem entry_eq_of_fst_eq {m : List (String × Nat)} (hnd : (m.map Prod.fst).Nodup)
    {pr1 pr2 : String × Nat} (h1 : pr1 ∈ m) (h2 : pr2 ∈ m) (hk : pr1.1 = pr2.1) :
    pr1 = pr2 := by
  have e1 := lookupName_of_mem m hnd pr1 h1
  have e2 := lookupName_of_mem m hnd pr2 h2
  rw [hk, e2] at e1
  exact Prod.ext hk (Option.some_inj.1 e1.symm)

/-- Well-formedness makes the pointer column of the node map duplicate
free. -/
theorem WF_snd_nodup {h : Heap} {nfa : NFA} (hwf : WF h nfa) :
    (nfa.nodes.map Prod.snd).Nodup := by
  have hnodes : nfa.nodes.Nodup := List.Nodup.of_map _ hwf.2.1
  refine List.Nodup.map_on ?_ hnodes
  intro pr1 h1 pr2 h2 hsnd
  have hn1 := (hwf.1 pr1 h1).2
  have hn2 := (hwf.1 pr2 h2).2
  apply entry_eq_of_fst_eq hwf.2.1 h1 h2
  rw [← hn1, ← hn2, hsnd]

/-- Overwriting a record with one carrying the same name preserves
well-formedness. -/
theorem WF_heapSet_same_name {h : Heap} {nfa : NFA} (hwf : WF h nfa) {q : Nat}
    (r : NFANode) (hname : r.name = (heapGet h q).name) :
    WF (heapSet h q r) nfa := by
  have hstable : ∀ x, (heapGet (heapSet h q r) x).name = (heapGet h x).name := by
    intro x
    by_cases hx : x = q
    · subst hx
      by_cases hq : x < h.length
      · rw [heapGet_heapSet_self h x r hq, hname]
      · unfold heapSet
        rw [List.set_eq_of_length_le (by omega)]
    · rw [heapGet_heapSet_ne h q r x hx]
  refine ⟨?_, hwf.2.1, ?_⟩
  · intro pr hpr
    obtain ⟨hlt, hn⟩ := hwf.1 pr hpr
    refine ⟨by simpa [heapSet] using hlt, ?_⟩
    rw [hstable, hn]
  · intro e he
    obtain ⟨hs, hd⟩ := hwf.2.2 e he
    unfold Registered at hs hd ⊢
    rw [hstable, hstable]
    exact ⟨hs, hd⟩

/-- `setupSynthetic` on an automaton without reserved names: both synthetic
nodes are freshly allocated. -/
theorem setupSynthetic_noReserved (h : Heap) (nfa : NFA)
    (hrI : lookupName nfa.nodes "__initial__" = none)
    (hrT : lookupName nfa.nodes "__terminal__" = none) :
    setupSynthetic ⟨h, nfa⟩ =
      (⟨h ++ [⟨"__initial__", false, false⟩, ⟨"__terminal__", false, false⟩],
        ⟨nfa.nodes ++ [("__initial__", h.length), ("__terminal__", h.length + 1)],
          nfa.edges⟩⟩, h.length, h.length + 1) := by
  unfold setupSynthetic
  rw [getOrCreateNode_absent _ _ hrI]
  dsimp only
  have hrT2 : lookupName (nfa.nodes ++ [("__initial__", h.length)]) "__terminal__" = none := by
    rw [lookupName_append, hrT]
    rfl
  rw [getOrCreateNode_absent _ _ hrT2]
  dsimp only
  rw [List.append_assoc, List.append_assoc]
  simp

/-- The normalization fold preserves the invariant and the key list, given
that each yielded pointer is registered or clear and pointers are not
repeated. -/
theorem normalize_fold_all {iPtr tPtr : Nat} :
    ∀ (ps : List Nat) (ns : NormSt),
      CInv ns.st.heap ns.st.nfa iPtr tPtr false false →
      (∀ p ∈ ps, RegOrClear ns.st p) →
      ps.Nodup →
      CInv (ps.foldl normalizeOne ns).st.heap (ps.foldl normalizeOne ns).st.nfa
          iPtr tPtr false false ∧
        (ps.foldl normalizeOne ns).st.nfa.nodes.map Prod.fst =
          ns.st.nfa.nodes.map Prod.fst := by
  intro ps
  induction ps with
  | nil => exact fun ns inv _ _ => ⟨inv, rfl⟩
  | cons p rest ih =>
    intro ns inv hro hnd
    obtain ⟨inv', hkeys', hstab'⟩ :=
      normalize_step_all inv ns.hasI ns.hasT p (hro p (by simp))
    rw [List.foldl_cons]
    have hro' : ∀ q ∈ rest, RegOrClear (normalizeOne ns p).st q := by
      intro q hq
      have hqne : q ≠ p := by
        intro hc
        rw [List.nodup_cons] at hnd
        exact hnd.1 (hc ▸ hq)
      exact hstab' q hqne (hro q (by simp [hq]))
    obtain ⟨invF, hkeysF⟩ := ih (normalizeOne ns p) inv' hro'
      (by rw [List.nodup_cons] at hnd; exact hnd.2)
    exact ⟨invF, by rw [hkeysF, hkeys']⟩

/-- The two flag assignments after the loop turn the clear synthetic
records into the initial/terminal ones, leaving all other cells alone. -/
theorem CInv_setFlags {h : Heap} {nfa : NFA} {iPtr tPtr : Nat}
    (inv : CInv h nfa iPtr tPtr false false) :
    CInv (heapSet (heapSet h iPtr { heapGet h iPtr with isInitial := true }) tPtr
          { heapGet (heapSet h iPtr { heapGet h iPtr with isInitial := true }) tPtr with
              isTerminal := true })
        nfa iPtr tPtr true true ∧
      ∀ p, p ≠ iPtr → p ≠ tPtr →
        heapGet (heapSet (heapSet h iPtr { heapGet h iPtr with isInitial := true }) tPtr
          { heapGet (heapSet h iPtr { heapGet h iPtr with isInitial := true }) tPtr with
              isTerminal := true }) p = heapGet h p := by
  have hne := inv.iPtr_ne_tPtr
  have hrI : heapGet h iPtr = ⟨"__initial__", false, false⟩ := inv.recI
  have hrT : heapGet h tPtr = ⟨"__terminal__", false, false⟩ := inv.recT
  have h1get : heapGet (heapSet h iPtr { heapGet h iPtr with isInitial := true }) tPtr =
      ⟨"__terminal__", false, false⟩ := by
    rw [heapGet_heapSet_ne h iPtr _ tPtr (Ne.symm hne), hrT]
  have hwf1 : WF (heapSet h iPtr { heapGet h iPtr with isInitial := true }) nfa :=
    WF_heapSet_same_name inv.wf _ rfl
  have hwf2 : WF (heapSet (heapSet h iPtr { heapGet h iPtr with isInitial := true }) tPtr
      { heapGet (heapSet h iPtr { heapGet h iPtr with isInitial := true }) tPtr with
          isTerminal := true }) nfa :=
    WF_heapSet_same_name hwf1 _ rfl
  have hlt1 : iPtr < h.length := inv.iPtr_lt
  have hlt2 : tPtr < (heapSet h iPtr { heapGet h iPtr with isInitial := true }).length := by
    have := inv.tPtr_lt
    simpa [heapSet] using this
  refine ⟨⟨hwf2, inv.lookI, inv.lookT, ?_, ?_, inv.edgeInv⟩, ?_⟩
  · rw [heapGet_heapSet_ne _ tPtr _ iPtr hne,
      heapGet_heapSet_self h iPtr _ hlt1, hrI]
  · rw [heapGet_heapSet_self _ tPtr _ hlt2, h1get]
  · intro p hpi hpt
    rw [heapGet_heapSet_ne _ tPtr _ p hpt, heapGet_heapSet_ne _ iPtr _ p hpi]

theorem map_fst_split {m : List (String × Nat)} {K : List String} {k1 k2 : String}
    (hm : m.map Prod.fst = K ++ [k1, k2]) :
    ∃ A a b, m = A ++ [(k1, a), (k2, b)] ∧ A.map Prod.fst = K := by
  induction K generalizing m with
  | nil =>
    rw [List.nil_append] at hm
    rcases m with _ | ⟨⟨x1, a⟩, m⟩
    · simp at hm
    rcases m with _ | ⟨⟨x2, b⟩, m⟩
    · simp at hm
    rcases m with _ | ⟨pr3, m⟩
    · simp only [List.map_cons, List.map_nil] at hm
      rw [List.cons.injEq, List.cons.injEq] at hm
      obtain ⟨h1, h2, -⟩ := hm
      exact ⟨[], a, b, by rw [List.nil_append, h1, h2], rfl⟩
    · simp at hm
  | cons k K ih =>
    rcases m with _ | ⟨pr, m'⟩
    · simp at hm
    rw [List.map_cons, List.cons_append, List.cons.injEq] at hm
    obtain ⟨A, a, b, hsplit, hA⟩ := ih hm.2
    refine ⟨pr :: A, a, b, by rw [List.cons_append, hsplit], ?_⟩
    rw [List.map_cons, hA, hm.1]

theorem any_map_snd (l : List (String × Nat)) (f : Nat → Bool) :
    (l.map Prod.snd).any f = l.any (fun pr => f pr.2) := by
  induction l with
  | nil => rfl
  | cons x xs ih => rw [List.map_cons, List.any_cons, List.any_cons, ih]

theorem list_any_congr {α : Type} {l : List α} {f g : α → Bool}
    (h : ∀ x ∈ l, f x = g x) : l.any f = l.any g := by
  induction l with
  | nil => rfl
  | cons x xs ih =>
    rw [List.any_cons, List.any_cons, h x (by simp), ih (fun y hy => h y (by simp [hy]))]

/-- Master lemma: after `setupSynthetic` and `normalizeNFA` on a well-formed
automaton without reserved names, the conversion invariant holds with the
synthetic flags set; the node map is the original entries (rebound) followed
by the two synthetic ones; heap cells of the caller are untouched; and the
two booleans say exactly whether the original automaton had an
initial/terminal flag. -/
theorem normalize_establishes (h : Heap) (nfa : NFA) (hwf : WF h nfa)
    (hrI : lookupName nfa.nodes "__initial__" = none)
    (hrT : lookupName nfa.nodes "__terminal__" = none) :
    CInv (normalizeNFA (setupSynthetic ⟨h, nfa⟩).1 (setupSynthetic ⟨h, nfa⟩).2.1
          (setupSynthetic ⟨h, nfa⟩).2.2).st.heap
        (normalizeNFA (setupSynthetic ⟨h, nfa⟩).1 (setupSynthetic ⟨h, nfa⟩).2.1
          (setupSynthetic ⟨h, nfa⟩).2.2).st.nfa
        h.length (h.length + 1) true true ∧
      (∃ ents : List (String × Nat),
        (normalizeNFA (setupSynthetic ⟨h, nfa⟩).1 (setupSynthetic ⟨h, nfa⟩).2.1
            (setupSynthetic ⟨h, nfa⟩).2.2).st.nfa.nodes =
          ents ++ [("__initial__", h.length), ("__terminal__", h.length + 1)] ∧
        ents.map Prod.fst = nfa.nodes.map Prod.fst) ∧
      (∀ p, p < h.length →
        heapGet (normalizeNFA (setupSynthetic ⟨h, nfa⟩).1 (setupSynthetic ⟨h, nfa⟩).2.1
          (setupSynthetic ⟨h, nfa⟩).2.2).st.heap p = heapGet h p) ∧
      (normalizeNFA (setupSynthetic ⟨h, nfa⟩).1 (setupSynthetic ⟨h, nfa⟩).2.1
          (setupSynthetic ⟨h, nfa⟩).2.2).hasI =
        nfa.nodes.any (fun pr => (heapGet h pr.2).isInitial) ∧
      (normalizeNFA (setupSynthetic ⟨h, nfa⟩).1 (setupSynthetic ⟨h, nfa⟩).2.1
          (setupSynthetic ⟨h, nfa⟩).2.2).hasT =
        nfa.nodes.any (fun pr => (heapGet h pr.2).isTerminal) := by
  have hsetup := setupSynthetic_noReserved h nfa hrI hrT
  rw [hsetup]
  dsimp only
  -- names for the setup state
  set H2 : Heap := h ++ [⟨"__initial__", false, false⟩, ⟨"__terminal__", false, false⟩]
    with hH2
  set N2 : NFA := ⟨nfa.nodes ++ [("__initial__", h.length), ("__terminal__", h.length + 1)],
    nfa.edges⟩ with hN2
  have hgetI : heapGet H2 h.length = ⟨"__initial__", false, false⟩ := by
    rw [hH2, heapGet_append_right h _ h.length (le_refl _)]
    simp [heapGet]
  have hgetT : heapGet H2 (h.length + 1) = ⟨"__terminal__", false, false⟩ := by
    rw [hH2, heapGet_append_right h _ (h.length + 1) (by omega)]
    simp [heapGet]
  have hgetOld : ∀ p, p < h.length → heapGet H2 p = heapGet h p := by
    intro p hp
    rw [hH2, heapGet_append_left _ _ _ hp]
  have hlookI2 : lookupName N2.nodes "__initial__" = some h.length := by
    rw [hN2]
    dsimp only
    rw [lookupName_append, hrI]
    rfl
  have hlookT2 : lookupName N2.nodes "__terminal__" = some (h.length + 1) := by
    rw [hN2]
    dsimp only
    rw [lookupName_append, hrT]
    rw [lookupName_cons, if_neg (by decide), lookupName_cons, if_pos rfl]
  have hkeys2 : N2.nodes.map Prod.fst =
      nfa.nodes.map Prod.fst ++ ["__initial__", "__terminal__"] := by
    rw [hN2]
    simp
  have hwf2 : WF H2 N2 := by
    refine ⟨?_, ?_, ?_⟩
    · intro pr hpr
      rw [hN2] at hpr
      rcases List.mem_append.1 hpr with hpr | hpr
      · obtain ⟨hlt, hn⟩ := hwf.1 pr hpr
        refine ⟨by rw [hH2]; simp; omega, ?_⟩
        rw [hgetOld pr.2 hlt]
        exact hn
      · rcases List.mem_cons.1 hpr with rfl | hpr
        · exact ⟨by rw [hH2]; simp, by rw [hgetI]⟩
        · rcases List.mem_singleton.1 hpr with rfl
          exact ⟨by rw [hH2]; simp, by rw [hgetT]⟩
    · rw [hkeys2]
      refine List.Nodup.append hwf.2.1 (by decide) ?_
      intro k hk1 hk2
      rcases List.mem_cons.1 hk2 with rfl | hk2
      · rw [lookupName_eq_none_iff] at hrI
        exact hrI hk1
      · rcases List.mem_singleton.1 hk2 with rfl
        rw [lookupName_eq_none_iff] at hrT
        exact hrT hk1
    · intro e he
      rw [hN2] at he
      obtain ⟨hs, hd⟩ := hwf.2.2 e he
      constructor
      · unfold Registered at hs ⊢
        have hlt : e.src < h.length := (ptr_of_lookup hwf hs).1
        rw [hgetOld e.src hlt, hN2]
        dsimp only
        rw [lookupName_append, hs]
      · unfold Registered at hd ⊢
        have hlt : e.dst < h.length := (ptr_of_lookup hwf hd).1
        rw [hgetOld e.dst hlt, hN2]
        dsimp only
        rw [lookupName_append, hd]
  have inv2 : CInv H2 N2 h.length (h.length + 1) false false := by
    refine ⟨hwf2, hlookI2, hlookT2, hgetI, hgetT, ?_⟩
    intro e he
    rw [hN2] at he
    obtain ⟨hs, hd⟩ := hwf.2.2 e he
    have hlts : e.src < h.length := (ptr_of_lookup hwf hs).1
    have hltd : e.dst < h.length := (ptr_of_lookup hwf hd).1
    exact ⟨by omega, by omega⟩
  -- the normalization fold
  have hro2 : ∀ p ∈ N2.nodes.map Prod.snd, RegOrClear ⟨H2, N2⟩ p := by
    intro p hp
    rw [List.mem_map] at hp
    obtain ⟨pr, hpr, rfl⟩ := hp
    exact Or.inl (wf_entry_registered hwf2 hpr)
  obtain ⟨invF, hkeysF⟩ := normalize_fold_all (N2.nodes.map Prod.snd)
    ⟨⟨H2, N2⟩, false, false⟩ inv2 hro2 (WF_snd_nodup hwf2)
  -- unfold normalizeNFA into fold + the two flag assignments
  have hnorm : normalizeNFA ⟨H2, N2⟩ h.length (h.length + 1) =
      ⟨⟨heapSet (heapSet ((N2.nodes.map Prod.snd).foldl normalizeOne
            ⟨⟨H2, N2⟩, false, false⟩).st.heap h.length
          { heapGet ((N2.nodes.map Prod.snd).foldl normalizeOne
              ⟨⟨H2, N2⟩, false, false⟩).st.heap h.length with isInitial := true })
          (h.length + 1)
          { heapGet (heapSet ((N2.nodes.map Prod.snd).foldl normalizeOne
              ⟨⟨H2, N2⟩, false, false⟩).st.heap h.length
            { heapGet ((N2.nodes.map Prod.snd).foldl normalizeOne
                ⟨⟨H2, N2⟩, false, false⟩).st.heap h.length with isInitial := true })
              (h.length + 1) with isTerminal := true },
        ((N2.nodes.map Prod.snd).foldl normalizeOne ⟨⟨H2, N2⟩, false, false⟩).st.nfa⟩,
        ((N2.nodes.map Prod.snd).foldl normalizeOne ⟨⟨H2, N2⟩, false, false⟩).hasI,
        ((N2.nodes.map Prod.snd).foldl normalizeOne ⟨⟨H2, N2⟩, false, false⟩).hasT⟩ := rfl
  obtain ⟨invTT, hcells⟩ := CInv_setFlags invF
  have hceF : ClearedExt H2 ((N2.nodes.map Prod.snd).foldl normalizeOne
      ⟨⟨H2, N2⟩, false, false⟩).st.heap :=
    clearedExt_normalizeFold (N2.nodes.map Prod.snd) ⟨⟨H2, N2⟩, false, false⟩
  refine ⟨?_, ?_, ?_, ?_, ?_⟩
  · rw [hnorm]
    exact invTT
  · rw [hnorm]
    dsimp only
    obtain ⟨ents, a, b, hsplit, hA⟩ := map_fst_split (by rw [hkeysF, hkeys2])
    have ha : a = h.length := by
      have hlook := invF.lookI
      rw [hsplit, lookupName_append] at hlook
      have hnone : lookupName ents "__initial__" = none := by
        rw [lookupName_eq_none_iff, hA]
        rw [lookupName_eq_none_iff] at hrI
        exact hrI
      rw [hnone] at hlook
      rw [lookupName_cons, if_pos rfl] at hlook
      exact Option.some_inj.1 hlook
    have hb : b = h.length + 1 := by
      have hlook := invF.lookT
      rw [hsplit, lookupName_append] at hlook
      have hnone : lookupName ents "__terminal__" = none := by
        rw [lookupName_eq_none_iff, hA]
        rw [lookupName_eq_none_iff] at hrT
        exact hrT
      rw [hnone] at hlook
      rw [lookupName_cons, if_neg (by decide), lookupName_cons, if_pos rfl] at hlook
      exact Option.some_inj.1 hlook
    exact ⟨ents, by rw [hsplit, ha, hb], hA⟩
  · intro p hp
    rw [hnorm]
    dsimp only
    rw [hcells p (by omega) (by omega)]
    rw [hceF.2.1 p (by rw [hH2]; simp; omega), hgetOld p hp]
  · rw [hnorm]
    dsimp only
    rw [normalizeFold_hasI]
    dsimp only
    rw [Bool.false_or]
    show ((nfa.nodes ++ [("__initial__", h.length), ("__terminal__", h.length + 1)]).map
      Prod.snd).any _ = _
    rw [List.map_append, List.any_append]
    have hnew : ([("__initial__", h.length), ("__terminal__", h.length + 1)].map
        Prod.snd).any (fun p => (heapGet H2 p).isInitial) = false := by
      simp [hgetI, hgetT]
    rw [hnew, Bool.or_false]
    have hcongr : (nfa.nodes.map Prod.snd).any (fun p => (heapGet H2 p).isInitial) =
        (nfa.nodes.map Prod.snd).any (fun p => (heapGet h p).isInitial) := by
      apply list_any_congr
      intro p hp
      rw [List.mem_map] at hp
      obtain ⟨pr, hpr, rfl⟩ := hp
      rw [hgetOld pr.2 (hwf.1 pr hpr).1]
    rw [hcongr]
    exact any_map_snd _ _
  · rw [hnorm]
    dsimp only
    rw [normalizeFold_hasT]
    dsimp only
    rw [Bool.false_or]
    show ((nfa.nodes ++ [("__initial__", h.length), ("__terminal__", h.length + 1)]).map
      Prod.snd).any _ = _
    rw [List.map_append, List.any_append]
    have hnew : ([("__initial__", h.length), ("__terminal__", h.length + 1)].map
        Prod.snd).any (fun p => (heapGet H2 p).isTerminal) = false := by
      simp [hgetI, hgetT]
    rw [hnew, Bool.or_false]
    have hcongr : (nfa.nodes.map Prod.snd).any (fun p => (heapGet H2 p).isTerminal) =
        (nfa.nodes.map Prod.snd).any (fun p => (heapGet h p).isTerminal) := by
      apply list_any_congr
      intro p hp
      rw [List.mem_map] at hp
      obtain ⟨pr, hpr, rfl⟩ := hp
      rw [hgetOld pr.2 (hwf.1 pr hpr).1]
    rw [hcongr]
    exact any_map_snd _ _

/-! ## The elimination phase -/

theorem edges_of_edgesIn {nfa : NFA} {name : String} {e : NFAEdge}
    (he : e ∈ edgesIn nfa name) : e ∈ nfa.edges := (List.mem_filter.1 he).1

theorem edges_of_edgesOut {nfa : NFA} {name : String} {e : NFAEdge}
    (he : e ∈ edgesOut nfa name) : e ∈ nfa.edges := (List.mem_filter.1 he).1

/-- One product-edge insertion during elimination: the heap and node map are
untouched, one edge between already-present endpoints is appended, and the
invariant survives. -/
theorem CInv_addProduct {h : Heap} {nfa : NFA} {iPtr tPtr : Nat}
    (inv : CInv h nfa iPtr tPtr true true) {inSrc outDst : Nat} (v : String)
    (hin : Registered h nfa inSrc) (hout : Registered h nfa outDst)
    (hSrcNe : inSrc ≠ tPtr) (hDstNe : outDst ≠ iPtr) :
    addEdge ⟨h, nfa⟩ (heapGet h inSrc).name (heapGet h outDst).name v =
        ⟨h, nfa.nodes, nfa.edges ++ [⟨inSrc, outDst, v⟩]⟩ ∧
      CInv h ⟨nfa.nodes, nfa.edges ++ [⟨inSrc, outDst, v⟩]⟩ iPtr tPtr true true := by
  have he := addEdge_present ⟨h, nfa⟩ (heapGet h inSrc).name (heapGet h outDst).name v
    inSrc outDst hin hout
  refine ⟨he, ⟨WF_addEdge_present inv.wf hin hout v, inv.lookI, inv.lookT,
    inv.recI, inv.recT, ?_⟩⟩
  intro e he'
  rcases List.mem_append.1 he' with he' | he'
  · exact inv.edgeInv e he'
  · rcases List.mem_singleton.1 he' with rfl
    exact ⟨hDstNe, hSrcNe⟩

/-- The inner fold of `elimProducts` (over a fixed list of outbound edges):
heap and node map unchanged, edges only appended, invariant preserved. -/
theorem elimProducts_inner {h : Heap} {iPtr tPtr : Nat} {inE : NFAEdge} (mid : String) :
    ∀ (outs : List NFAEdge) (nfa : NFA),
      CInv h nfa iPtr tPtr true true →
      (∀ e ∈ outs, e ∈ nfa.edges) →
      inE ∈ nfa.edges →
      ∃ extra,
        outs.foldl (fun st2 outE =>
          if outE.src = outE.dst then st2
          else addEdge st2 (heapGet st2.heap inE.src).name
            (heapGet st2.heap outE.dst).name (inE.value ++ mid ++ outE.value))
          ⟨h, nfa⟩ = ⟨h, nfa.nodes, nfa.edges ++ extra⟩ ∧
        CInv h ⟨nfa.nodes, nfa.edges ++ extra⟩ iPtr tPtr true true := by
  intro outs
  induction outs with
  | nil =>
    intro nfa inv _ _
    refine ⟨[], ?_, by simpa using inv⟩
    rw [List.foldl_nil, List.append_nil]
  | cons outE outs ih =>
    intro nfa inv houts hinE
    rw [List.foldl_cons]
    by_cases hself : outE.src = outE.dst
    · rw [if_pos hself]
      exact ih nfa inv (fun e he => houts e (by simp [he])) hinE
    · rw [if_neg hself]
      have houtE := houts outE (by simp)
      obtain ⟨hadd, inv'⟩ := CInv_addProduct inv (inE.value ++ mid ++ outE.value)
        (inv.wf.2.2 inE hinE).1 (inv.wf.2.2 outE houtE).2
        (inv.edgeInv inE hinE).2 (inv.edgeInv outE houtE).1
      rw [hadd]
      obtain ⟨extra, hfold, inv''⟩ := ih ⟨nfa.nodes, nfa.edges ++ [⟨inE.src, outE.dst,
          inE.value ++ mid ++ outE.value⟩]⟩ inv'
        (fun e he => by simp [houts e (by simp [he])]) (by simp [hinE])
      refine ⟨⟨inE.src, outE.dst, inE.value ++ mid ++ outE.value⟩ :: extra, ?_, ?_⟩
      · rw [hfold]
        simp
      · simpa using inv''
  
/-- The outer fold of `elimProducts`. -/
theorem elimProducts_inv {h : Heap} {iPtr tPtr : Nat} (name mid : String) :
    ∀ (inEdges : List NFAEdge) (nfa : NFA),
      CInv h nfa iPtr tPtr true true →
      (∀ e ∈ inEdges, e ∈ nfa.edges) →
      ∃ extra,
        elimProducts ⟨h, nfa⟩ name mid inEdges = ⟨h, nfa.nodes, nfa.edges ++ extra⟩ ∧
          CInv h ⟨nfa.nodes, nfa.edges ++ extra⟩ iPtr tPtr true true := by
  intro inEdges
  induction inEdges with
  | nil =>
    intro nfa inv _
    refine ⟨[], ?_, by simpa using inv⟩
    unfold elimProducts
    rw [List.foldl_nil, List.append_nil]
  | cons inE rest ih =>
    intro nfa inv hins
    unfold elimProducts
    rw [List.foldl_cons]
    by_cases hself : inE.src = inE.dst
    · rw [if_pos hself]
      obtain ⟨extra, hfold, inv'⟩ := ih nfa inv (fun e he => hins e (by simp [he]))
      refine ⟨extra, ?_, inv'⟩
      unfold elimProducts at hfold
      exact hfold
    · rw [if_neg hself]
      obtain ⟨extra1, hfold1, inv1⟩ := elimProducts_inner mid
        (edgesOut nfa name) nfa inv (fun e he => edges_of_edgesOut he)
        (hins inE (by simp))
      rw [hfold1]
      obtain ⟨extra2, hfold2, inv2⟩ := ih ⟨nfa.nodes, nfa.edges ++ extra1⟩ inv1
        (fun e he => by simp [hins e (by simp [he])])
      refine ⟨extra1 ++ extra2, ?_, ?_⟩
      · unfold elimProducts at hfold2
        rw [hfold2]
        simp
      · simpa using inv2

/-- `RemoveNode` on a registered, non-reserved name preserves the
invariant. -/
theorem CInv_removeNode {h : Heap} {nfa : NFA} {iPtr tPtr : Nat}
    (inv : CInv h nfa iPtr tPtr true true) {n : String} {p : Nat}
    (hL : lookupName nfa.nodes n = some p)
    (hnI : n ≠ "__initial__") (hnT : n ≠ "__terminal__") :
    CInv h (removeNode nfa n) iPtr tPtr true true ∧
      (removeNode nfa n).nodes = mapDelete nfa.nodes n := by
  have hrem : removeNode nfa n =
      ⟨mapDelete nfa.nodes n,
        nfa.edges.filter (fun e => !(some e.src = some p ∨ some e.dst = some p : Bool))⟩ := by
    unfold removeNode
    rw [hL]
  rw [hrem]
  refine ⟨⟨⟨?_, ?_, ?_⟩, ?_, ?_, inv.recI, inv.recT, ?_⟩, rfl⟩
  · intro pr hpr
    exact inv.wf.1 pr (List.mem_filter.1 hpr).1
  · rw [mapDelete_keys]
    exact List.Nodup.filter _ inv.wf.2.1
  · intro e he
    rw [List.mem_filter] at he
    obtain ⟨he, hcond⟩ := he
    have hsp : e.src ≠ p ∧ e.dst ≠ p := by
      constructor
      · intro hc
        simp [hc] at hcond
      · intro hc
        simp [hc] at hcond
    obtain ⟨hs, hd⟩ := inv.wf.2.2 e he
    constructor
    · unfold Registered at hs ⊢
      dsimp only
      rw [lookupName_mapDelete_ne _ _ _ ?hne]
      · exact hs
      case hne =>
        intro hc
        rw [hc, hL] at hs
        exact hsp.1 (Option.some_inj.1 hs.symm)
    · unfold Registered at hd ⊢
      dsimp only
      rw [lookupName_mapDelete_ne _ _ _ ?hne2]
      · exact hd
      case hne2 =>
        intro hc
        rw [hc, hL] at hd
        exact hsp.2 (Option.some_inj.1 hd.symm)
  · dsimp only
    rw [lookupName_mapDelete_ne _ _ _ (Ne.symm hnI)]
    exact inv.lookI
  · dsimp only
    rw [lookupName_mapDelete_ne _ _ _ (Ne.symm hnT)]
    exact inv.lookT
  · intro e he
    exact inv.edgeInv e (List.mem_filter.1 he).1

theorem elimPass_nil (iPtr tPtr : Nat) (cb : StepCallback) (r : RunSt) :
    elimPass iPtr tPtr cb [] r = .ok r := rfl

theorem elimPass_cons (iPtr tPtr : Nat) (cb : StepCallback) (p : Nat) (ps : List Nat)
    (r : RunSt) :
    elimPass iPtr tPtr cb (p :: ps) r =
      if p = iPtr ∨ p = tPtr then elimPass iPtr tPtr cb ps r
      else
        match cb (elimNode ⟨r.heap, r.nfa⟩ (heapGet r.heap p).name).nfa
            ("remove-node-" ++ (heapGet r.heap p).name) with
        | some e => .error ⟨(elimNode ⟨r.heap, r.nfa⟩ (heapGet r.heap p).name).heap,
            r.trace ++ ["remove-node-" ++ (heapGet r.heap p).name],
            stepCallbackErrMsg ("remove-node-" ++ (heapGet r.heap p).name) e⟩
        | none => elimPass iPtr tPtr cb ps
            ⟨(elimNode ⟨r.heap, r.nfa⟩ (heapGet r.heap p).name).heap,
              (elimNode ⟨r.heap, r.nfa⟩ (heapGet r.heap p).name).nfa,
              r.trace ++ ["remove-node-" ++ (heapGet r.heap p).name]⟩ := rfl

/-- Elimination of a node at the head of the node map: the invariant
survives, exactly that entry disappears, and the heap is untouched. -/
theorem elim_step {h : Heap} {nfa : NFA} {iPtr tPtr : Nat}
    (inv : CInv h nfa iPtr tPtr true true) {n : String} {p : Nat}
    {rest : List (String × Nat)}
    (hshape : nfa.nodes =
      (n, p) :: (rest ++ [("__initial__", iPtr), ("__terminal__", tPtr)])) :
    CInv (elimNode ⟨h, nfa⟩ n).heap (elimNode ⟨h, nfa⟩ n).nfa iPtr tPtr true true ∧
      (elimNode ⟨h, nfa⟩ n).nfa.nodes =
        rest ++ [("__initial__", iPtr), ("__terminal__", tPtr)] ∧
      (elimNode ⟨h, nfa⟩ n).heap = h ∧
      (heapGet h p).name = n ∧ p ≠ iPtr ∧ p ≠ tPtr := by
  have hmem : (n, p) ∈ nfa.nodes := by rw [hshape]; exact List.mem_cons_self _ _
  have hname : (heapGet h p).name = n := (inv.wf.1 _ hmem).2
  have hnotin : n ∉ (rest ++ [("__initial__", iPtr), ("__terminal__", tPtr)]).map Prod.fst := by
    have hnd := inv.wf.2.1
    rw [hshape, List.map_cons, List.nodup_cons] at hnd
    exact hnd.1
  have hnI : n ≠ "__initial__" := by
    intro hc
    exact hnotin (by rw [hc, List.map_append, List.mem_append]; right; simp)
  have hnT : n ≠ "__terminal__" := by
    intro hc
    exact hnotin (by rw [hc, List.map_append, List.mem_append]; right; simp)
  have hL : lookupName nfa.nodes n = some p := lookupName_of_mem _ inv.wf.2.1 _ hmem
  have hpi : p ≠ iPtr := lookup_ptr_ne inv.wf hL inv.lookI hnI
  have hpt : p ≠ tPtr := lookup_ptr_ne inv.wf hL inv.lookT hnT
  obtain ⟨mid, hmid⟩ : ∃ mid, elimNode ⟨h, nfa⟩ n =
      ⟨(elimProducts ⟨h, nfa⟩ n mid (edgesIn nfa n)).heap,
        removeNode (elimProducts ⟨h, nfa⟩ n mid (edgesIn nfa n)).nfa n⟩ := ⟨_, rfl⟩
  obtain ⟨extra, hprod, inv'⟩ := elimProducts_inv n mid
    (edgesIn nfa n) nfa inv (fun e he => edges_of_edgesIn he)
  have helim : elimNode ⟨h, nfa⟩ n =
      ⟨h, removeNode ⟨nfa.nodes, nfa.edges ++ extra⟩ n⟩ := by
    rw [hmid, hprod]
  have hL' : lookupName (⟨nfa.nodes, nfa.edges ++ extra⟩ : NFA).nodes n = some p := hL
  obtain ⟨invR, hnodesR⟩ := CInv_removeNode inv' hL' hnI hnT
  rw [helim]
  refine ⟨invR, ?_, rfl, hname, hpi, hpt⟩
  show (removeNode ⟨nfa.nodes, nfa.edges ++ extra⟩ n).nodes = _
  rw [hnodesR]
  show mapDelete nfa.nodes n = _
  rw [hshape]
  exact mapDelete_cons _ n p hnotin

/-- A successful elimination pass: every non-synthetic entry is eliminated
in map order, the callback fires once per eliminated node, the heap is
untouched. -/
theorem elimPass_ok_run {iPtr tPtr : Nat} {cbf : String → Option String} :
    ∀ (ents : List (String × Nat)) (r : RunSt),
      CInv r.heap r.nfa iPtr tPtr true true →
      r.nfa.nodes = ents ++ [("__initial__", iPtr), ("__terminal__", tPtr)] →
      (∀ pr ∈ ents, cbf ("remove-node-" ++ pr.1) = none) →
      ∃ r' : RunSt,
        elimPass iPtr tPtr (fun _ s => cbf s) (ents.map Prod.snd ++ [iPtr, tPtr]) r =
            .ok r' ∧
          CInv r'.heap r'.nfa iPtr tPtr true true ∧
          r'.nfa.nodes = [("__initial__", iPtr), ("__terminal__", tPtr)] ∧
          r'.heap = r.heap ∧
          r'.trace = r.trace ++ ents.map (fun pr => "remove-node-" ++ pr.1) := by
  intro ents
  induction ents with
  | nil =>
    intro r inv hshape _
    refine ⟨r, ?_, inv, by rw [hshape]; rfl, rfl, by simp⟩
    rw [List.map_nil, List.nil_append, elimPass_cons, if_pos (Or.inl rfl),
      elimPass_cons, if_pos (Or.inr rfl), elimPass_nil]
  | cons pr rest ih =>
    intro r inv hshape hcb
    obtain ⟨n, p⟩ := pr
    obtain ⟨inv', hnodes', hheap', hname, hpi, hpt⟩ := elim_step inv hshape
    rw [List.map_cons, List.cons_append]
    dsimp only
    rw [elimPass_cons, if_neg (by intro hc; rcases hc with hc | hc; exacts [hpi hc, hpt hc])]
    rw [hname, hcb (n, p) (by simp)]
    have hinv2 : CInv (elimNode ⟨r.heap, r.nfa⟩ n).heap
        (elimNode ⟨r.heap, r.nfa⟩ n).nfa iPtr tPtr true true := inv'
    obtain ⟨r', hrun, invF, hnodesF, hheapF, htraceF⟩ :=
      ih ⟨(elimNode ⟨r.heap, r.nfa⟩ n).heap, (elimNode ⟨r.heap, r.nfa⟩ n).nfa,
        r.trace ++ ["remove-node-" ++ n]⟩ hinv2 hnodes'
        (fun q hq => hcb q (by simp [hq]))
    refine ⟨r', hrun, invF, hnodesF, ?_, ?_⟩
    · rw [hheapF]
      exact hheap'
    · rw [htraceF]
      dsimp only
      rw [List.append_assoc]
      rfl

/-- An elimination pass aborted by the first callback error. -/
theorem elimPass_abort_run {iPtr tPtr : Nat} {cbf : String → Option String} :
    ∀ (pre : List (String × Nat)) (n0 : String) (p0 : Nat)
      (post : List (String × Nat)) (r : RunSt) (e : String),
      CInv r.heap r.nfa iPtr tPtr true true →
      r.nfa.nodes = (pre ++ (n0, p0) :: post) ++
        [("__initial__", iPtr), ("__terminal__", tPtr)] →
      (∀ pr ∈ pre, cbf ("remove-node-" ++ pr.1) = none) →
      cbf ("remove-node-" ++ n0) = some e →
      elimPass iPtr tPtr (fun _ s => cbf s)
          ((pre ++ (n0, p0) :: post).map Prod.snd ++ [iPtr, tPtr]) r =
        .error ⟨r.heap,
          r.trace ++ (pre.map (fun pr => "remove-node-" ++ pr.1) ++ ["remove-node-" ++ n0]),
          stepCallbackErrMsg ("remove-node-" ++ n0) e⟩ := by
  intro pre
  induction pre with
  | nil =>
    intro n0 p0 post r e inv hshape _ hcb0
    rw [List.nil_append] at hshape
    obtain ⟨inv', hnodes', hheap', hname, hpi, hpt⟩ := elim_step inv hshape
    rw [List.nil_append, List.map_cons, List.cons_append]
    dsimp only
    rw [elimPass_cons, if_neg (by intro hc; rcases hc with hc | hc; exacts [hpi hc, hpt hc])]
    rw [hname, hcb0, hheap']
    rw [List.map_nil, List.nil_append]
  | cons q pre ih =>
    intro n0 p0 post r e inv hshape hcb hcb0
    obtain ⟨n, p⟩ := q
    have hshape2 : r.nfa.nodes = (n, p) :: ((pre ++ (n0, p0) :: post) ++
        [("__initial__", iPtr), ("__terminal__", tPtr)]) := by
      rw [hshape]
      simp
    obtain ⟨inv', hnodes', hheap', hname, hpi, hpt⟩ := elim_step inv hshape2
    rw [List.cons_append, List.map_cons, List.cons_append]
    dsimp only
    rw [elimPass_cons, if_neg (by intro hc; rcases hc with hc | hc; exacts [hpi hc, hpt hc])]
    rw [hname, hcb (n, p) (by simp)]
    have hnodes2 : (elimNode ⟨r.heap, r.nfa⟩ n).nfa.nodes =
        (pre ++ (n0, p0) :: post) ++ [("__initial__", iPtr), ("__terminal__", tPtr)] := by
      rw [hnodes', List.append_assoc]
    have hres := ih n0 p0 post
      ⟨(elimNode ⟨r.heap, r.nfa⟩ n).heap, (elimNode ⟨r.heap, r.nfa⟩ n).nfa,
        r.trace ++ ["remove-node-" ++ n]⟩ e inv' hnodes2
      (fun q hq => hcb q (by simp [hq])) hcb0
    rw [hres]
    dsimp only
    rw [hheap']
    simp

/-! ## Heap extension through the elimination phase (any callback) -/

theorem clearedExt_elimProducts (name mid : String) :
    ∀ (inEdges : List NFAEdge) (st : St),
      ClearedExt st.heap (elimProducts st name mid inEdges).heap := by
  intro inEdges
  induction inEdges with
  | nil => intro st; exact clearedExt_refl _
  | cons inE rest ih =>
    intro st
    unfold elimProducts
    rw [List.foldl_cons]
    by_cases hself : inE.src = inE.dst
    · rw [if_pos hself]
      exact ih st
    · rw [if_neg hself]
      have hinner : ∀ (outs : List NFAEdge) (st0 : St),
          ClearedExt st0.heap ((outs.foldl (fun st2 outE =>
            if outE.src = outE.dst then st2
            else addEdge st2 (heapGet st2.heap inE.src).name
              (heapGet st2.heap outE.dst).name (inE.value ++ mid ++ outE.value)) st0)).heap := by
        intro outs
        induction outs with
        | nil => intro st0; exact clearedExt_refl _
        | cons outE outs ih2 =>
          intro st0
          rw [List.foldl_cons]
          by_cases hs : outE.src = outE.dst
          · rw [if_pos hs]
            exact ih2 st0
          · rw [if_neg hs]
            exact clearedExt_trans (clearedExt_addEdge _ _ _ _) (ih2 _)
      exact clearedExt_trans (hinner _ _) (ih _)

theorem clearedExt_elimNode (st : St) (name : String) :
    ClearedExt st.heap (elimNode st name).heap := by
  unfold elimNode
  exact clearedExt_elimProducts _ _ _ _

/-- The heap carried out of the pass, successful or aborted. -/
def heapOfExcept : Except Abort RunSt → Heap
  | .ok r => r.heap
  | .error a => a.heap

theorem clearedExt_elimPass (iPtr tPtr : Nat) (cb : StepCallback) :
    ∀ (ps : List Nat) (r : RunSt),
      ClearedExt r.heap (heapOfExcept (elimPass iPtr tPtr cb ps r)) := by
  intro ps
  induction ps with
  | nil => intro r; exact clearedExt_refl _
  | cons p ps ih =>
    intro r
    rw [elimPass_cons]
    by_cases hskip : p = iPtr ∨ p = tPtr
    · rw [if_pos hskip]
      exact ih r
    · rw [if_neg hskip]
      rcases hcb : cb (elimNode ⟨r.heap, r.nfa⟩ (heapGet r.heap p).name).nfa
          ("remove-node-" ++ (heapGet r.heap p).name) with _ | e
      · exact clearedExt_trans
          (clearedExt_elimNode ⟨r.heap, r.nfa⟩ (heapGet r.heap p).name)
          (ih ⟨(elimNode ⟨r.heap, r.nfa⟩ (heapGet r.heap p).name).heap,
            (elimNode ⟨r.heap, r.nfa⟩ (heapGet r.heap p).name).nfa,
            r.trace ++ ["remove-node-" ++ (heapGet r.heap p).name]⟩)
      · exact clearedExt_elimNode ⟨r.heap, r.nfa⟩ (heapGet r.heap p).name

theorem clearedExt_elimLoopF (iPtr tPtr : Nat) (cb : StepCallback) :
    ∀ (fuel : Nat) (r : RunSt),
      ClearedExt r.heap (heapOfExcept (elimLoopF iPtr tPtr cb fuel r)) := by
  intro fuel
  induction fuel with
  | zero => intro r; exact clearedExt_refl _
  | succ fuel ih =>
    intro r
    unfold elimLoopF
    by_cases hguard : r.nfa.nodes.length > 2
    · rw [if_pos hguard]
      rcases hpass : elimPass iPtr tPtr cb (r.nfa.nodes.map Prod.snd) r with a | r'
      · have := clearedExt_elimPass iPtr tPtr cb (r.nfa.nodes.map Prod.snd) r
        rw [hpass] at this
        exact this
      · have h1 := clearedExt_elimPass iPtr tPtr cb (r.nfa.nodes.map Prod.snd) r
        rw [hpass] at h1
        exact clearedExt_trans h1 (ih r')
    · rw [if_neg hguard]
      exact clearedExt_refl _

/-! ## The elimination loop and the full conversion run -/

theorem elimLoopF_succ (iPtr tPtr : Nat) (cb : StepCallback) (fuel : Nat) (r : RunSt) :
    elimLoopF iPtr tPtr cb (fuel + 1) r =
      if r.nfa.nodes.length > 2 then
        match elimPass iPtr tPtr cb (r.nfa.nodes.map Prod.snd) r with
        | .error a => .error a
        | .ok r' => elimLoopF iPtr tPtr cb fuel r'
      else .ok r := rfl

theorem map_of_map_fst_eq (f : String → String) :
    ∀ {A B : List (String × Nat)}, A.map Prod.fst = B.map Prod.fst →
      A.map (fun pr => f pr.1) = B.map (fun pr => f pr.1)
  | [], [], _ => rfl
  | [], _ :: _, hAB => by simp at hAB
  | _ :: _, [], hAB => by simp at hAB
  | a :: as, b :: bs, hAB => by
    simp only [List.map_cons, List.cons.injEq] at hAB
    simp only [List.map_cons, List.cons.injEq]
    exact ⟨by rw [hAB.1], map_of_map_fst_eq f hAB.2⟩

theorem elimLoop_ok_run {iPtr tPtr : Nat} {cbf : String → Option String}
    (ents : List (String × Nat)) (r : RunSt)
    (inv : CInv r.heap r.nfa iPtr tPtr true true)
    (hshape : r.nfa.nodes = ents ++ [("__initial__", iPtr), ("__terminal__", tPtr)])
    (hcb : ∀ pr ∈ ents, cbf ("remove-node-" ++ pr.1) = none) :
    ∃ r' : RunSt,
      elimLoopF iPtr tPtr (fun _ s => cbf s) r.nfa.nodes.length r = .ok r' ∧
        CInv r'.heap r'.nfa iPtr tPtr true true ∧
        r'.nfa.nodes = [("__initial__", iPtr), ("__terminal__", tPtr)] ∧
        r'.heap = r.heap ∧
        r'.trace = r.trace ++ ents.map (fun pr => "remove-node-" ++ pr.1) := by
  rcases ents with _ | ⟨e0, es⟩
  · refine ⟨r, ?_, inv, by rw [hshape]; rfl, rfl, by simp⟩
    have hlen : r.nfa.nodes.length = 1 + 1 := by rw [hshape]; rfl
    rw [hlen, elimLoopF_succ]
    rw [if_neg (by omega)]
  · obtain ⟨r1, hpass, inv1, hnodes1, hheap1, htrace1⟩ :=
      elimPass_ok_run (e0 :: es) r inv hshape hcb
    refine ⟨r1, ?_, inv1, hnodes1, hheap1, htrace1⟩
    have hlen : r.nfa.nodes.length = (es.length + 2) + 1 := by
      rw [hshape]
      simp only [List.length_append, List.length_cons, List.length_nil]
    rw [hlen, elimLoopF_succ]
    rw [if_pos (by omega)]
    have hsnap : r.nfa.nodes.map Prod.snd =
        (e0 :: es).map Prod.snd ++ [iPtr, tPtr] := by
      rw [hshape, List.map_append]
      rfl
    rw [hsnap, hpass]
    show elimLoopF iPtr tPtr (fun _ s => cbf s) (es.length + 2) r1 = Except.ok r1
    rw [show es.length + 2 = (es.length + 1) + 1 from rfl, elimLoopF_succ]
    rw [if_neg (by rw [hnodes1]; simp)]

theorem elimLoop_abort_run {iPtr tPtr : Nat} {cbf : String → Option String}
    (pre : List (String × Nat)) (n0 : String) (p0 : Nat) (post : List (String × Nat))
    (r : RunSt) (e : String)
    (inv : CInv r.heap r.nfa iPtr tPtr true true)
    (hshape : r.nfa.nodes = (pre ++ (n0, p0) :: post) ++
      [("__initial__", iPtr), ("__terminal__", tPtr)])
    (hcb : ∀ pr ∈ pre, cbf ("remove-node-" ++ pr.1) = none)
    (hcb0 : cbf ("remove-node-" ++ n0) = some e) :
    elimLoopF iPtr tPtr (fun _ s => cbf s) r.nfa.nodes.length r =
      .error ⟨r.heap,
        r.trace ++ (pre.map (fun pr => "remove-node-" ++ pr.1) ++ ["remove-node-" ++ n0]),
        stepCallbackErrMsg ("remove-node-" ++ n0) e⟩ := by
  have habort := elimPass_abort_run pre n0 p0 post r e inv hshape hcb hcb0
  have hlen : r.nfa.nodes.length = ((pre ++ (n0, p0) :: post).length + 1) + 1 := by
    rw [hshape]
    simp only [List.length_append, List.length_cons, List.length_nil]
  rw [hlen, elimLoopF_succ]
  have hge : 0 < (pre ++ (n0, p0) :: post).length := by simp
  rw [if_pos (by omega)]
  have hsnap : r.nfa.nodes.map Prod.snd =
      (pre ++ (n0, p0) :: post).map Prod.snd ++ [iPtr, tPtr] := by
    rw [hshape, List.map_append]
    rfl
  rw [hsnap, habort]

/-- The elimination phase of a conversion run with the default callback,
exposed as a function so the claims can speak about the final working
state. -/
def convertElimResult (h : Heap) (nfa : NFA) : Except Abort RunSt :=
  let s := setupSynthetic ⟨h, nfa⟩
  let ns := normalizeNFA s.1 s.2.1 s.2.2
  elimLoopF s.2.1 s.2.2 (fun _ _ => none) ns.st.nfa.nodes.length
    ⟨ns.st.heap, ns.st.nfa, ["start", "create-initial-terminal"]⟩

/-- Characterization of a full successful conversion run (any callback that
returns no error at the reached checkpoints). -/
theorem convert_ok_char (h : Heap) (nfa : NFA) (cbf : String → Option String)
    (hwf : WF h nfa)
    (hrI : lookupName nfa.nodes "__initial__" = none)
    (hrT : lookupName nfa.nodes "__terminal__" = none)
    (hasI : nfa.nodes.any (fun pr => (heapGet h pr.2).isInitial) = true)
    (hasT : nfa.nodes.any (fun pr => (heapGet h pr.2).isTerminal) = true)
    (hcb1 : cbf "start" = none) (hcb2 : cbf "create-initial-terminal" = none)
    (hcbR : ∀ k ∈ nfa.nodes.map Prod.fst, cbf ("remove-node-" ++ k) = none) :
    ∃ r' : RunSt,
      toRegexWithConfig h (some nfa) (fun _ s => cbf s) = finalizeRegex r' ∧
        CInv r'.heap r'.nfa h.length (h.length + 1) true true ∧
        r'.nfa.nodes = [("__initial__", h.length), ("__terminal__", h.length + 1)] ∧
        r'.trace = ["start", "create-initial-terminal"] ++
          nfa.nodes.map (fun pr => "remove-node-" ++ pr.1) ∧
        (∀ p, p < h.length → heapGet r'.heap p = heapGet h p) := by
  obtain ⟨invN, ⟨ents, hshape, hA⟩, hcells, hI, hT⟩ := normalize_establishes h nfa hwf hrI hrT
  have hsetup := setupSynthetic_noReserved h nfa hrI hrT
  have hcbEnts : ∀ pr ∈ ents, cbf ("remove-node-" ++ pr.1) = none := by
    intro pr hpr
    exact hcbR pr.1 (by rw [← hA]; exact List.mem_map.2 ⟨pr, hpr, rfl⟩)
  obtain ⟨r', hloop, inv', hnodes', hheap', htrace'⟩ := elimLoop_ok_run ents
    ⟨(normalizeNFA (setupSynthetic ⟨h, nfa⟩).1 (setupSynthetic ⟨h, nfa⟩).2.1
        (setupSynthetic ⟨h, nfa⟩).2.2).st.heap,
      (normalizeNFA (setupSynthetic ⟨h, nfa⟩).1 (setupSynthetic ⟨h, nfa⟩).2.1
        (setupSynthetic ⟨h, nfa⟩).2.2).st.nfa,
      ["start", "create-initial-terminal"]⟩ invN hshape hcbEnts
  dsimp only at hloop hheap' htrace'
  refine ⟨r', ?_, inv', hnodes', ?_, ?_⟩
  · show toRegexWithConfig h (some nfa) (fun _ s => cbf s) = _
    unfold toRegexWithConfig
    dsimp only
    rw [hcb1]
    show convertAfterStart h nfa (fun _ s => cbf s) = _
    unfold convertAfterStart
    dsimp only
    rw [hsetup] at hI hT hloop ⊢
    dsimp only at hI hT hloop ⊢
    rw [hI, hasI, hT, hasT]
    simp only [Bool.not_true, Bool.false_eq_true, if_false]
    rw [hcb2]
    dsimp only
    rw [hloop]
  · rw [htrace']
    have := map_of_map_fst_eq (fun k => "remove-node-" ++ k) hA
    dsimp only at this
    rw [this]
  · intro p hp
    rw [hheap']
    exact hcells p hp

/-! ## The final two-node state -/

theorem lookupName_some_mem :
    ∀ {m : List (String × Nat)} {name : String} {p : Nat},
      lookupName m name = some p → (name, p) ∈ m
  | [], _, _, hl => by exact absurd hl (by simp [lookupName])
  | (k, v) :: m, name, p, hl => by
    rw [lookupName_cons] at hl
    by_cases hk : k = name
    · rw [if_pos hk] at hl
      injection hl with hv
      subst hv
      subst hk
      exact List.mem_cons_self _ _
    · rw [if_neg hk] at hl
      exact List.mem_cons.2 (Or.inr (lookupName_some_mem hl))

/-- In a state whose node map holds exactly the two synthetic entries, the
conversion invariant forces every edge to run from the synthetic initial
pointer to the synthetic terminal pointer. -/
theorem final_edges_run {h : Heap} {nfa : NFA} {iPtr tPtr : Nat} {fI fT : Bool}
    (inv : CInv h nfa iPtr tPtr fI fT)
    (hnodes : nfa.nodes = [("__initial__", iPtr), ("__terminal__", tPtr)]) :
    ∀ e ∈ nfa.edges, e.src = iPtr ∧ e.dst = tPtr := by
  intro e he
  obtain ⟨hs, hd⟩ := inv.wf.2.2 e he
  obtain ⟨hdi, hst⟩ := inv.edgeInv e he
  unfold Registered at hs hd
  rw [hnodes] at hs hd
  have hsrc := lookupName_some_mem hs
  have hdst := lookupName_some_mem hd
  constructor
  · rcases List.mem_cons.1 hsrc with h1 | h1
    · exact congrArg Prod.snd h1
    · exact absurd (congrArg Prod.snd (List.mem_singleton.1 h1)) hst
  · rcases List.mem_cons.1 hdst with h1 | h1
    · exact absurd (congrArg Prod.snd h1) hdi
    · exact congrArg Prod.snd (List.mem_singleton.1 h1)

/-- Step 3 of the conversion in the final two-node state: the "no path"
check succeeds exactly when an edge remains. -/
theorem finalizeRegex_final {r : RunSt} {iPtr tPtr : Nat}
    (inv : CInv r.heap r.nfa iPtr tPtr true true)
    (hnodes : r.nfa.nodes = [("__initial__", iPtr), ("__terminal__", tPtr)]) :
    finalizeRegex r = ⟨r.heap, r.trace,
      if r.nfa.edges = [] then
        Except.error "NFA has no path between initial and terminal node(s)"
      else Except.ok (orJoin (r.nfa.edges.map NFAEdge.value))⟩ := by
  unfold finalizeRegex
  by_cases hE : r.nfa.edges = []
  · rw [hE]
    rw [if_neg (by simp), if_pos rfl]
  · have hany : r.nfa.edges.any (fun e =>
        (heapGet r.heap e.src).isInitial && (heapGet r.heap e.dst).isTerminal) = true := by
      rcases List.exists_mem_of_ne_nil _ hE with ⟨e0, he0⟩
      obtain ⟨hsrc, hdst⟩ := final_edges_run inv hnodes e0 he0
      refine List.any_eq_true.2 ⟨e0, he0, ?_⟩
      rw [hsrc, hdst, inv.recI, inv.recT]
      rfl
    rw [hany, if_pos rfl, if_neg hE]

/-- The working state right after the create-initial-terminal phase of a
conversion run. -/
def normalizedState (h : Heap) (nfa : NFA) : NormSt :=
  normalizeNFA (setupSynthetic ⟨h, nfa⟩).1 (setupSynthetic ⟨h, nfa⟩).2.1
    (setupSynthetic ⟨h, nfa⟩).2.2

/-- Characterization of the elimination phase of a conversion run with the
default callback, for a well-formed automaton without reserved names. -/
theorem convertElim_ok_char (h : Heap) (nfa : NFA) (hwf : WF h nfa)
    (hrI : lookupName nfa.nodes "__initial__" = none)
    (hrT : lookupName nfa.nodes "__terminal__" = none) :
    ∃ r' : RunSt,
      convertElimResult h nfa = .ok r' ∧
        CInv r'.heap r'.nfa h.length (h.length + 1) true true ∧
        r'.nfa.nodes = [("__initial__", h.length), ("__terminal__", h.length + 1)] ∧
        r'.trace = ["start", "create-initial-terminal"] ++
          nfa.nodes.map (fun pr => "remove-node-" ++ pr.1) ∧
        (∀ p, p < h.length → heapGet r'.heap p = heapGet h p) := by
  obtain ⟨invN, ⟨ents, hshape, hA⟩, hcells, hI, hT⟩ := normalize_establishes h nfa hwf hrI hrT
  have hsetup := setupSynthetic_noReserved h nfa hrI hrT
  obtain ⟨r', hloop, inv', hnodes', hheap', htrace'⟩ :=
    @elimLoop_ok_run (List.length h) (List.length h + 1) (fun _ => none) ents
    ⟨(normalizeNFA (setupSynthetic ⟨h, nfa⟩).1 (setupSynthetic ⟨h, nfa⟩).2.1
        (setupSynthetic ⟨h, nfa⟩).2.2).st.heap,
      (normalizeNFA (setupSynthetic ⟨h, nfa⟩).1 (setupSynthetic ⟨h, nfa⟩).2.1
        (setupSynthetic ⟨h, nfa⟩).2.2).st.nfa,
      ["start", "create-initial-terminal"]⟩ invN hshape (fun _ _ => rfl)
  dsimp only at hloop hheap' htrace'
  refine ⟨r', ?_, inv', hnodes', ?_, ?_⟩
  · show convertElimResult h nfa = Except.ok r'
    unfold convertElimResult
    dsimp only
    rw [hsetup] at hloop ⊢
    dsimp only at hloop ⊢
    exact hloop
  · rw [htrace']
    have hmap := map_of_map_fst_eq (fun k => "remove-node-" ++ k) hA
    dsimp only at hmap
    rw [hmap]
  · intro p hp
    rw [hheap']
    exact hcells p hp

/-- A converging default-callback run makes `ToRegex` finish with the
finalization of the elimination result. -/
theorem toRegex_eq_finalize (h : Heap) (nfa : NFA) (hwf : WF h nfa)
    (hrI : lookupName nfa.nodes "__initial__" = none)
    (hrT : lookupName nfa.nodes "__terminal__" = none)
    (hasI : nfa.nodes.any (fun pr => (heapGet h pr.2).isInitial) = true)
    (hasT : nfa.nodes.any (fun pr => (heapGet h pr.2).isTerminal) = true)
    (r' : RunSt) (hel : convertElimResult h nfa = .ok r') :
    toRegex h (some nfa) = finalizeRegex r' := by
  obtain ⟨invN, ⟨ents, hshape, hA⟩, hcells, hI, hT⟩ := normalize_establishes h nfa hwf hrI hrT
  have hsetup := setupSynthetic_noReserved h nfa hrI hrT
  unfold convertElimResult at hel
  dsimp only at hel
  show toRegexWithConfig h (some nfa) (fun _ _ => none) = _
  unfold toRegexWithConfig
  dsimp only
  show convertAfterStart h nfa (fun _ _ => none) = _
  unfold convertAfterStart
  dsimp only
  rw [hsetup] at hI hT hel ⊢
  dsimp only at hI hT hel ⊢
  rw [hI, hasI, hT, hasT]
  simp only [Bool.not_true, Bool.false_eq_true, if_false]
  rw [hel]

/-! ## Claim C3: the final stage -/

/-- Claim C3 (amended): for a well-formed automaton without reserved node
names that passes normalization (some node flagged initial and some flagged
terminal), the elimination loop of `convert` ends — without aborting — in a
state with exactly the two synthetic nodes, and the final stage returns, as
an ordinary value, the "no path" structural error when no edge remains and
`orJoin` of the remaining edge labels otherwise.  Without the reserved-name
restriction the edge-remains reading is false: the final stage scans for an
edge from an initial-flagged record to a terminal-flagged record (see the
counterexample). -/
theorem c3_final_stage (h : Heap) (nfa : NFA) (hwf : WF h nfa)
    (hrI : lookupName nfa.nodes "__initial__" = none)
    (hrT : lookupName nfa.nodes "__terminal__" = none)
    (hasI : nfa.nodes.any (fun pr => (heapGet h pr.2).isInitial) = true)
    (hasT : nfa.nodes.any (fun pr => (heapGet h pr.2).isTerminal) = true) :
    ∃ r' : RunSt,
      convertElimResult h nfa = .ok r' ∧
        r'.nfa.nodes = [("__initial__", h.length), ("__terminal__", h.length + 1)] ∧
        toRegex h (some nfa) = ⟨r'.heap, r'.trace,
          if r'.nfa.edges = [] then
            Except.error "NFA has no path between initial and terminal node(s)"
          else Except.ok (orJoin (r'.nfa.edges.map NFAEdge.value))⟩ := by
  obtain ⟨r', hel, inv', hnodes', htrace', hcells'⟩ := convertElim_ok_char h nfa hwf hrI hrT
  refine ⟨r', hel, hnodes', ?_⟩
  rw [toRegex_eq_finalize h nfa hwf hrI hrT hasI hasT r' hel]
  exact finalizeRegex_final inv' hnodes'

/-- A small well-formed automaton used to witness the run lemmas:
`a --x--> b` with `a` initial and `b` terminal. -/
def exW : St :=
  let st : St := ⟨[], newNFA⟩
  let st := addEdge st "a" "b" "x"
  let st := setInitial st "a"
  setTerminal st "b"

theorem c3_final_stage_witness :
    ∃ r' : RunSt,
      convertElimResult exW.heap exW.nfa = .ok r' ∧
        r'.nfa.nodes =
          [("__initial__", exW.heap.length), ("__terminal__", exW.heap.length + 1)] ∧
        toRegex exW.heap (some exW.nfa) = ⟨r'.heap, r'.trace,
          if r'.nfa.edges = [] then
            Except.error "NFA has no path between initial and terminal node(s)"
          else Except.ok (orJoin (r'.nfa.edges.map NFAEdge.value))⟩ :=
  c3_final_stage exW.heap exW.nfa (by decide) (by decide) (by decide) (by decide) (by decide)

/-- An automaton whose node map binds the reserved name `"__terminal__"`:
self-loops `a --q--> a` (`a` initial), `b --r--> b` (`b` terminal) and
`__terminal__ --s--> __terminal__`. -/
def exRes : St :=
  let st : St := ⟨[], newNFA⟩
  let st := addEdge st "a" "a" "q"
  let st := addEdge st "b" "b" "r"
  let st := addEdge st "__terminal__" "__terminal__" "s"
  let st := setInitial st "a"
  setTerminal st "b"

/-- Claim C3, counterexample: `exRes` passes normalization (it has an
initial and a terminal flag), and the elimination loop of `convert` ends,
without aborting, with exactly the two nodes captured as the synthetic
pair — `"__initial__"` at pointer 3 and `"__terminal__"` at the caller's
like-named record, pointer 2 — while the edge labelled `"s"` remains; yet
`convert` returns the "no path between initial and terminal node(s)"
error, because the final stage scans for an edge from an initial-flagged
record to a terminal-flagged record rather than testing whether any edge
remains.  This refutes the claimed "otherwise returns orJoin of the labels
of all remaining edges". -/
theorem c3_counterexample :
    exRes.nfa.nodes.any (fun pr => (heapGet exRes.heap pr.2).isInitial) = true ∧
    exRes.nfa.nodes.any (fun pr => (heapGet exRes.heap pr.2).isTerminal) = true ∧
    (setupSynthetic ⟨exRes.heap, exRes.nfa⟩).2.1 = 3 ∧
    (setupSynthetic ⟨exRes.heap, exRes.nfa⟩).2.2 = 2 ∧
    Except.map (fun r' => (r'.nfa.nodes, r'.nfa.edges))
        (convertElimResult exRes.heap exRes.nfa) =
      .ok ([("__terminal__", 2), ("__initial__", 3)], [⟨2, 2, "s"⟩]) ∧
    (toRegex exRes.heap (some exRes.nfa)).result =
      .error "NFA has no path between initial and terminal node(s)" := by decide

/-! ## Claim C4: the synthetic-edge invariant -/

/-- An automaton in which a user node carries the reserved name
`"__initial__"` (without the initial flag): `a --z--> __initial__`,
`a --y--> b`, with `a` initial and `b` terminal. -/
def exC4 : St :=
  let st : St := ⟨[], newNFA⟩
  let st := addEdge st "a" "__initial__" "z"
  let st := addEdge st "a" "b" "y"
  let st := setInitial st "a"
  setTerminal st "b"

/-- Claim C4, counterexample: on `exC4` the node `GetOrCreateNode`
returns for `"__initial__"` — the node the conversion uses as its synthetic
initial node — is the caller's like-named node, and directly after
normalization (a state every conversion run passes through) an edge of the
working copy has that synthetic initial node as its destination.  This
refutes the claimed invariant for automata that use the reserved names. -/
theorem c4_counterexample :
    ((normalizedState exC4.heap exC4.nfa).st.nfa.edges.any
      (fun e => e.dst = (setupSynthetic ⟨exC4.heap, exC4.nfa⟩).2.1)) = true := by decide

/-- Claim C4 (amended): for a well-formed automaton whose node map does not
use the reserved names, directly after normalization no edge of the working
copy has the synthetic initial node as destination or the synthetic
terminal node as source; the elimination loop preserves this, and in the
final two-node state every remaining edge runs from the synthetic initial
node to the synthetic terminal node. -/
theorem c4_synthetic_edge_invariant (h : Heap) (nfa : NFA) (hwf : WF h nfa)
    (hrI : lookupName nfa.nodes "__initial__" = none)
    (hrT : lookupName nfa.nodes "__terminal__" = none) :
    (∀ e ∈ (normalizedState h nfa).st.nfa.edges,
        e.dst ≠ h.length ∧ e.src ≠ h.length + 1) ∧
    ∃ r' : RunSt,
      convertElimResult h nfa = .ok r' ∧
        (∀ e ∈ r'.nfa.edges, e.dst ≠ h.length ∧ e.src ≠ h.length + 1) ∧
        r'.nfa.nodes = [("__initial__", h.length), ("__terminal__", h.length + 1)] ∧
        (∀ e ∈ r'.nfa.edges, e.src = h.length ∧ e.dst = h.length + 1) := by
  obtain ⟨invN, ⟨ents, hshape, hA⟩, hcells, hI, hT⟩ := normalize_establishes h nfa hwf hrI hrT
  obtain ⟨r', hel, inv', hnodes', htrace', hcells'⟩ := convertElim_ok_char h nfa hwf hrI hrT
  exact ⟨fun e he => invN.edgeInv e he, r', hel, fun e he => inv'.edgeInv e he, hnodes',
    final_edges_run inv' hnodes'⟩

theorem c4_synthetic_edge_invariant_witness :
    (∀ e ∈ (normalizedState exW.heap exW.nfa).st.nfa.edges,
        e.dst ≠ exW.heap.length ∧ e.src ≠ exW.heap.length + 1) ∧
    ∃ r' : RunSt,
      convertElimResult exW.heap exW.nfa = .ok r' ∧
        (∀ e ∈ r'.nfa.edges, e.dst ≠ exW.heap.length ∧ e.src ≠ exW.heap.length + 1) ∧
        r'.nfa.nodes =
          [("__initial__", exW.heap.length), ("__terminal__", exW.heap.length + 1)] ∧
        (∀ e ∈ r'.nfa.edges, e.src = exW.heap.length ∧ e.dst = exW.heap.length + 1) :=
  c4_synthetic_edge_invariant exW.heap exW.nfa (by decide) (by decide) (by decide)

/-! ## Claim C9: termination and the node count -/

/-- An automaton whose node named `"__initial__"` is flagged initial:
`__initial__ --x--> b` with `b` terminal. -/
def exColl : St :=
  let st : St := ⟨[], newNFA⟩
  let st := addEdge st "__initial__" "b" "x"
  let st := setInitial st "__initial__"
  setTerminal st "b"

/-- Claim C9, counterexample: on `exColl` the elimination loop of `convert`
terminates with exactly one node left in the working copy, not two — the
node records compared against the loop's skip pointers were replaced during
normalization, so both user nodes are eliminated.  This refutes "the node
count strictly decreases until exactly two nodes remain" for automata that
use the reserved names. -/
theorem c9_counterexample :
    Except.map (fun r' : RunSt => r'.nfa.nodes.length)
      (convertElimResult exColl.heap exColl.nfa) = .ok 1 := by decide

/-- Claim C9 (amended): for a well-formed automaton without reserved node
names, the conversion terminates: the elimination loop finishes without
aborting, performs exactly one node removal per original node (one
`remove-node-` checkpoint each, in map order), and stops with exactly the
two synthetic nodes remaining. -/
theorem c9_termination (h : Heap) (nfa : NFA) (hwf : WF h nfa)
    (hrI : lookupName nfa.nodes "__initial__" = none)
    (hrT : lookupName nfa.nodes "__terminal__" = none) :
    ∃ r' : RunSt,
      convertElimResult h nfa = .ok r' ∧
        r'.nfa.nodes.length = 2 ∧
        r'.trace = ["start", "create-initial-terminal"] ++
          nfa.nodes.map (fun pr => "remove-node-" ++ pr.1) := by
  obtain ⟨r', hel, inv', hnodes', htrace', hcells'⟩ := convertElim_ok_char h nfa hwf hrI hrT
  exact ⟨r', hel, by rw [hnodes']; rfl, htrace'⟩

theorem c9_termination_witness :
    ∃ r' : RunSt,
      convertElimResult exW.heap exW.nfa = .ok r' ∧
        r'.nfa.nodes.length = 2 ∧
        r'.trace = ["start", "create-initial-terminal"] ++
          exW.nfa.nodes.map (fun pr => "remove-node-" ++ pr.1) :=
  c9_termination exW.heap exW.nfa (by decide) (by decide) (by decide)

/-! ## Claim C5: no caller mutation -/

/-- An automaton holding an unflagged node named `"__initial__"`
(`__initial__ --a--> x`), built by the caller. -/
def exMut : St :=
  let st : St := ⟨[], newNFA⟩
  addEdge st "__initial__" "x" "a"

/-- Claim C5, counterexample: the caller's node map of `exMut` binds
`"__initial__"` to record 0, whose flags are both clear before the call;
after `convert` returns, record 0 — still reachable through the caller's
map — has `isInitial = true`: the conversion mutated the caller's
automaton through the shared node record. -/
theorem c5_counterexample :
    lookupName exMut.nfa.nodes "__initial__" = some 0 ∧
    heapGet exMut.heap 0 = ⟨"__initial__", false, false⟩ ∧
    heapGet (toRegex exMut.heap (some exMut.nfa)).heap 0 =
      ⟨"__initial__", true, false⟩ := by decide

/-- Claim C5 (amended): for a well-formed automaton without reserved node
names, `convert` — with any observer, on any of its return paths — leaves
every node record allocated before the call unchanged; since the caller's
map and edge list are values in this embedding, the caller's automaton is
unchanged. -/
theorem c5_no_mutation (h : Heap) (nfa : NFA) (cb : StepCallback) (hwf : WF h nfa)
    (hrI : lookupName nfa.nodes "__initial__" = none)
    (hrT : lookupName nfa.nodes "__terminal__" = none) :
    ∀ p, p < h.length →
      heapGet (toRegexWithConfig h (some nfa) cb).heap p = heapGet h p := by
  intro p hp
  obtain ⟨invN, ⟨ents, hshape, hA⟩, hcells, hI, hT⟩ := normalize_establishes h nfa hwf hrI hrT
  have hsetup := setupSynthetic_noReserved h nfa hrI hrT
  have hplt : p < ((normalizeNFA (setupSynthetic ⟨h, nfa⟩).1 (setupSynthetic ⟨h, nfa⟩).2.1
      (setupSynthetic ⟨h, nfa⟩).2.2).st.heap).length := by
    have := invN.tPtr_lt
    omega
  unfold toRegexWithConfig
  dsimp only
  cases hstart : cb (shallowCopy nfa) "start" with
  | some e => rfl
  | none =>
  show heapGet (convertAfterStart h nfa cb).heap p = heapGet h p
  unfold convertAfterStart
  dsimp only
  cases hI2 : (normalizeNFA (setupSynthetic ⟨h, nfa⟩).1 (setupSynthetic ⟨h, nfa⟩).2.1
      (setupSynthetic ⟨h, nfa⟩).2.2).hasI with
  | false =>
    rw [if_pos (by decide)]
    exact hcells p hp
  | true =>
  rw [if_neg (by decide)]
  cases hT2 : (normalizeNFA (setupSynthetic ⟨h, nfa⟩).1 (setupSynthetic ⟨h, nfa⟩).2.1
      (setupSynthetic ⟨h, nfa⟩).2.2).hasT with
  | false =>
    rw [if_pos (by decide)]
    exact hcells p hp
  | true =>
  rw [if_neg (by decide)]
  cases hcit : cb (normalizeNFA (setupSynthetic ⟨h, nfa⟩).1 (setupSynthetic ⟨h, nfa⟩).2.1
      (setupSynthetic ⟨h, nfa⟩).2.2).st.nfa "create-initial-terminal" with
  | some e => exact hcells p hp
  | none =>
  dsimp only
  have hext := clearedExt_elimLoopF (setupSynthetic ⟨h, nfa⟩).2.1 (setupSynthetic ⟨h, nfa⟩).2.2 cb
    ((⟨(normalizeNFA (setupSynthetic ⟨h, nfa⟩).1 (setupSynthetic ⟨h, nfa⟩).2.1
        (setupSynthetic ⟨h, nfa⟩).2.2).st.heap,
      (normalizeNFA (setupSynthetic ⟨h, nfa⟩).1 (setupSynthetic ⟨h, nfa⟩).2.1
        (setupSynthetic ⟨h, nfa⟩).2.2).st.nfa,
      ["start", "create-initial-terminal"]⟩ : RunSt).nfa.nodes.length)
    ⟨(normalizeNFA (setupSynthetic ⟨h, nfa⟩).1 (setupSynthetic ⟨h, nfa⟩).2.1
        (setupSynthetic ⟨h, nfa⟩).2.2).st.heap,
      (normalizeNFA (setupSynthetic ⟨h, nfa⟩).1 (setupSynthetic ⟨h, nfa⟩).2.1
        (setupSynthetic ⟨h, nfa⟩).2.2).st.nfa,
      ["start", "create-initial-terminal"]⟩
  cases hloop : elimLoopF (setupSynthetic ⟨h, nfa⟩).2.1 (setupSynthetic ⟨h, nfa⟩).2.2 cb
      ((⟨(normalizeNFA (setupSynthetic ⟨h, nfa⟩).1 (setupSynthetic ⟨h, nfa⟩).2.1
          (setupSynthetic ⟨h, nfa⟩).2.2).st.heap,
        (normalizeNFA (setupSynthetic ⟨h, nfa⟩).1 (setupSynthetic ⟨h, nfa⟩).2.1
          (setupSynthetic ⟨h, nfa⟩).2.2).st.nfa,
        ["start", "create-initial-terminal"]⟩ : RunSt).nfa.nodes.length)
      ⟨(normalizeNFA (setupSynthetic ⟨h, nfa⟩).1 (setupSynthetic ⟨h, nfa⟩).2.1
          (setupSynthetic ⟨h, nfa⟩).2.2).st.heap,
        (normalizeNFA (setupSynthetic ⟨h, nfa⟩).1 (setupSynthetic ⟨h, nfa⟩).2.1
          (setupSynthetic ⟨h, nfa⟩).2.2).st.nfa,
        ["start", "create-initial-terminal"]⟩ with
  | error a =>
    rw [hloop] at hext
    dsimp only [heapOfExcept] at hext
    show heapGet a.heap p = heapGet h p
    rw [hext.2.1 p hplt]
    exact hcells p hp
  | ok r'' =>
    rw [hloop] at hext
    dsimp only [heapOfExcept] at hext
    show heapGet (finalizeRegex r'').heap p = heapGet h p
    unfold finalizeRegex
    rw [apply_ite ConvOut.heap]
    dsimp only
    rw [ite_self]
    rw [hext.2.1 p hplt]
    exact hcells p hp

theorem c5_no_mutation_witness :
    heapGet (toRegexWithConfig exW.heap (some exW.nfa) (fun _ _ => none)).heap 0 =
      heapGet exW.heap 0 :=
  c5_no_mutation exW.heap exW.nfa (fun _ _ => none) (by decide) (by decide) (by decide)
    0 (by decide)

/-! ## Claim C6: observer checkpoints -/

theorem map_fst_split_mid :
    ∀ {m : List (String × Nat)} {K1 : List String} {k : String} {K2 : List String},
      m.map Prod.fst = K1 ++ k :: K2 →
      ∃ A p B, m = A ++ (k, p) :: B ∧ A.map Prod.fst = K1 ∧ B.map Prod.fst = K2 := by
  intro m
  induction m with
  | nil =>
    intro K1 k K2 hm
    rw [List.map_nil] at hm
    cases K1 <;> simp at hm
  | cons a m ih =>
    intro K1 k K2 hm
    obtain ⟨a1, a2⟩ := a
    cases K1 with
    | nil =>
      rw [List.map_cons, List.nil_append] at hm
      dsimp only at hm
      injection hm with h1 h2
      subst h1
      exact ⟨[], a2, m, rfl, rfl, h2⟩
    | cons k1 K1' =>
      rw [List.map_cons, List.cons_append] at hm
      dsimp only at hm
      injection hm with h1 h2
      subst h1
      obtain ⟨A, p, B, hmB, hA, hB⟩ := ih h2
      exact ⟨(a1, a2) :: A, p, B, by rw [List.cons_append, ← hmB],
        by rw [List.map_cons, hA], hB⟩

/-- Abort at the `"start"` checkpoint. -/
theorem convert_abort_start (h : Heap) (nfa : NFA) (cbf : String → Option String)
    (e : String) (hcb : cbf "start" = some e) :
    toRegexWithConfig h (some nfa) (fun _ s => cbf s) =
      ⟨h, ["start"], .error (stepCallbackErrMsg "start" e)⟩ := by
  unfold toRegexWithConfig
  dsimp only
  rw [hcb]

/-- Abort at the `"create-initial-terminal"` checkpoint. -/
theorem convert_abort_cit (h : Heap) (nfa : NFA) (cbf : String → Option String)
    (e : String) (hwf : WF h nfa)
    (hrI : lookupName nfa.nodes "__initial__" = none)
    (hrT : lookupName nfa.nodes "__terminal__" = none)
    (hasI : nfa.nodes.any (fun pr => (heapGet h pr.2).isInitial) = true)
    (hasT : nfa.nodes.any (fun pr => (heapGet h pr.2).isTerminal) = true)
    (hcb1 : cbf "start" = none) (hcb : cbf "create-initial-terminal" = some e) :
    toRegexWithConfig h (some nfa) (fun _ s => cbf s) =
      ⟨(normalizedState h nfa).st.heap, ["start", "create-initial-terminal"],
        .error (stepCallbackErrMsg "create-initial-terminal" e)⟩ := by
  obtain ⟨invN, _, hcells, hI, hT⟩ := normalize_establishes h nfa hwf hrI hrT
  have hsetup := setupSynthetic_noReserved h nfa hrI hrT
  unfold toRegexWithConfig
  dsimp only
  rw [hcb1]
  show convertAfterStart h nfa (fun _ s => cbf s) = _
  unfold convertAfterStart normalizedState
  dsimp only
  rw [hsetup] at hI hT ⊢
  dsimp only at hI hT ⊢
  rw [hI, hasI, hT, hasT]
  simp only [Bool.not_true, Bool.false_eq_true, if_false]
  rw [hcb]

/-- Abort at a `"remove-node-"` checkpoint: the first node of the map whose
removal checkpoint makes the observer fail stops the run right there. -/
theorem convert_abort_remove (h : Heap) (nfa : NFA) (cbf : String → Option String)
    (e : String) (hwf : WF h nfa)
    (hrI : lookupName nfa.nodes "__initial__" = none)
    (hrT : lookupName nfa.nodes "__terminal__" = none)
    (hasI : nfa.nodes.any (fun pr => (heapGet h pr.2).isInitial) = true)
    (hasT : nfa.nodes.any (fun pr => (heapGet h pr.2).isTerminal) = true)
    (hcb1 : cbf "start" = none) (hcb2 : cbf "create-initial-terminal" = none)
    (pre : List String) (k : String) (post : List String)
    (hsplit : nfa.nodes.map Prod.fst = pre ++ k :: post)
    (hpre : ∀ n ∈ pre, cbf ("remove-node-" ++ n) = none)
    (hk : cbf ("remove-node-" ++ k) = some e) :
    (toRegexWithConfig h (some nfa) (fun _ s => cbf s)).trace =
      ["start", "create-initial-terminal"] ++
        (pre.map (fun n => "remove-node-" ++ n) ++ ["remove-node-" ++ k]) ∧
    (toRegexWithConfig h (some nfa) (fun _ s => cbf s)).result =
      .error (stepCallbackErrMsg ("remove-node-" ++ k) e) := by
  obtain ⟨invN, ⟨ents, hshape, hA⟩, hcells, hI, hT⟩ := normalize_establishes h nfa hwf hrI hrT
  have hsetup := setupSynthetic_noReserved h nfa hrI hrT
  obtain ⟨A, p0, B, hents, hAfst, hBfst⟩ := @map_fst_split_mid ents _ _ _ (by rw [hA, hsplit])
  have hshape2 : (normalizeNFA (setupSynthetic ⟨h, nfa⟩).1 (setupSynthetic ⟨h, nfa⟩).2.1
      (setupSynthetic ⟨h, nfa⟩).2.2).st.nfa.nodes =
      (A ++ (k, p0) :: B) ++ [("__initial__", h.length), ("__terminal__", h.length + 1)] := by
    rw [hshape, hents]
  have habort := @elimLoop_abort_run (List.length h) (List.length h + 1) cbf A k p0 B
    ⟨(normalizeNFA (setupSynthetic ⟨h, nfa⟩).1 (setupSynthetic ⟨h, nfa⟩).2.1
        (setupSynthetic ⟨h, nfa⟩).2.2).st.heap,
      (normalizeNFA (setupSynthetic ⟨h, nfa⟩).1 (setupSynthetic ⟨h, nfa⟩).2.1
        (setupSynthetic ⟨h, nfa⟩).2.2).st.nfa,
      ["start", "create-initial-terminal"]⟩ e invN hshape2
    (fun pr hpr => hpre pr.1 (by rw [← hAfst]; exact List.mem_map.2 ⟨pr, hpr, rfl⟩)) hk
  dsimp only at habort
  have hout : toRegexWithConfig h (some nfa) (fun _ s => cbf s) =
      ⟨(normalizedState h nfa).st.heap,
        ["start", "create-initial-terminal"] ++
          (A.map (fun pr => "remove-node-" ++ pr.1) ++ ["remove-node-" ++ k]),
        .error (stepCallbackErrMsg ("remove-node-" ++ k) e)⟩ := by
    unfold toRegexWithConfig
    dsimp only
    rw [hcb1]
    show convertAfterStart h nfa (fun _ s => cbf s) = _
    unfold convertAfterStart normalizedState
    dsimp only
    rw [hsetup] at hI hT habort ⊢
    dsimp only at hI hT habort ⊢
    rw [hI, hasI, hT, hasT]
    simp only [Bool.not_true, Bool.false_eq_true, if_false]
    rw [hcb2]
    dsimp only
    rw [habort]
  rw [hout]
  have hmapA : (A.map Prod.fst).map (fun n => "remove-node-" ++ n) =
      A.map (fun pr => "remove-node-" ++ pr.1) := List.map_map _ _ _
  constructor
  · show ["start", "create-initial-terminal"] ++
      (A.map (fun pr => "remove-node-" ++ pr.1) ++ ["remove-node-" ++ k]) = _
    rw [← hmapA, hAfst]
  · rfl

/-- An automaton with no node flagged initial: `a --z--> b`, `b` terminal. -/
def exNoInit : St :=
  let st : St := ⟨[], newNFA⟩
  let st := addEdge st "a" "b" "z"
  setTerminal st "b"

/-- Claim C6, counterexample: on `exNoInit` — whose conversion fails the
"no initial node(s)" structural check — a never-failing observer is invoked
only at the `"start"` checkpoint and never at `"create-initial-terminal"`
(the trace of a run lists, in order, exactly the checkpoints at which the
observer was invoked).  This refutes the claimed unconditional checkpoint
sequence. -/
theorem c6_counterexample :
    (toRegexWithConfig exNoInit.heap (some exNoInit.nfa) (fun _ _ => none)).trace =
      ["start"] ∧
    (toRegexWithConfig exNoInit.heap (some exNoInit.nfa) (fun _ _ => none)).result =
      .error "NFA has no initial node(s)" := by decide

/-- Claim C6 (amended): for a well-formed automaton without reserved node
names that has an initial and a terminal flag, an observer that never fails
is invoked exactly at `"start"`, `"create-initial-terminal"`, and
`"remove-node-<name>"` once per eliminated node in elimination order; and
whichever checkpoint is the first at which the observer returns an error
stops the conversion right there, with an error that names that checkpoint
and wraps the observer's error, and with no regex result. -/
theorem c6_observer_checkpoints (h : Heap) (nfa : NFA)
    (cbf : String → Option String) (hwf : WF h nfa)
    (hrI : lookupName nfa.nodes "__initial__" = none)
    (hrT : lookupName nfa.nodes "__terminal__" = none)
    (hasI : nfa.nodes.any (fun pr => (heapGet h pr.2).isInitial) = true)
    (hasT : nfa.nodes.any (fun pr => (heapGet h pr.2).isTerminal) = true) :
    ((cbf "start" = none) → (cbf "create-initial-terminal" = none) →
        (∀ k ∈ nfa.nodes.map Prod.fst, cbf ("remove-node-" ++ k) = none) →
        (toRegexWithConfig h (some nfa) (fun _ s => cbf s)).trace =
          ["start", "create-initial-terminal"] ++
            nfa.nodes.map (fun pr => "remove-node-" ++ pr.1)) ∧
    (∀ e, cbf "start" = some e →
        toRegexWithConfig h (some nfa) (fun _ s => cbf s) =
          ⟨h, ["start"], .error (stepCallbackErrMsg "start" e)⟩) ∧
    (∀ e, cbf "start" = none → cbf "create-initial-terminal" = some e →
        (toRegexWithConfig h (some nfa) (fun _ s => cbf s)).trace =
          ["start", "create-initial-terminal"] ∧
        (toRegexWithConfig h (some nfa) (fun _ s => cbf s)).result =
          .error (stepCallbackErrMsg "create-initial-terminal" e)) ∧
    (∀ e pre k post, cbf "start" = none → cbf "create-initial-terminal" = none →
        nfa.nodes.map Prod.fst = pre ++ k :: post →
        (∀ n ∈ pre, cbf ("remove-node-" ++ n) = none) →
        cbf ("remove-node-" ++ k) = some e →
        (toRegexWithConfig h (some nfa) (fun _ s => cbf s)).trace =
          ["start", "create-initial-terminal"] ++
            (pre.map (fun n => "remove-node-" ++ n) ++ ["remove-node-" ++ k]) ∧
        (toRegexWithConfig h (some nfa) (fun _ s => cbf s)).result =
          .error (stepCallbackErrMsg ("remove-node-" ++ k) e)) := by
  refine ⟨?_, ?_, ?_, ?_⟩
  · intro hcb1 hcb2 hcbR
    obtain ⟨r', hrun, inv', hnodes', htrace', hcells'⟩ :=
      convert_ok_char h nfa cbf hwf hrI hrT hasI hasT hcb1 hcb2 hcbR
    rw [hrun]
    unfold finalizeRegex
    rw [apply_ite ConvOut.trace]
    dsimp only
    rw [ite_self]
    exact htrace'
  · intro e hcb
    exact convert_abort_start h nfa cbf e hcb
  · intro e hcb1 hcb
    rw [convert_abort_cit h nfa cbf e hwf hrI hrT hasI hasT hcb1 hcb]
    exact ⟨rfl, rfl⟩
  · intro e pre k post hcb1 hcb2 hsplit hpre hk
    exact convert_abort_remove h nfa cbf e hwf hrI hrT hasI hasT hcb1 hcb2
      pre k post hsplit hpre hk

theorem c6_observer_checkpoints_witness :
    (((fun _ : String => (none : Option String)) "start" = none) →
        ((fun _ : String => (none : Option String)) "create-initial-terminal" = none) →
        (∀ k ∈ exW.nfa.nodes.map Prod.fst,
          (fun _ : String => (none : Option String)) ("remove-node-" ++ k) = none) →
        (toRegexWithConfig exW.heap (some exW.nfa)
            (fun _ s => (fun _ : String => (none : Option String)) s)).trace =
          ["start", "create-initial-terminal"] ++
            exW.nfa.nodes.map (fun pr => "remove-node-" ++ pr.1)) ∧
    (∀ e, (fun _ : String => (none : Option String)) "start" = some e →
        toRegexWithConfig exW.heap (some exW.nfa)
            (fun _ s => (fun _ : String => (none : Option String)) s) =
          ⟨exW.heap, ["start"], .error (stepCallbackErrMsg "start" e)⟩) ∧
    (∀ e, (fun _ : String => (none : Option String)) "start" = none →
        (fun _ : String => (none : Option String)) "create-initial-terminal" = some e →
        (toRegexWithConfig exW.heap (some exW.nfa)
            (fun _ s => (fun _ : String => (none : Option String)) s)).trace =
          ["start", "create-initial-terminal"] ∧
        (toRegexWithConfig exW.heap (some exW.nfa)
            (fun _ s => (fun _ : String => (none : Option String)) s)).result =
          .error (stepCallbackErrMsg "create-initial-terminal" e)) ∧
    (∀ e pre k post, (fun _ : String => (none : Option String)) "start" = none →
        (fun _ : String => (none : Option String)) "create-initial-terminal" = none →
        exW.nfa.nodes.map Prod.fst = pre ++ k :: post →
        (∀ n ∈ pre, (fun _ : String => (none : Option String)) ("remove-node-" ++ n) = none) →
        (fun _ : String => (none : Option String)) ("remove-node-" ++ k) = some e →
        (toRegexWithConfig exW.heap (some exW.nfa)
            (fun _ s => (fun _ : String => (none : Option String)) s)).trace =
          ["start", "create-initial-terminal"] ++
            (pre.map (fun n => "remove-node-" ++ n) ++ ["remove-node-" ++ k]) ∧
        (toRegexWithConfig exW.heap (some exW.nfa)
            (fun _ s => (fun _ : String => (none : Option String)) s)).result =
          .error (stepCallbackErrMsg ("remove-node-" ++ k) e)) :=
  c6_observer_checkpoints exW.heap exW.nfa (fun _ => none) (by decide) (by decide)
    (by decide) (by decide) (by decide)

/-! ## Claim C1: a model of the external regular-expression engine

The repository returns the regular expression as a string and the spec has
it compiled by an external engine.  Modelled from the spec: the engine
grammar is alternation of concatenations of atoms, an atom being a
non-special character or a parenthesised alternation group, optionally
starred; a regular expression matches a whole string.  The syntax tree and
the matching relation below follow that grammar; `parseRegex` is the
compiler front end. -/

inductive RAtom where
  | rchar (c : Char) (starred : Bool)
  | rgroup (alts : List (List RAtom)) (starred : Bool)

/-- The four metacharacters of the modelled engine. -/
def specials : List Char := ['(', ')', '|', '*']

mutual
/-- Matching relation for one atom. -/
inductive AtomMat : RAtom → List Char → Prop where
  | char (c) : AtomMat (.rchar c false) [c]
  | charStar0 (c) : AtomMat (.rchar c true) []
  | charStarS {c w} : AtomMat (.rchar c true) w → AtomMat (.rchar c true) (c :: w)
  | group {alts s w} : s ∈ alts → SeqMat s w → AtomMat (.rgroup alts false) w
  | groupStar0 (alts) : AtomMat (.rgroup alts true) []
  | groupStarS {alts s w1 w2} : s ∈ alts → SeqMat s w1 → AtomMat (.rgroup alts true) w2 →
      AtomMat (.rgroup alts true) (w1 ++ w2)

/-- Matching relation for a concatenation of atoms. -/
inductive SeqMat : List RAtom → List Char → Prop where
  | nil : SeqMat [] []
  | cons {a s w1 w2} : AtomMat a w1 → SeqMat s w2 → SeqMat (a :: s) (w1 ++ w2)
end

/-- Matching relation for an alternation. -/
def TopMat (alts : List (List RAtom)) (w : List Char) : Prop :=
  ∃ s ∈ alts, SeqMat s w

/-- Tail of parsing one non-special character: an optional following star,
then the rest of the concatenation (continuation-passing so the mutual
recursion stays structural in the fuel). -/
def parseCharTail (next : List Char → Option (List RAtom × List Char)) (c : Char) :
    List Char → Option (List RAtom × List Char)
  | [] => (next []).map (fun pr => (.rchar c false :: pr.1, pr.2))
  | c2 :: rest =>
    if c2 = '*' then (next rest).map (fun pr => (.rchar c true :: pr.1, pr.2))
    else (next (c2 :: rest)).map (fun pr => (.rchar c false :: pr.1, pr.2))

/-- Tail of parsing a parenthesised group: the closing parenthesis, an
optional star, then the rest of the concatenation. -/
def parseClose (next : List Char → Option (List RAtom × List Char))
    (alts : List (List RAtom)) : List Char → Option (List RAtom × List Char)
  | [] => none
  | c2 :: rest2 =>
    if c2 = ')' then
      match rest2 with
      | [] => (next []).map (fun pr => (.rgroup alts false :: pr.1, pr.2))
      | c3 :: rest3 =>
        if c3 = '*' then (next rest3).map (fun pr => (.rgroup alts true :: pr.1, pr.2))
        else (next (c3 :: rest3)).map (fun pr => (.rgroup alts false :: pr.1, pr.2))
    else none

/-- Tail of parsing one alternative: either a `|` and further alternatives
or the end of the alternation. -/
def parseAltsTail (next : List Char → Option (List (List RAtom) × List Char))
    (s : List RAtom) : List Char → Option (List (List RAtom) × List Char)
  | [] => some ([s], [])
  | c2 :: rest =>
    if c2 = '|' then (next rest).map (fun pr => (s :: pr.1, pr.2))
    else some ([s], c2 :: rest)

mutual
/-- Modelled from the spec: recursive-descent parse of one concatenation,
stopping at `|`, `)` or the end of input (fuelled to stay structural). -/
def parseSeqF : Nat → List Char → Option (List RAtom × List Char)
  | 0, _ => none
  | _ + 1, [] => some ([], [])
  | fuel + 1, c :: rest =>
    if c = ')' ∨ c = '|' then some ([], c :: rest)
    else if c = '*' then none
    else if c = '(' then
      match parseAltsF fuel rest with
      | some (alts, rest2) => parseClose (parseSeqF fuel) alts rest2
      | none => none
    else parseCharTail (parseSeqF fuel) c rest

/-- Modelled from the spec: parse an alternation `seq ('|' seq)*`. -/
def parseAltsF : Nat → List Char → Option (List (List RAtom) × List Char)
  | 0, _ => none
  | fuel + 1, cs =>
    match parseSeqF fuel cs with
    | some (s, rest) => parseAltsTail (parseAltsF fuel) s rest
    | none => none
end

/-- Modelled from the spec: compile a regular-expression string (the whole
input must be consumed). -/
def parseRegex (s : String) : Option (List (List RAtom)) :=
  match parseAltsF (2 * s.data.length + 4) s.data with
  | some (alts, []) => some alts
  | _ => none

/-- Modelled from the spec: the engine accepts a whole string iff the
pattern compiles and the compiled expression matches it. -/
def engineAccepts (pattern w : String) : Prop :=
  ∃ alts, parseRegex pattern = some alts ∧ TopMat alts w.data

/-- A character allowed as an automaton edge label under the amended claim:
one UTF-8 byte and not an engine metacharacter. -/
def plainChar (c : Char) : Prop := c.utf8Size = 1 ∧ c ∉ specials

instance (c : Char) : Decidable (plainChar c) := by
  unfold plainChar
  infer_instance

mutual
/-- How the conversion algorithm prints one atom of its regular-expression
syntax: a plain character, a starred plain character, or a starred
parenthesised alternation. -/
inductive PrintsAtom : RAtom → List Char → Prop where
  | char {c} : plainChar c → PrintsAtom (.rchar c false) [c]
  | charStar {c} : plainChar c → PrintsAtom (.rchar c true) [c, '*']
  | groupStar {alts css} : PrintsAlts alts css →
      PrintsAtom (.rgroup alts true) ('(' :: css ++ [')', '*'])

/-- Printed concatenation of atoms (the shape of every edge label the
conversion builds). -/
inductive PrintsSeq : List RAtom → List Char → Prop where
  | nil : PrintsSeq [] []
  | cons {a s cs1 cs2} : PrintsAtom a cs1 → PrintsSeq s cs2 →
      PrintsSeq (a :: s) (cs1 ++ cs2)

/-- Printed `|`-join of one or more nonempty sequences. -/
inductive PrintsAlts : List (List RAtom) → List Char → Prop where
  | one {s cs} : PrintsSeq s cs → s ≠ [] → PrintsAlts [s] cs
  | cons {s cs alts css} : PrintsSeq s cs → s ≠ [] → PrintsAlts alts css →
      PrintsAlts (s :: alts) (cs ++ '|' :: css)
end

/-- Simultaneous induction for the three printing relations. -/
theorem Prints_ind
    (PA : RAtom → List Char → Prop)
    (PS : List RAtom → List Char → Prop)
    (PL : List (List RAtom) → List Char → Prop)
    (hchar : ∀ c, plainChar c → PA (.rchar c false) [c])
    (hcharStar : ∀ c, plainChar c → PA (.rchar c true) [c, '*'])
    (hgroupStar : ∀ alts css, PrintsAlts alts css → PL alts css →
      PA (.rgroup alts true) ('(' :: css ++ [')', '*']))
    (hnil : PS [] [])
    (hcons : ∀ a s cs1 cs2, PrintsAtom a cs1 → PrintsSeq s cs2 → PA a cs1 → PS s cs2 →
      PS (a :: s) (cs1 ++ cs2))
    (hone : ∀ s cs, PrintsSeq s cs → s ≠ [] → PS s cs → PL [s] cs)
    (haltCons : ∀ s cs alts css, PrintsSeq s cs → s ≠ [] → PrintsAlts alts css →
      PS s cs → PL alts css → PL (s :: alts) (cs ++ '|' :: css)) :
    (∀ a cs, PrintsAtom a cs → PA a cs) ∧ (∀ s cs, PrintsSeq s cs → PS s cs) ∧
      (∀ alts cs, PrintsAlts alts cs → PL alts cs) := by
  refine ⟨fun a cs h => ?_, fun s cs h => ?_, fun alts cs h => ?_⟩
  · exact @PrintsAtom.rec (fun a cs _ => PA a cs) (fun s cs _ => PS s cs)
      (fun l cs _ => PL l cs)
      (fun hc => hchar _ hc) (fun hc => hcharStar _ hc)
      (fun hp ih => hgroupStar _ _ hp ih)
      hnil
      (fun hp hq ih1 ih2 => hcons _ _ _ _ hp hq ih1 ih2)
      (fun hp hne ih => hone _ _ hp hne ih)
      (fun hp hne hq ih1 ih2 => haltCons _ _ _ _ hp hne hq ih1 ih2)
      a cs h
  · exact @PrintsSeq.rec (fun a cs _ => PA a cs) (fun s cs _ => PS s cs)
      (fun l cs _ => PL l cs)
      (fun hc => hchar _ hc) (fun hc => hcharStar _ hc)
      (fun hp ih => hgroupStar _ _ hp ih)
      hnil
      (fun hp hq ih1 ih2 => hcons _ _ _ _ hp hq ih1 ih2)
      (fun hp hne ih => hone _ _ hp hne ih)
      (fun hp hne hq ih1 ih2 => haltCons _ _ _ _ hp hne hq ih1 ih2)
      s cs h
  · exact @PrintsAlts.rec (fun a cs _ => PA a cs) (fun s cs _ => PS s cs)
      (fun l cs _ => PL l cs)
      (fun hc => hchar _ hc) (fun hc => hcharStar _ hc)
      (fun hp ih => hgroupStar _ _ hp ih)
      hnil
      (fun hp hq ih1 ih2 => hcons _ _ _ _ hp hq ih1 ih2)
      (fun hp hne ih => hone _ _ hp hne ih)
      (fun hp hne hq ih1 ih2 => haltCons _ _ _ _ hp hne hq ih1 ih2)
      alts cs h

theorem printsAtom_ne_nil {a : RAtom} {cs : List Char} (h : PrintsAtom a cs) :
    cs ≠ [] := by
  cases h <;> simp

theorem printsSeq_nil_inv {s : List RAtom} {cs : List Char} (h : PrintsSeq s cs)
    (hcs : cs = []) : s = [] := by
  cases h with
  | nil => rfl
  | cons ha hs => exact absurd (List.append_eq_nil.1 hcs).1 (printsAtom_ne_nil ha)

/-! ### Parser fuel monotonicity -/

theorem map_next_mono {α : Type} {next next' : List Char → Option α}
    (hn : ∀ cs x, next cs = some x → next' cs = some x)
    {β : Type} (f : α → β) (X : List Char) (x : β)
    (h : (next X).map f = some x) : (next' X).map f = some x := by
  rw [Option.map_eq_some'] at h ⊢
  obtain ⟨a, ha, hfa⟩ := h
  exact ⟨a, hn X a ha, hfa⟩

theorem parseCharTail_mono {next next' : List Char → Option (List RAtom × List Char)}
    (hn : ∀ cs x, next cs = some x → next' cs = some x) (c : Char) :
    ∀ cs x, parseCharTail next c cs = some x → parseCharTail next' c cs = some x := by
  intro cs x h
  match cs with
  | [] =>
    simp only [parseCharTail] at h ⊢
    exact map_next_mono hn _ _ _ h
  | c2 :: rest =>
    simp only [parseCharTail] at h ⊢
    by_cases hc : c2 = '*'
    · rw [if_pos hc] at h ⊢
      exact map_next_mono hn _ _ _ h
    · rw [if_neg hc] at h ⊢
      exact map_next_mono hn _ _ _ h

theorem parseClose_mono {next next' : List Char → Option (List RAtom × List Char)}
    (hn : ∀ cs x, next cs = some x → next' cs = some x) (alts : List (List RAtom)) :
    ∀ cs x, parseClose next alts cs = some x → parseClose next' alts cs = some x := by
  intro cs x h
  match cs with
  | [] => exact absurd h (by simp [parseClose])
  | c2 :: rest2 =>
    simp only [parseClose] at h ⊢
    by_cases hc : c2 = ')'
    · rw [if_pos hc] at h ⊢
      match rest2 with
      | [] => exact map_next_mono hn _ _ _ h
      | c3 :: rest3 =>
        dsimp only at h ⊢
        by_cases hc3 : c3 = '*'
        · rw [if_pos hc3] at h ⊢
          exact map_next_mono hn _ _ _ h
        · rw [if_neg hc3] at h ⊢
          exact map_next_mono hn _ _ _ h
    · rw [if_neg hc] at h
      exact absurd h (by simp)

theorem parseAltsTail_mono {next next' : List Char → Option (List (List RAtom) × List Char)}
    (hn : ∀ cs x, next cs = some x → next' cs = some x) (sq : List RAtom) :
    ∀ cs x, parseAltsTail next sq cs = some x → parseAltsTail next' sq cs = some x := by
  intro cs x h
  match cs with
  | [] => exact h
  | c2 :: rest =>
    simp only [parseAltsTail] at h ⊢
    by_cases hc : c2 = '|'
    · rw [if_pos hc] at h ⊢
      exact map_next_mono hn _ _ _ h
    · rw [if_neg hc] at h ⊢
      exact h

theorem parse_mono : ∀ fuel : Nat,
    (∀ cs x, parseSeqF fuel cs = some x → parseSeqF (fuel + 1) cs = some x) ∧
    (∀ cs x, parseAltsF fuel cs = some x → parseAltsF (fuel + 1) cs = some x) := by
  intro fuel
  induction fuel with
  | zero =>
    exact ⟨fun cs x h => by simp [parseSeqF] at h,
      fun cs x h => by simp [parseAltsF] at h⟩
  | succ fuel ih =>
    constructor
    · intro cs x h
      match cs with
      | [] => exact h
      | c :: rest =>
        show parseSeqF (fuel + 1 + 1) (c :: rest) = some x
        unfold parseSeqF at h ⊢
        by_cases h1 : c = ')' ∨ c = '|'
        · rw [if_pos h1] at h ⊢
          exact h
        · rw [if_neg h1] at h ⊢
          by_cases h2 : c = '*'
          · rw [if_pos h2] at h
            exact absurd h (by simp)
          · rw [if_neg h2] at h ⊢
            by_cases h3 : c = '('
            · rw [if_pos h3] at h ⊢
              cases hA : parseAltsF fuel rest with
              | none => rw [hA] at h; exact absurd h (by simp)
              | some pr =>
                rw [hA] at h
                rw [ih.2 rest pr hA]
                exact parseClose_mono ih.1 pr.1 pr.2 x h
            · rw [if_neg h3] at h ⊢
              exact parseCharTail_mono ih.1 c rest x h
    · intro cs x h
      show parseAltsF (fuel + 1 + 1) cs = some x
      unfold parseAltsF at h ⊢
      cases hS : parseSeqF fuel cs with
      | none => rw [hS] at h; exact absurd h (by simp)
      | some pr =>
        rw [hS] at h
        rw [ih.1 cs pr hS]
        exact parseAltsTail_mono ih.2 pr.1 pr.2 x h

theorem parseSeqF_mono_le {f f' : Nat} (hle : f ≤ f') :
    ∀ cs x, parseSeqF f cs = some x → parseSeqF f' cs = some x := by
  induction f' with
  | zero => intro cs x h; rw [Nat.le_zero.1 hle] at h; exact h
  | succ f' ih =>
    rcases Nat.lt_or_ge f (f' + 1) with hlt | hge
    · intro cs x h
      exact (parse_mono f').1 cs x (ih (by omega) cs x h)
    · intro cs x h
      have : f = f' + 1 := by omega
      rw [this] at h
      exact h

theorem parseAltsF_mono_le {f f' : Nat} (hle : f ≤ f') :
    ∀ cs x, parseAltsF f cs = some x → parseAltsF f' cs = some x := by
  induction f' with
  | zero => intro cs x h; rw [Nat.le_zero.1 hle] at h; exact h
  | succ f' ih =>
    rcases Nat.lt_or_ge f (f' + 1) with hlt | hge
    · intro cs x h
      exact (parse_mono f').2 cs x (ih (by omega) cs x h)
    · intro cs x h
      have : f = f' + 1 := by omega
      rw [this] at h
      exact h

/-! ### Re-parsing printed expressions -/

/-- Continuations at which a concatenation parse stops. -/
def SeqStop (rest : List Char) : Prop :=
  rest = [] ∨ (∃ r, rest = ')' :: r) ∨ (∃ r, rest = '|' :: r)

/-- Continuations at which an alternation parse stops. -/
def AltsStop (rest : List Char) : Prop :=
  rest = [] ∨ (∃ r, rest = ')' :: r)

theorem altsStop_seqStop {rest : List Char} (h : AltsStop rest) : SeqStop rest := by
  rcases h with h | h
  · exact Or.inl h
  · exact Or.inr (Or.inl h)

theorem seqStop_head {rest : List Char} (h : SeqStop rest) : rest.head? ≠ some '*' := by
  rcases h with rfl | ⟨r, rfl⟩ | ⟨r, rfl⟩ <;> simp

theorem parseSeqF_stop {rest : List Char} (h : SeqStop rest) {f : Nat} (hf : 1 ≤ f) :
    parseSeqF f rest = some ([], rest) := by
  obtain ⟨f', rfl⟩ : ∃ f', f = f' + 1 := ⟨f - 1, by omega⟩
  rcases h with rfl | ⟨r, rfl⟩ | ⟨r, rfl⟩
  · rfl
  · simp [parseSeqF]
  · simp [parseSeqF]

theorem parseAltsTail_stop {rest : List Char} (h : AltsStop rest)
    (next : List Char → Option (List (List RAtom) × List Char)) (sq : List RAtom) :
    parseAltsTail next sq rest = some ([sq], rest) := by
  rcases h with rfl | ⟨r, rfl⟩
  · rfl
  · simp only [parseAltsTail]
    rw [if_neg (by decide)]

theorem parseCharTail_plain {rest : List Char} (hrest : rest.head? ≠ some '*')
    (next : List Char → Option (List RAtom × List Char)) (c : Char)
    {s2 : List RAtom} {r2 : List Char} (hn : next rest = some (s2, r2)) :
    parseCharTail next c rest = some (.rchar c false :: s2, r2) := by
  match rest with
  | [] =>
    simp only [parseCharTail, hn, Option.map_some']
  | c2 :: rest' =>
    have hc2 : ¬c2 = '*' := by
      intro hc
      exact hrest (by rw [hc]; rfl)
    simp only [parseCharTail]
    rw [if_neg hc2, hn, Option.map_some']

theorem printsAtom_head {a : RAtom} {cs : List Char} (h : PrintsAtom a cs) :
    ∃ c r, cs = c :: r ∧ c ≠ '*' ∧ c ≠ ')' ∧ c ≠ '|' := by
  cases h with
  | char hc =>
    refine ⟨_, _, rfl, ?_, ?_, ?_⟩ <;>
      · intro hcontra
        exact hc.2 (by rw [hcontra]; simp [specials])
  | charStar hc =>
    refine ⟨_, _, rfl, ?_, ?_, ?_⟩ <;>
      · intro hcontra
        exact hc.2 (by rw [hcontra]; simp [specials])
  | groupStar hp => exact ⟨'(', _, rfl, by decide, by decide, by decide⟩

theorem seq_append_head {s : List RAtom} {cs rest : List Char} (h : PrintsSeq s cs)
    (hrest : rest.head? ≠ some '*') : (cs ++ rest).head? ≠ some '*' := by
  cases h with
  | nil => exact hrest
  | cons ha hs =>
    obtain ⟨c, r, rfl, hc, _, _⟩ := printsAtom_head ha
    simpa using hc

theorem roundtrip_all :
    (∀ a cs, PrintsAtom a cs →
      ∀ rest s2 r2 g f, parseSeqF g rest = some (s2, r2) → rest.head? ≠ some '*' →
        g + 2 * cs.length ≤ f → parseSeqF f (cs ++ rest) = some (a :: s2, r2)) ∧
    (∀ s cs, PrintsSeq s cs →
      ∀ rest s2 r2 g f, parseSeqF g rest = some (s2, r2) → rest.head? ≠ some '*' →
        g + 2 * cs.length ≤ f → parseSeqF f (cs ++ rest) = some (s ++ s2, r2)) ∧
    (∀ alts cs, PrintsAlts alts cs →
      ∀ rest f, AltsStop rest → 2 * cs.length + 3 ≤ f →
        parseAltsF f (cs ++ rest) = some (alts, rest)) := by
  refine Prints_ind _ _ _ ?_ ?_ ?_ ?_ ?_ ?_ ?_
  · -- plain character
    intro c hc rest s2 r2 g f hg hrest hf
    obtain ⟨f', rfl⟩ : ∃ f', f = f' + 1 :=
      ⟨f - 1, by simp only [List.length_cons, List.length_nil] at hf; omega⟩
    show parseSeqF (f' + 1) (c :: rest) = some (.rchar c false :: s2, r2)
    have hcs : c ∉ specials := hc.2
    simp only [specials, List.mem_cons] at hcs
    push_neg at hcs
    simp only [parseSeqF]
    rw [if_neg (by tauto), if_neg (by tauto), if_neg (by tauto)]
    exact parseCharTail_plain hrest (parseSeqF f') c
      (parseSeqF_mono_le (by simp only [List.length_cons, List.length_nil] at hf; omega)
        rest _ hg)
  · -- starred character
    intro c hc rest s2 r2 g f hg hrest hf
    obtain ⟨f', rfl⟩ : ∃ f', f = f' + 1 :=
      ⟨f - 1, by simp only [List.length_cons, List.length_nil] at hf; omega⟩
    show parseSeqF (f' + 1) (c :: '*' :: rest) = some (.rchar c true :: s2, r2)
    have hcs : c ∉ specials := hc.2
    simp only [specials, List.mem_cons] at hcs
    push_neg at hcs
    simp only [parseSeqF]
    rw [if_neg (by tauto), if_neg (by tauto), if_neg (by tauto)]
    simp only [parseCharTail]
    rw [if_pos trivial, parseSeqF_mono_le (show g ≤ f' by
      simp only [List.length_cons, List.length_nil] at hf; omega) rest _ hg,
      Option.map_some']
  · -- starred group
    intro alts css hp ih rest s2 r2 g f hg hrest hf
    obtain ⟨f', rfl⟩ : ∃ f', f = f' + 1 :=
      ⟨f - 1, by simp only [List.length_cons, List.length_nil, List.length_append] at hf; omega⟩
    have hshape : ('(' :: css ++ [')', '*']) ++ rest = '(' :: (css ++ (')' :: '*' :: rest)) := by
      simp
    rw [hshape]
    have hlen : ('(' :: css ++ [')', '*']).length = css.length + 3 := by simp
    rw [hlen] at hf
    show (match parseAltsF f' (css ++ (')' :: '*' :: rest)) with
      | some (a1, rest2) => parseClose (parseSeqF f') a1 rest2
      | none => none) = some (.rgroup alts true :: s2, r2)
    rw [ih (')' :: '*' :: rest) f' (Or.inr ⟨_, rfl⟩) (by omega)]
    simp only [parseClose]
    rw [if_pos trivial, if_pos trivial,
      parseSeqF_mono_le (show g ≤ f' by omega) rest _ hg, Option.map_some']
  · -- empty sequence
    intro rest s2 r2 g f hg hrest hf
    rw [List.nil_append, List.nil_append]
    exact parseSeqF_mono_le (by omega) rest _ hg
  · -- sequence cons
    intro a sq cs1 cs2 hpa hps iha ihs rest s2 r2 g f hg hrest hf
    have hS := ihs rest s2 r2 g (g + 2 * cs2.length) hg hrest (le_refl _)
    have hA := iha (cs2 ++ rest) (sq ++ s2) r2 (g + 2 * cs2.length) f hS
      (seq_append_head hps hrest) (by simp only [List.length_append] at hf; omega)
    rw [List.append_assoc]
    rw [hA]
    rfl
  · -- single alternative
    intro sq cs hps hne ihs rest f hstop hf
    obtain ⟨f', rfl⟩ : ∃ f', f = f' + 1 := ⟨f - 1, by omega⟩
    show parseAltsF (f' + 1) (cs ++ rest) = some ([sq], rest)
    simp only [parseAltsF]
    have hS := ihs rest [] rest 1 f' (parseSeqF_stop (altsStop_seqStop hstop) (le_refl _))
      (seqStop_head (altsStop_seqStop hstop)) (by omega)
    rw [List.append_nil] at hS
    rw [hS]
    exact parseAltsTail_stop hstop _ _
  · -- alternative cons
    intro sq cs alts css hps hne hpl ihs ihl rest f hstop hf
    obtain ⟨f', rfl⟩ : ∃ f', f = f' + 1 := ⟨f - 1, by omega⟩
    have hshape : (cs ++ '|' :: css) ++ rest = cs ++ ('|' :: (css ++ rest)) := by simp
    rw [hshape]
    have hlen : (cs ++ '|' :: css).length = cs.length + css.length + 1 := by
      simp only [List.length_append, List.length_cons]
      omega
    rw [hlen] at hf
    show parseAltsF (f' + 1) (cs ++ ('|' :: (css ++ rest))) = some (sq :: alts, rest)
    simp only [parseAltsF]
    have hS := ihs ('|' :: (css ++ rest)) [] ('|' :: (css ++ rest)) 1 f'
      (parseSeqF_stop (Or.inr (Or.inr ⟨_, rfl⟩)) (le_refl _)) (by simp) (by omega)
    rw [List.append_nil] at hS
    rw [hS]
    simp only [parseAltsTail]
    rw [if_pos trivial, ihl rest f' hstop (by omega), Option.map_some']

theorem parse_printed_seq {sq : List RAtom} {cs rest : List Char} {f : Nat}
    (h : PrintsSeq sq cs) (hstop : SeqStop rest) (hf : 2 * cs.length + 2 ≤ f) :
    parseSeqF f (cs ++ rest) = some (sq, rest) := by
  have hr := roundtrip_all.2.1 sq cs h rest [] rest 1 f
    (parseSeqF_stop hstop (le_refl _)) (seqStop_head hstop) (by omega)
  rw [List.append_nil] at hr
  exact hr

theorem parse_printed_alts {alts : List (List RAtom)} {cs rest : List Char} {f : Nat}
    (h : PrintsAlts alts cs) (hstop : AltsStop rest) (hf : 2 * cs.length + 3 ≤ f) :
    parseAltsF f (cs ++ rest) = some (alts, rest) :=
  roundtrip_all.2.2 alts cs h rest f hstop hf

theorem printsSeq_append : ∀ {s1 : List RAtom} {cs1 : List Char}, PrintsSeq s1 cs1 →
    ∀ {s2 : List RAtom} {cs2 : List Char}, PrintsSeq s2 cs2 →
      PrintsSeq (s1 ++ s2) (cs1 ++ cs2) := by
  intro s1
  induction s1 with
  | nil =>
    intro cs1 h1 s2 cs2 h2
    cases h1
    simpa using h2
  | cons a s1 ih =>
    intro cs1 h1 s2 cs2 h2
    cases h1 with
    | cons ha hs =>
      rw [List.cons_append, List.append_assoc]
      exact PrintsSeq.cons ha (ih hs h2)

/-! ### Semantics lemmas -/

theorem seqMat_append_iff : ∀ {s1 s2 : List RAtom} {w : List Char},
    SeqMat (s1 ++ s2) w ↔ ∃ w1 w2, w = w1 ++ w2 ∧ SeqMat s1 w1 ∧ SeqMat s2 w2 := by
  intro s1
  induction s1 with
  | nil =>
    intro s2 w
    constructor
    · intro h
      exact ⟨[], w, rfl, SeqMat.nil, h⟩
    · rintro ⟨w1, w2, rfl, h1, h2⟩
      cases h1
      exact h2
  | cons a s1 ih =>
    intro s2 w
    constructor
    · intro h
      cases h with
      | cons ha hs =>
        rename_i w1 w2
        obtain ⟨w21, w22, rfl, hs1, hs2⟩ := ih.1 hs
        exact ⟨w1 ++ w21, w22, by simp, SeqMat.cons ha hs1, hs2⟩
    · rintro ⟨w1, w2, rfl, h1, h2⟩
      cases h1 with
      | cons ha hs =>
        rename_i wa ws
        rw [List.append_assoc]
        exact SeqMat.cons ha (ih.2 ⟨ws, w2, rfl, hs, h2⟩)

theorem seqMat_singleton_iff {a : RAtom} {w : List Char} :
    SeqMat [a] w ↔ AtomMat a w := by
  constructor
  · intro h
    cases h with
    | cons ha hs =>
      cases hs
      simpa using ha
  · intro h
    have := SeqMat.cons h SeqMat.nil
    simpa using this

/-- The semantics of a starred group: a concatenation of chunks, each
matching one of the alternatives. -/
theorem groupStar_iff {alts : List (List RAtom)} {w : List Char} :
    AtomMat (.rgroup alts true) w ↔
      ∃ chunks : List (List Char), w = chunks.flatten ∧
        ∀ ch ∈ chunks, ∃ s ∈ alts, SeqMat s ch := by
  constructor
  · intro h
    have key : ∀ (a : RAtom) (w : List Char), AtomMat a w → a = .rgroup alts true →
        ∃ chunks : List (List Char), w = chunks.flatten ∧
          ∀ ch ∈ chunks, ∃ s ∈ alts, SeqMat s ch := by
      intro a w h
      refine @AtomMat.rec
        (fun a w _ => a = .rgroup alts true →
          ∃ chunks : List (List Char), w = chunks.flatten ∧
            ∀ ch ∈ chunks, ∃ s ∈ alts, SeqMat s ch)
        (fun _ _ _ => True)
        ?_ ?_ ?_ ?_ ?_ ?_ ?_ ?_ a w h
      · intro c heq
        exact absurd heq (by intro hc; cases hc)
      · intro c heq
        exact absurd heq (by intro hc; cases hc)
      · intro c w _ _ heq
        exact absurd heq (by intro hc; cases hc)
      · intro alts' s w hmem hs _ heq
        injection heq with h1 h2
        cases h1
        exact absurd h2 (by decide)
      · intro alts' heq
        injection heq with h1 h2
        exact ⟨[], rfl, by simp⟩
      · intro alts' s w1 w2 hmem hs _ _ ih heq
        injection heq with h1 h2
        cases h1
        obtain ⟨chunks, rfl, hch⟩ := ih rfl
        refine ⟨w1 :: chunks, rfl, ?_⟩
        intro ch hch2
        rcases List.mem_cons.1 hch2 with rfl | hch2
        · exact ⟨s, hmem, hs⟩
        · exact hch ch hch2
      · exact trivial
      · exact fun _ _ _ _ => trivial
    exact key _ _ h rfl
  · rintro ⟨chunks, rfl, hch⟩
    induction chunks with
    | nil => exact AtomMat.groupStar0 alts
    | cons ch chunks ih =>
      obtain ⟨s, hmem, hs⟩ := hch ch (List.mem_cons_self _ _)
      exact AtomMat.groupStarS hmem hs (ih (fun c hc => hch c (List.mem_cons_of_mem _ hc)))

/-- The semantics of a starred character, in the same chunked form. -/
theorem charStar_iff {c : Char} {w : List Char} :
    AtomMat (.rchar c true) w ↔
      ∃ chunks : List (List Char), w = chunks.flatten ∧ ∀ ch ∈ chunks, ch = [c] := by
  constructor
  · intro h
    have key : ∀ (a : RAtom) (w : List Char), AtomMat a w → a = .rchar c true →
        ∃ chunks : List (List Char), w = chunks.flatten ∧ ∀ ch ∈ chunks, ch = [c] := by
      intro a w h
      refine @AtomMat.rec
        (fun a w _ => a = .rchar c true →
          ∃ chunks : List (List Char), w = chunks.flatten ∧ ∀ ch ∈ chunks, ch = [c])
        (fun _ _ _ => True)
        ?_ ?_ ?_ ?_ ?_ ?_ ?_ ?_ a w h
      · intro c' heq
        injection heq with h1 h2
        exact absurd h2 (by decide)
      · intro c' heq
        injection heq with h1 h2
        cases h1
        exact ⟨[], rfl, by simp⟩
      · intro c' w' _ ih heq
        injection heq with h1 h2
        cases h1
        obtain ⟨chunks, rfl, hch⟩ := ih rfl
        refine ⟨[c] :: chunks, rfl, ?_⟩
        intro ch hch2
        rcases List.mem_cons.1 hch2 with rfl | hch2
        · rfl
        · exact hch ch hch2
      · intro alts' s w' hmem hs _ heq
        exact absurd heq (by intro hc; cases hc)
      · intro alts' heq
        exact absurd heq (by intro hc; cases hc)
      · intro alts' s w1 w2 hmem hs _ _ _ heq
        exact absurd heq (by intro hc; cases hc)
      · exact trivial
      · exact fun _ _ _ _ => trivial
    exact key _ _ h rfl
  · rintro ⟨chunks, rfl, hch⟩
    induction chunks with
    | nil => exact AtomMat.charStar0 c
    | cons ch chunks ih =>
      have hcc := hch ch (List.mem_cons_self _ _)
      subst hcc
      exact AtomMat.charStarS (ih (fun c hc => hch c (List.mem_cons_of_mem _ hc)))

/-! ### Labels as parsed expressions -/

/-- What the engine front end makes of one edge label (a bare
concatenation, fully consumed). -/
def parseLabel (s : String) : Option (List RAtom) :=
  match parseSeqF (2 * s.data.length + 2) s.data with
  | some (sq, []) => some sq
  | _ => none

/-- The language of one edge label. -/
def LabelMat (s : String) (w : List Char) : Prop :=
  ∃ sq, parseLabel s = some sq ∧ SeqMat sq w

theorem parseLabel_printed {sq : List RAtom} {v : String}
    (h : PrintsSeq sq v.data) : parseLabel v = some sq := by
  unfold parseLabel
  have hp := @parse_printed_seq sq v.data [] (2 * v.data.length + 2) h (Or.inl rfl)
    (by omega)
  rw [List.append_nil] at hp
  rw [hp]

theorem labelMat_printed {sq : List RAtom} {v : String} (h : PrintsSeq sq v.data) :
    ∀ w, LabelMat v w ↔ SeqMat sq w := by
  intro w
  constructor
  · rintro ⟨sq2, hp, hm⟩
    rw [parseLabel_printed h] at hp
    injection hp with hp
    rw [hp]
    exact hm
  · intro hm
    exact ⟨sq, parseLabel_printed h, hm⟩

theorem seqMat_nil_iff {w : List Char} : SeqMat [] w ↔ w = [] := by
  constructor
  · intro h
    cases h
    rfl
  · rintro rfl
    exact SeqMat.nil

theorem atomMat_char_iff {c : Char} {w : List Char} :
    AtomMat (.rchar c false) w ↔ w = [c] := by
  constructor
  · intro h
    cases h
    rfl
  · rintro rfl
    exact AtomMat.char c

theorem printsSeq_nil_data {cs : List Char} (h : PrintsSeq [] cs) : cs = [] := by
  cases h
  rfl

theorem printsSeq_ne_nil {sq : List RAtom} {cs : List Char} (h : PrintsSeq sq cs)
    (hne : cs ≠ []) : sq ≠ [] := by
  intro hsq
  subst hsq
  exact hne (printsSeq_nil_data h)

theorem printsSeq_single_char {sq : List RAtom} {cs : List Char} (h : PrintsSeq sq cs)
    (hlen : cs.length = 1) : ∃ c, cs = [c] ∧ sq = [.rchar c false] ∧ plainChar c := by
  cases h with
  | nil => simp at hlen
  | cons ha hs =>
    rename_i a s cs1 cs2
    cases ha with
    | char hc =>
      rename_i c
      have h2 : cs2 = [] := by
        simp only [List.length_append, List.length_cons, List.length_nil] at hlen
        exact List.eq_nil_of_length_eq_zero (by omega)
      subst h2
      have hs2 : s = [] := printsSeq_nil_inv hs rfl
      subst hs2
      exact ⟨c, by simp, rfl, hc⟩
    | charStar hc =>
      simp only [List.length_append, List.length_cons, List.length_nil] at hlen
      omega
    | groupStar hp =>
      simp only [List.length_append, List.length_cons, List.length_nil] at hlen
      omega

/-- Every character of a printed expression occupies one UTF-8 byte. -/
theorem printsSeq_chars :
    (∀ a cs, PrintsAtom a cs → ∀ c ∈ cs, c.utf8Size = 1) ∧
    (∀ s cs, PrintsSeq s cs → ∀ c ∈ cs, c.utf8Size = 1) ∧
    (∀ alts cs, PrintsAlts alts cs → ∀ c ∈ cs, c.utf8Size = 1) := by
  refine Prints_ind _ _ _ ?_ ?_ ?_ ?_ ?_ ?_ ?_
  · intro c hc c' hc'
    rw [List.mem_singleton.1 hc']
    exact hc.1
  · intro c hc c' hc'
    rcases List.mem_cons.1 hc' with rfl | hc'
    · exact hc.1
    · rw [List.mem_singleton.1 hc']
      rfl
  · intro alts css _ ih c' hc'
    rcases List.mem_cons.1 hc' with rfl | hc'
    · rfl
    · rcases List.mem_append.1 hc' with hc' | hc'
      · exact ih c' hc'
      · rcases List.mem_cons.1 hc' with rfl | hc'
        · rfl
        · rw [List.mem_singleton.1 hc']
          rfl
  · intro c hc
    simp at hc
  · intro a s cs1 cs2 _ _ ih1 ih2 c hc
    rcases List.mem_append.1 hc with hc | hc
    · exact ih1 c hc
    · exact ih2 c hc
  · intro s cs _ _ ih
    exact ih
  · intro s cs alts css _ _ _ ih1 ih2 c hc
    rcases List.mem_append.1 hc with hc | hc
    · exact ih1 c hc
    · rcases List.mem_cons.1 hc with rfl | hc
      · rfl
      · exact ih2 c hc

theorem utf8ByteSize_data (s : String) : s.utf8ByteSize = String.utf8ByteSize.go s.data := rfl

theorem utf8_len {s : String} (h : ∀ c ∈ s.data, c.utf8Size = 1) :
    s.utf8ByteSize = s.data.length := by
  rw [utf8ByteSize_data]
  exact utf8Go_eq_length _ h

theorem utf8Go_pos {l : List Char} (h : l ≠ []) : 0 < String.utf8ByteSize.go l := by
  match l with
  | [] => exact absurd rfl h
  | c :: cs =>
    have h1 : 0 < c.utf8Size := Char.utf8Size_pos c
    show 0 < String.utf8ByteSize.go cs + c.utf8Size
    omega

theorem utf8_pos_iff {s : String} : 0 < s.utf8ByteSize ↔ s.data ≠ [] := by
  rw [utf8ByteSize_data]
  constructor
  · intro h hc
    rw [hc] at h
    exact absurd h (by simp [String.utf8ByteSize.go])
  · exact utf8Go_pos

/-! ### `orJoin` and `addKleenStar` symbolically -/

theorem intercalate_go_data (sep : String) (as : List String) :
    ∀ acc : String, (String.intercalate.go acc sep as).data =
      acc.data ++ (as.flatMap (fun a => sep.data ++ a.data)) := by
  induction as with
  | nil => intro acc; simp [String.intercalate.go]
  | cons a as ih =>
    intro acc
    show (String.intercalate.go (acc ++ sep ++ a) sep as).data = _
    rw [ih]
    simp [String.data_append]

theorem intercalate_data (v1 : String) (vs : List String) :
    (String.intercalate "|" (v1 :: vs)).data =
      v1.data ++ vs.flatMap (fun a => '|' :: a.data) := by
  show (String.intercalate.go v1 "|" vs).data = _
  rw [intercalate_go_data]
  rfl

/-- A `|`-join of printable nonempty labels prints an alternation whose
language is the union of the labels' languages. -/
theorem printsAlts_of_values :
    ∀ (v1 : String) (vs : List String),
      (∀ v ∈ v1 :: vs, (∃ sq, PrintsSeq sq v.data) ∧ v.data ≠ []) →
      ∃ alts, PrintsAlts alts (String.intercalate "|" (v1 :: vs)).data ∧
        ∀ w, (∃ s ∈ alts, SeqMat s w) ↔ ∃ v ∈ v1 :: vs, LabelMat v w := by
  intro v1 vs
  induction vs generalizing v1 with
  | nil =>
    intro hgood
    obtain ⟨⟨sq, hsq⟩, hne⟩ := hgood v1 (List.mem_cons_self _ _)
    refine ⟨[sq], ?_, ?_⟩
    · have : (String.intercalate "|" [v1]).data = v1.data := by
        rw [intercalate_data]
        simp
      rw [this]
      exact PrintsAlts.one hsq (printsSeq_ne_nil hsq hne)
    · intro w
      constructor
      · rintro ⟨s, hs, hm⟩
        rw [List.mem_singleton.1 hs] at hm
        exact ⟨v1, List.mem_cons_self _ _, (labelMat_printed hsq w).2 hm⟩
      · rintro ⟨v, hv, hm⟩
        rcases List.mem_cons.1 hv with rfl | hv
        · exact ⟨sq, List.mem_singleton.2 rfl, (labelMat_printed hsq w).1 hm⟩
        · simp at hv
  | cons v2 vs ih =>
    intro hgood
    obtain ⟨⟨sq, hsq⟩, hne⟩ := hgood v1 (List.mem_cons_self _ _)
    obtain ⟨alts2, hp2, hiff2⟩ := ih v2 (fun v hv => hgood v (List.mem_cons_of_mem _ hv))
    refine ⟨sq :: alts2, ?_, ?_⟩
    · have hdata : (String.intercalate "|" (v1 :: v2 :: vs)).data =
          v1.data ++ '|' :: (String.intercalate "|" (v2 :: vs)).data := by
        rw [intercalate_data, intercalate_data]
        simp
      rw [hdata]
      exact PrintsAlts.cons hsq (printsSeq_ne_nil hsq hne) hp2
    · intro w
      constructor
      · rintro ⟨s, hs, hm⟩
        rcases List.mem_cons.1 hs with rfl | hs
        · exact ⟨v1, List.mem_cons_self _ _, (labelMat_printed hsq w).2 hm⟩
        · obtain ⟨v, hv, hvm⟩ := (hiff2 w).1 ⟨s, hs, hm⟩
          exact ⟨v, List.mem_cons_of_mem _ hv, hvm⟩
      · rintro ⟨v, hv, hm⟩
        rcases List.mem_cons.1 hv with rfl | hv
        · exact ⟨sq, List.mem_cons_self _ _, (labelMat_printed hsq w).1 hm⟩
        · obtain ⟨s, hs, hsm⟩ := (hiff2 w).2 ⟨v, hv, hm⟩
          exact ⟨s, List.mem_cons_of_mem _ hs, hsm⟩

/-- The Kleene-star middle built from the self-loop labels: it prints as a
(possibly empty) single starred atom whose language is the chunked union of
the self-loop languages. -/
theorem mid_spec (vals : List String)
    (hgood : ∀ v ∈ vals, (∃ sq, PrintsSeq sq v.data) ∧ v.data ≠ []) :
    ∃ sqm, PrintsSeq sqm
        (addKleenStar (orJoin vals) (decide (vals.length > 1))).data ∧
      ∀ w, SeqMat sqm w ↔
        ∃ chunks : List (List Char), w = chunks.flatten ∧
          ∀ ch ∈ chunks, ∃ v ∈ vals, LabelMat v ch := by
  have hfilter : vals.filter (fun s => s.utf8ByteSize > 0) = vals := by
    rw [List.filter_eq_self]
    intro v hv
    have := (hgood v hv).2
    simp only [decide_eq_true_eq]
    exact utf8_pos_iff.2 this
  cases vals with
  | nil =>
    refine ⟨[], by exact PrintsSeq.nil, ?_⟩
    intro w
    rw [seqMat_nil_iff]
    constructor
    · rintro rfl
      exact ⟨[], rfl, by simp⟩
    · rintro ⟨chunks, rfl, hch⟩
      match chunks with
      | [] => rfl
      | ch :: chunks =>
        obtain ⟨v, hv, _⟩ := hch ch (List.mem_cons_self _ _)
        simp at hv
  | cons v vals2 =>
  cases vals2 with
  | cons v2 vs =>
    obtain ⟨alts, hpa, hiff⟩ := printsAlts_of_values v (v2 :: vs) hgood
    have hOJ : orJoin (v :: v2 :: vs) =
        "(" ++ String.intercalate "|" (v :: v2 :: vs) ++ ")" := by
      unfold orJoin
      rw [hfilter]
    rw [hOJ]
    set icd := String.intercalate "|" (v :: v2 :: vs) with hicd
    have hchars : ∀ c ∈ ("(" ++ icd ++ ")").data, c.utf8Size = 1 := by
      have h1 : ("(" ++ icd ++ ")").data = '(' :: icd.data ++ [')'] := by
        rw [String.data_append, String.data_append]
        rfl
      rw [h1]
      intro c hc
      rcases List.mem_cons.1 hc with rfl | hc
      · rfl
      · rcases List.mem_append.1 hc with hc | hc
        · exact printsSeq_chars.2.2 alts icd.data hpa c hc
        · rw [List.mem_singleton.1 hc]
          rfl
    have hlen : ("(" ++ icd ++ ")").utf8ByteSize = ("(" ++ icd ++ ")").data.length :=
      utf8_len hchars
    have hdl : ("(" ++ icd ++ ")").data = '(' :: icd.data ++ [')'] := by
      rw [String.data_append, String.data_append]
      rfl
    have hAK : addKleenStar ("(" ++ icd ++ ")") (decide ((v :: v2 :: vs).length > 1)) =
        "(" ++ icd ++ ")" ++ "*" := by
      unfold addKleenStar
      rw [if_neg (by rw [hlen, hdl]; simp), if_neg (by rw [hlen, hdl]; simp),
        if_pos (by simp)]
    rw [hAK]
    refine ⟨[.rgroup alts true], ?_, ?_⟩
    · have hPA : PrintsAtom (.rgroup alts true) ('(' :: icd.data ++ [')', '*']) :=
        PrintsAtom.groupStar hpa
      have h2 := PrintsSeq.cons hPA PrintsSeq.nil
      have hd : ("(" ++ icd ++ ")" ++ "*").data = '(' :: icd.data ++ [')', '*'] := by
        rw [String.data_append, String.data_append, String.data_append]
        simp
      rw [hd]
      simpa using h2
    · intro w
      rw [seqMat_singleton_iff, groupStar_iff]
      constructor
      · rintro ⟨chunks, rfl, hch⟩
        refine ⟨chunks, rfl, ?_⟩
        intro ch hchm
        exact (hiff ch).1 (hch ch hchm)
      · rintro ⟨chunks, rfl, hch⟩
        refine ⟨chunks, rfl, ?_⟩
        intro ch hchm
        exact (hiff ch).2 (hch ch hchm)
  | nil =>
    obtain ⟨⟨sq, hsq⟩, hne⟩ := hgood v (List.mem_cons_self _ _)
    have hOJ : orJoin [v] = v := by
      unfold orJoin
      rw [hfilter]
    rw [hOJ]
    have hchars : ∀ c ∈ v.data, c.utf8Size = 1 := printsSeq_chars.2.1 sq v.data hsq
    have hlen : v.utf8ByteSize = v.data.length := utf8_len hchars
    have hnz : v.utf8ByteSize ≠ 0 := by
      rw [hlen]
      intro hc
      exact hne (List.eq_nil_of_length_eq_zero hc)
    by_cases h1 : v.utf8ByteSize = 1
    · -- single plain character: prints c*
      obtain ⟨c, hcv, hsqc, hplain⟩ := printsSeq_single_char hsq (by omega)
      have hAK : addKleenStar v (decide ([v].length > 1)) = v ++ "*" := by
        unfold addKleenStar
        rw [if_neg hnz, if_pos h1]
      rw [hAK]
      refine ⟨[.rchar c true], ?_, ?_⟩
      · rw [String.data_append, hcv]
        have : PrintsAtom (.rchar c true) [c, '*'] := PrintsAtom.charStar hplain
        have h2 := PrintsSeq.cons this PrintsSeq.nil
        simpa using h2
      · intro w
        rw [seqMat_singleton_iff, charStar_iff]
        constructor
        · rintro ⟨chunks, rfl, hch⟩
          refine ⟨chunks, rfl, ?_⟩
          intro ch hchm
          rw [hch ch hchm]
          refine ⟨v, List.mem_cons_self _ _, ?_⟩
          rw [labelMat_printed hsq, hsqc, seqMat_singleton_iff, atomMat_char_iff]
        · rintro ⟨chunks, rfl, hch⟩
          refine ⟨chunks, rfl, ?_⟩
          intro ch hchm
          obtain ⟨v', hv', hm⟩ := hch ch hchm
          rcases List.mem_cons.1 hv' with rfl | hv'
          · rw [labelMat_printed hsq, hsqc, seqMat_singleton_iff, atomMat_char_iff] at hm
            exact hm
          · simp at hv'
    · -- one multi-character label: prints (v)*
      have hAK : addKleenStar v (decide ([v].length > 1)) = "(" ++ v ++ ")*" := by
        unfold addKleenStar
        rw [if_neg hnz, if_neg h1, if_neg (by simp)]
      rw [hAK]
      have hsqne : sq ≠ [] := printsSeq_ne_nil hsq hne
      refine ⟨[.rgroup [sq] true], ?_, ?_⟩
      · have hPA : PrintsAtom (.rgroup [sq] true) ('(' :: v.data ++ [')', '*']) :=
          PrintsAtom.groupStar (PrintsAlts.one hsq hsqne)
        have h2 := PrintsSeq.cons hPA PrintsSeq.nil
        have hd : ("(" ++ v ++ ")*").data = '(' :: v.data ++ [')', '*'] := by
          rw [String.data_append, String.data_append]
          rfl
        rw [hd]
        simpa using h2
      · intro w
        rw [seqMat_singleton_iff, groupStar_iff]
        constructor
        · rintro ⟨chunks, rfl, hch⟩
          refine ⟨chunks, rfl, ?_⟩
          intro ch hchm
          obtain ⟨s, hs, hm⟩ := hch ch hchm
          rw [List.mem_singleton.1 hs] at hm
          exact ⟨v, List.mem_cons_self _ _, (labelMat_printed hsq ch).2 hm⟩
        · rintro ⟨chunks, rfl, hch⟩
          refine ⟨chunks, rfl, ?_⟩
          intro ch hchm
          obtain ⟨v', hv', hm⟩ := hch ch hchm
          rcases List.mem_cons.1 hv' with rfl | hv'
          · exact ⟨sq, List.mem_singleton.2 rfl, (labelMat_printed hsq ch).1 hm⟩
          · simp at hv'
/-! ### Path semantics on the working automaton -/

/-- A walk of `k` edges through an edge list, whose label languages
concatenate to the word. -/
inductive GPathN (E : List NFAEdge) : Nat → Nat → List Char → Nat → Prop where
  | refl (p) : GPathN E 0 p [] p
  | step {k p w1 w2 r} (e : NFAEdge) : e ∈ E → e.src = p → LabelMat e.value w1 →
      GPathN E k e.dst w2 r → GPathN E (k + 1) p (w1 ++ w2) r

/-- A walk of any length. -/
def GPath (E : List NFAEdge) (p : Nat) (w : List Char) (r : Nat) : Prop :=
  ∃ k, GPathN E k p w r

theorem gPathN_trans {E : List NFAEdge} :
    ∀ {k1 p w1 q}, GPathN E k1 p w1 q → ∀ {w2 r}, GPath E q w2 r →
      GPath E p (w1 ++ w2) r := by
  intro k1 p w1 q h1
  induction h1 with
  | refl p =>
    intro w2 r h2
    simpa using h2
  | step e he hsrc hlab htail ih =>
    intro w2 r h2
    obtain ⟨k3, h3⟩ := ih h2
    refine ⟨k3 + 1, ?_⟩
    rw [List.append_assoc]
    exact GPathN.step e he hsrc hlab h3

theorem gPath_trans {E : List NFAEdge} {p : Nat} {w1 : List Char} {q : Nat}
    {w2 : List Char} {r : Nat} (h1 : GPath E p w1 q) (h2 : GPath E q w2 r) :
    GPath E p (w1 ++ w2) r := by
  obtain ⟨k1, h1⟩ := h1
  exact gPathN_trans h1 h2

theorem gPathN_mono {E E' : List NFAEdge} (hsub : ∀ e ∈ E, e ∈ E') :
    ∀ {k p w r}, GPathN E k p w r → GPathN E' k p w r := by
  intro k p w r h
  induction h with
  | refl p => exact GPathN.refl p
  | step e he hsrc hlab _ ih => exact GPathN.step e (hsub e he) hsrc hlab ih

/-- The bypass edges one elimination step appends. -/
def productsOf (mid : String) (ins outs : List NFAEdge) : List NFAEdge :=
  ins.flatMap (fun i =>
    if i.src = i.dst then []
    else outs.filterMap (fun o =>
      if o.src = o.dst then none
      else some ⟨i.src, o.dst, i.value ++ mid ++ o.value⟩))

theorem productsOf_mem {mid : String} {ins outs : List NFAEdge} {e : NFAEdge} :
    e ∈ productsOf mid ins outs ↔
      ∃ i ∈ ins, ∃ o ∈ outs, ¬i.src = i.dst ∧ ¬o.src = o.dst ∧
        e = ⟨i.src, o.dst, i.value ++ mid ++ o.value⟩ := by
  unfold productsOf
  rw [List.mem_flatMap]
  constructor
  · rintro ⟨i, hi, hmem⟩
    by_cases hself : i.src = i.dst
    · rw [if_pos hself] at hmem
      simp at hmem
    · rw [if_neg hself] at hmem
      rw [List.mem_filterMap] at hmem
      obtain ⟨o, ho, hoe⟩ := hmem
      by_cases hos : o.src = o.dst
      · rw [if_pos hos] at hoe
        simp at hoe
      · rw [if_neg hos] at hoe
        injection hoe with hoe
        exact ⟨i, hi, o, ho, hself, hos, hoe.symm⟩
  · rintro ⟨i, hi, o, ho, hself, hos, rfl⟩
    refine ⟨i, hi, ?_⟩
    rw [if_neg hself, List.mem_filterMap]
    exact ⟨o, ho, by rw [if_neg hos]⟩

theorem edgesIn_mem {nfa : NFA} {n : String} {qPtr : Nat}
    (hq : lookupName nfa.nodes n = some qPtr) {e : NFAEdge} :
    e ∈ edgesIn nfa n ↔ e ∈ nfa.edges ∧ e.dst = qPtr := by
  unfold edgesIn
  rw [hq, List.mem_filter]
  simp

theorem edgesOut_mem {nfa : NFA} {n : String} {qPtr : Nat}
    (hq : lookupName nfa.nodes n = some qPtr) {e : NFAEdge} :
    e ∈ edgesOut nfa n ↔ e ∈ nfa.edges ∧ e.src = qPtr := by
  unfold edgesOut
  rw [hq, List.mem_filter]
  simp

theorem lookup_ptr_inj {h : Heap} {nfa : NFA} (hwf : WF h nfa) {k1 k2 : String} {p : Nat}
    (h1 : lookupName nfa.nodes k1 = some p) (h2 : lookupName nfa.nodes k2 = some p) :
    k1 = k2 := by
  have m1 := lookupName_some_mem h1
  have m2 := lookupName_some_mem h2
  have e1 := (hwf.1 _ m1).2
  have e2 := (hwf.1 _ m2).2
  exact e1.symm.trans e2

/-- The inner product fold, with the appended edges written out. -/
theorem elimProducts_inner_exact {h : Heap} {iPtr tPtr : Nat} {inE : NFAEdge}
    (mid : String) :
    ∀ (outs : List NFAEdge) (nfa : NFA),
      CInv h nfa iPtr tPtr true true →
      (∀ e ∈ outs, e ∈ nfa.edges) →
      Registered h nfa inE.src → inE.src ≠ tPtr →
      outs.foldl (fun st2 outE =>
        if outE.src = outE.dst then st2
        else addEdge st2 (heapGet st2.heap inE.src).name
          (heapGet st2.heap outE.dst).name (inE.value ++ mid ++ outE.value))
        ⟨h, nfa⟩ =
        ⟨h, nfa.nodes, nfa.edges ++ outs.filterMap (fun o =>
          if o.src = o.dst then none
          else some ⟨inE.src, o.dst, inE.value ++ mid ++ o.value⟩)⟩ ∧
      CInv h ⟨nfa.nodes, nfa.edges ++ outs.filterMap (fun o =>
          if o.src = o.dst then none
          else some ⟨inE.src, o.dst, inE.value ++ mid ++ o.value⟩)⟩ iPtr tPtr true true := by
  intro outs
  induction outs with
  | nil =>
    intro nfa inv _ _ _
    refine ⟨?_, by simpa using inv⟩
    rw [List.foldl_nil, List.filterMap_nil, List.append_nil]
  | cons outE outs ih =>
    intro nfa inv houts hreg hne
    rw [List.foldl_cons, List.filterMap_cons]
    by_cases hself : outE.src = outE.dst
    · rw [if_pos hself, if_pos hself]
      exact ih nfa inv (fun e he => houts e (List.mem_cons_of_mem _ he)) hreg hne
    · rw [if_neg hself, if_neg hself]
      have hoE := houts outE (List.mem_cons_self _ _)
      have hregO := (inv.wf.2.2 outE hoE).2
      have hDstNe : outE.dst ≠ iPtr := (inv.edgeInv outE hoE).1
      obtain ⟨he, inv2⟩ := CInv_addProduct inv (inE.value ++ mid ++ outE.value) hreg hregO
        hne hDstNe
      rw [he]
      have hsub : ∀ e ∈ outs, e ∈ (⟨nfa.nodes,
          nfa.edges ++ [⟨inE.src, outE.dst, inE.value ++ mid ++ outE.value⟩]⟩ : NFA).edges :=
        fun e heo => List.mem_append.2 (Or.inl (houts e (List.mem_cons_of_mem _ heo)))
      have hreg2 : Registered h (⟨nfa.nodes,
          nfa.edges ++ [⟨inE.src, outE.dst, inE.value ++ mid ++ outE.value⟩]⟩ : NFA) inE.src := by
        unfold Registered at hreg ⊢
        exact hreg
      obtain ⟨hfold, inv3⟩ := ih _ inv2 hsub hreg2 hne
      rw [hfold]
      constructor
      · rw [List.append_assoc]
        rfl
      · rw [List.append_assoc] at inv3
        exact inv3

theorem edgesOut_append {nodes : List (String × Nat)} {e1 e2 : List NFAEdge} {n : String} :
    edgesOut ⟨nodes, e1 ++ e2⟩ n = edgesOut ⟨nodes, e1⟩ n ++ edgesOut ⟨nodes, e2⟩ n := by
  unfold edgesOut
  exact List.filter_append _ _

/-- The full product stage, with the appended edges written out. -/
theorem elimProducts_exact {h : Heap} {iPtr tPtr : Nat} (n mid : String) {qPtr : Nat}
    (outs0 : List NFAEdge) :
    ∀ (ins : List NFAEdge) (nfa : NFA),
      CInv h nfa iPtr tPtr true true →
      lookupName nfa.nodes n = some qPtr →
      (∀ e ∈ ins, e.dst = qPtr ∧ Registered h nfa e.src ∧ e.src ≠ tPtr) →
      edgesOut nfa n = outs0 →
      (∀ e ∈ outs0, e ∈ nfa.edges) →
      elimProducts ⟨h, nfa⟩ n mid ins =
          ⟨h, nfa.nodes, nfa.edges ++ productsOf mid ins outs0⟩ ∧
        CInv h ⟨nfa.nodes, nfa.edges ++ productsOf mid ins outs0⟩ iPtr tPtr true true := by
  intro ins
  induction ins with
  | nil =>
    intro nfa inv hq hins houts hsub
    constructor
    · unfold elimProducts productsOf
      rw [List.foldl_nil, List.flatMap_nil, List.append_nil]
    · unfold productsOf
      rw [List.flatMap_nil, List.append_nil]
      exact inv
  | cons i rest ih =>
    intro nfa inv hq hins houts hsub
    have hprod : productsOf mid (i :: rest) outs0 =
        (if i.src = i.dst then []
          else outs0.filterMap (fun o =>
            if o.src = o.dst then none
            else some ⟨i.src, o.dst, i.value ++ mid ++ o.value⟩)) ++
          productsOf mid rest outs0 := by
      unfold productsOf
      rw [List.flatMap_cons]
    by_cases hself : i.src = i.dst
    · rw [hprod, if_pos hself, List.nil_append]
      obtain ⟨hfold, inv'⟩ := ih nfa inv hq
        (fun e he => hins e (List.mem_cons_of_mem _ he)) houts hsub
      constructor
      · unfold elimProducts at hfold ⊢
        rw [List.foldl_cons, if_pos hself]
        exact hfold
      · exact inv'
    · rw [hprod, if_neg hself]
      obtain ⟨hdst, hreg, hne⟩ := hins i (List.mem_cons_self _ _)
      obtain ⟨hinner, inv2⟩ := elimProducts_inner_exact mid outs0 nfa inv hsub hreg hne
      have hsrcne : i.src ≠ qPtr := by
        rw [← hdst]
        exact hself
      have hq2 : lookupName (⟨nfa.nodes, nfa.edges ++ outs0.filterMap (fun o =>
          if o.src = o.dst then none
          else some ⟨i.src, o.dst, i.value ++ mid ++ o.value⟩)⟩ : NFA).nodes n =
          some qPtr := hq
      have hins2 : ∀ e ∈ rest, e.dst = qPtr ∧ Registered h (⟨nfa.nodes,
          nfa.edges ++ outs0.filterMap (fun o =>
            if o.src = o.dst then none
            else some ⟨i.src, o.dst, i.value ++ mid ++ o.value⟩)⟩ : NFA) e.src ∧
          e.src ≠ tPtr := by
        intro e he
        obtain ⟨h1, h2, h3⟩ := hins e (List.mem_cons_of_mem _ he)
        exact ⟨h1, h2, h3⟩
      have houts2 : edgesOut (⟨nfa.nodes, nfa.edges ++ outs0.filterMap (fun o =>
          if o.src = o.dst then none
          else some ⟨i.src, o.dst, i.value ++ mid ++ o.value⟩)⟩ : NFA) n = outs0 := by
        rw [edgesOut_append]
        have h2 : edgesOut (⟨nfa.nodes, outs0.filterMap (fun o =>
            if o.src = o.dst then none
            else some ⟨i.src, o.dst, i.value ++ mid ++ o.value⟩)⟩ : NFA) n = [] := by
          unfold edgesOut
          rw [hq2, List.filter_eq_nil_iff]
          intro e he
          rw [List.mem_filterMap] at he
          obtain ⟨o, ho, hoe⟩ := he
          by_cases hos : o.src = o.dst
          · rw [if_pos hos] at hoe
            exact absurd hoe (by simp)
          · rw [if_neg hos] at hoe
            injection hoe with hoe
            subst hoe
            simp only [decide_eq_true_eq, Option.some.injEq]
            exact hsrcne
        rw [h2, List.append_nil]
        show edgesOut nfa n = outs0
        exact houts
      have hsub2 : ∀ e ∈ outs0, e ∈ (⟨nfa.nodes, nfa.edges ++ outs0.filterMap (fun o =>
          if o.src = o.dst then none
          else some ⟨i.src, o.dst, i.value ++ mid ++ o.value⟩)⟩ : NFA).edges :=
        fun e he => List.mem_append.2 (Or.inl (hsub e he))
      obtain ⟨hfold, inv3⟩ := ih _ inv2 hq2 hins2 houts2 hsub2
      constructor
      · unfold elimProducts at hfold ⊢
        rw [List.foldl_cons, if_neg hself]
        dsimp only
        rw [houts, hinner, hfold, List.append_assoc]
      · rw [List.append_assoc] at inv3
        exact inv3

/-- The Kleene-star middle of the elimination of `n`. -/
def midOf (nfa : NFA) (n : String) : String :=
  let ksv := ((edgesIn nfa n).filter (fun e => (e.src = e.dst : Bool))).map NFAEdge.value
  addKleenStar (orJoin ksv) (decide (ksv.length > 1))

/-- One elimination step, described exactly: heap kept, the node's map
entry dropped, edges incident to the node replaced by the bypass
products. -/
theorem elimNode_exact {h : Heap} {nfa : NFA} {iPtr tPtr : Nat}
    (inv : CInv h nfa iPtr tPtr true true) {n : String} {qPtr : Nat}
    (hq : lookupName nfa.nodes n = some qPtr)
    (hqI : qPtr ≠ iPtr) (hqT : qPtr ≠ tPtr) :
    (elimNode ⟨h, nfa⟩ n).heap = h ∧
    (elimNode ⟨h, nfa⟩ n).nfa.nodes = mapDelete nfa.nodes n ∧
    (∀ e, e ∈ (elimNode ⟨h, nfa⟩ n).nfa.edges ↔
      ((e ∈ nfa.edges ∧ e.src ≠ qPtr ∧ e.dst ≠ qPtr) ∨
        e ∈ productsOf (midOf nfa n) (edgesIn nfa n) (edgesOut nfa n))) := by
  have hins : ∀ e ∈ edgesIn nfa n, e.dst = qPtr ∧ Registered h nfa e.src ∧ e.src ≠ tPtr := by
    intro e he
    obtain ⟨hm, hd⟩ := (edgesIn_mem hq).1 he
    exact ⟨hd, (inv.wf.2.2 e hm).1, (inv.edgeInv e hm).2⟩
  have hsubO : ∀ e ∈ edgesOut nfa n, e ∈ nfa.edges := by
    intro e he
    exact ((edgesOut_mem hq).1 he).1
  obtain ⟨hfold, inv2⟩ := elimProducts_exact n (midOf nfa n) (edgesOut nfa n)
    (edgesIn nfa n) nfa inv hq hins rfl hsubO
  have helim : elimNode ⟨h, nfa⟩ n =
      ⟨(elimProducts ⟨h, nfa⟩ n (midOf nfa n) (edgesIn nfa n)).heap,
        removeNode (elimProducts ⟨h, nfa⟩ n (midOf nfa n) (edgesIn nfa n)).nfa n⟩ := rfl
  rw [helim, hfold]
  dsimp only
  have hrem : removeNode (⟨nfa.nodes, nfa.edges ++
      productsOf (midOf nfa n) (edgesIn nfa n) (edgesOut nfa n)⟩ : NFA) n =
      ⟨mapDelete nfa.nodes n,
        (nfa.edges ++ productsOf (midOf nfa n) (edgesIn nfa n) (edgesOut nfa n)).filter
          (fun e => !(some e.src = some qPtr ∨ some e.dst = some qPtr : Bool))⟩ := by
    unfold removeNode
    rw [show lookupName (⟨nfa.nodes, nfa.edges ++
      productsOf (midOf nfa n) (edgesIn nfa n) (edgesOut nfa n)⟩ : NFA).nodes n =
      some qPtr from hq]
  rw [hrem]
  refine ⟨rfl, rfl, ?_⟩
  intro e
  rw [List.mem_filter, List.mem_append]
  have hpredIff : (!(some e.src = some qPtr ∨ some e.dst = some qPtr : Bool)) = true ↔
      e.src ≠ qPtr ∧ e.dst ≠ qPtr := by
    simp
  rw [hpredIff]
  constructor
  · rintro ⟨hmem | hmem, hpr⟩
    · exact Or.inl ⟨hmem, hpr⟩
    · exact Or.inr hmem
  · rintro (⟨hmem, hpr⟩ | hmem)
    · exact ⟨Or.inl hmem, hpr⟩
    · refine ⟨Or.inr hmem, ?_⟩
      obtain ⟨i, hi, o, ho, hselfi, hselfo, rfl⟩ := productsOf_mem.1 hmem
      obtain ⟨him, hid⟩ := (edgesIn_mem hq).1 hi
      obtain ⟨hom, hos⟩ := (edgesOut_mem hq).1 ho
      constructor
      · show i.src ≠ qPtr
        rw [← hid]
        exact hselfi
      · show o.dst ≠ qPtr
        rw [← hos]
        intro hc
        exact hselfo hc.symm

/-- The self-loop labels collected by the elimination of `n`. -/
def selfVals (nfa : NFA) (n : String) : List String :=
  ((edgesIn nfa n).filter (fun e => (e.src = e.dst : Bool))).map NFAEdge.value

theorem midOf_eq (nfa : NFA) (n : String) :
    midOf nfa n = addKleenStar (orJoin (selfVals nfa n))
      (decide ((selfVals nfa n).length > 1)) := rfl

/-- The label well-formedness invariant maintained through the elimination
loop: every edge label prints from the expression syntax, and only edges
out of the synthetic initial node or into the synthetic terminal node may
carry the empty label. -/
def LabInv (E : List NFAEdge) (iPtr tPtr : Nat) : Prop :=
  ∀ e ∈ E, (∃ sq, PrintsSeq sq e.value.data) ∧
    (e.value.data = [] → e.src = iPtr ∨ e.dst = tPtr)

theorem selfVals_good {h : Heap} {nfa : NFA} {iPtr tPtr : Nat}
    (inv : CInv h nfa iPtr tPtr true true) {n : String} {qPtr : Nat}
    (hq : lookupName nfa.nodes n = some qPtr)
    (hqI : qPtr ≠ iPtr) (hqT : qPtr ≠ tPtr)
    (hlab : LabInv nfa.edges iPtr tPtr) :
    ∀ v ∈ selfVals nfa n, (∃ sq, PrintsSeq sq v.data) ∧ v.data ≠ [] := by
  intro v hv
  rw [selfVals, List.mem_map] at hv
  obtain ⟨e, he, rfl⟩ := hv
  obtain ⟨heIn, hself⟩ := List.mem_filter.1 he
  rw [decide_eq_true_eq] at hself
  obtain ⟨hmemE, hdst⟩ := (edgesIn_mem hq).1 heIn
  refine ⟨(hlab e hmemE).1, ?_⟩
  intro hdata
  rcases (hlab e hmemE).2 hdata with hcase | hcase
  · refine hqI ?_
    rw [← hdst, ← hself]
    exact hcase
  · refine hqT ?_
    rw [← hdst]
    exact hcase

/-- Elimination of one node preserves the label invariant. -/
theorem elimNode_labels {h : Heap} {nfa : NFA} {iPtr tPtr : Nat}
    (inv : CInv h nfa iPtr tPtr true true) {n : String} {qPtr : Nat}
    (hq : lookupName nfa.nodes n = some qPtr)
    (hqI : qPtr ≠ iPtr) (hqT : qPtr ≠ tPtr)
    (hlab : LabInv nfa.edges iPtr tPtr) :
    LabInv (elimNode ⟨h, nfa⟩ n).nfa.edges iPtr tPtr := by
  obtain ⟨hheap, hnodes, hmem⟩ := elimNode_exact inv hq hqI hqT
  obtain ⟨sqm, hsqm, hmidsem⟩ := mid_spec (selfVals nfa n) (selfVals_good inv hq hqI hqT hlab)
  rw [← midOf_eq] at hsqm
  intro e he
  rcases (hmem e).1 he with ⟨hmemE, _, _⟩ | hprod
  · exact hlab e hmemE
  · obtain ⟨i, hi, o, ho, hsi, hso, rfl⟩ := productsOf_mem.1 hprod
    obtain ⟨himem, hidst⟩ := (edgesIn_mem hq).1 hi
    obtain ⟨homem, hosrc⟩ := (edgesOut_mem hq).1 ho
    obtain ⟨sqi, hsqi⟩ := (hlab i himem).1
    obtain ⟨sqo, hsqo⟩ := (hlab o homem).1
    have hdata : (i.value ++ midOf nfa n ++ o.value).data =
        (i.value.data ++ (midOf nfa n).data) ++ o.value.data := by
      rw [String.data_append, String.data_append]
    constructor
    · refine ⟨(sqi ++ sqm) ++ sqo, ?_⟩
      rw [hdata]
      exact printsSeq_append (printsSeq_append hsqi hsqm) hsqo
    · intro hempty
      rw [hdata] at hempty
      have hie : i.value.data = [] := by
        rcases List.append_eq_nil.1 hempty with ⟨h1, _⟩
        exact (List.append_eq_nil.1 h1).1
      rcases (hlab i himem).2 hie with hcase | hcase
      · exact Or.inl hcase
      · exact absurd (hidst ▸ hcase : qPtr = tPtr) hqT

/-- Elimination of one node preserves the path language between any two
surviving nodes. -/
theorem elimNode_paths {h : Heap} {nfa : NFA} {iPtr tPtr : Nat}
    (inv : CInv h nfa iPtr tPtr true true) {n : String} {qPtr : Nat}
    (hq : lookupName nfa.nodes n = some qPtr)
    (hqI : qPtr ≠ iPtr) (hqT : qPtr ≠ tPtr)
    (hlab : LabInv nfa.edges iPtr tPtr) :
    ∀ p r w, p ≠ qPtr → r ≠ qPtr →
      (GPath (elimNode ⟨h, nfa⟩ n).nfa.edges p w r ↔ GPath nfa.edges p w r) := by
  obtain ⟨hheap, hnodes, hmem⟩ := elimNode_exact inv hq hqI hqT
  obtain ⟨sqm, hsqm, hmidsem⟩ := mid_spec (selfVals nfa n) (selfVals_good inv hq hqI hqT hlab)
  rw [← midOf_eq] at hsqm
  -- the language of one bypass label
  have hprodLab : ∀ i o : NFAEdge, i ∈ nfa.edges → o ∈ nfa.edges → ∀ w,
      LabelMat (i.value ++ midOf nfa n ++ o.value) w ↔
        ∃ wi wm wo, w = (wi ++ wm) ++ wo ∧ LabelMat i.value wi ∧ SeqMat sqm wm ∧
          LabelMat o.value wo := by
    intro i o hi ho w
    obtain ⟨sqi, hsqi⟩ := (hlab i hi).1
    obtain ⟨sqo, hsqo⟩ := (hlab o ho).1
    have hbig : PrintsSeq ((sqi ++ sqm) ++ sqo) (i.value ++ midOf nfa n ++ o.value).data := by
      rw [show (i.value ++ midOf nfa n ++ o.value).data =
        (i.value.data ++ (midOf nfa n).data) ++ o.value.data by
          rw [String.data_append, String.data_append]]
      exact printsSeq_append (printsSeq_append hsqi hsqm) hsqo
    rw [labelMat_printed hbig, seqMat_append_iff]
    constructor
    · rintro ⟨w12, wo, rfl, h12, hwo⟩
      obtain ⟨wi, wm, rfl, hwi, hwm⟩ := seqMat_append_iff.1 h12
      exact ⟨wi, wm, wo, rfl, (labelMat_printed hsqi wi).2 hwi, hwm,
        (labelMat_printed hsqo wo).2 hwo⟩
    · rintro ⟨wi, wm, wo, rfl, hwi, hwm, hwo⟩
      exact ⟨wi ++ wm, wo, rfl, seqMat_append_iff.2 ⟨wi, wm, rfl,
        (labelMat_printed hsqi wi).1 hwi, hwm⟩, (labelMat_printed hsqo wo).1 hwo⟩
  -- chunked self-loop words are loops at the node in the old automaton
  have loops : ∀ chunks : List (List Char),
      (∀ ch ∈ chunks, ∃ v ∈ selfVals nfa n, LabelMat v ch) →
      GPath nfa.edges qPtr chunks.flatten qPtr := by
    intro chunks
    induction chunks with
    | nil => exact fun _ => ⟨0, GPathN.refl qPtr⟩
    | cons ch chunks ih =>
      intro hch
      obtain ⟨v, hv, hvm⟩ := hch ch (List.mem_cons_self _ _)
      rw [selfVals, List.mem_map] at hv
      obtain ⟨eS, heS, rfl⟩ := hv
      obtain ⟨heIn, hself⟩ := List.mem_filter.1 heS
      rw [decide_eq_true_eq] at hself
      obtain ⟨hmemE, hdst⟩ := (edgesIn_mem hq).1 heIn
      have hsrc : eS.src = qPtr := by rw [hself, hdst]
      rw [List.flatten_cons]
      have hstep := GPathN.step eS hmemE hsrc hvm (GPathN.refl eS.dst)
      rw [List.append_nil, hdst] at hstep
      exact gPathN_trans hstep (ih (fun c hc => hch c (List.mem_cons_of_mem _ hc)))
  -- a path that leaves the eliminated node
  have exitQ : ∀ k, ∀ w r, GPathN nfa.edges k qPtr w r → r ≠ qPtr →
      ∃ (chunks : List (List Char)) (o : NFAEdge) (wo wrest : List Char) (k' : Nat),
        o ∈ nfa.edges ∧ o.src = qPtr ∧ o.dst ≠ qPtr ∧
        w = chunks.flatten ++ (wo ++ wrest) ∧
        (∀ ch ∈ chunks, ∃ v ∈ selfVals nfa n, LabelMat v ch) ∧
        LabelMat o.value wo ∧ GPathN nfa.edges k' o.dst wrest r ∧ k' < k := by
    intro k
    induction k using Nat.strong_induction_on with
    | _ k ih =>
    intro w r hpath hr
    cases hpath with
    | refl => exact absurd rfl hr
    | step e he hsrc hl htail =>
      rename_i k1 w1 w2
      by_cases hd : e.dst = qPtr
      · rw [hd] at htail
        obtain ⟨chunks, o, wo, wrest, k', ho, hosrc, hodst, hw2, hch, hol, hrest, hk'⟩ :=
          ih k1 (by omega) w2 r htail hr
        refine ⟨w1 :: chunks, o, wo, wrest, k', ho, hosrc, hodst, ?_, ?_, hol, hrest, by omega⟩
        · rw [hw2, List.flatten_cons]
          simp
        · intro ch hchm
          rcases List.mem_cons.1 hchm with rfl | hchm
          · refine ⟨e.value, ?_, hl⟩
            rw [selfVals, List.mem_map]
            refine ⟨e, ?_, rfl⟩
            rw [List.mem_filter]
            refine ⟨(edgesIn_mem hq).2 ⟨he, hd⟩, ?_⟩
            rw [decide_eq_true_eq, hsrc, hd]
          · exact hch ch hchm
      · exact ⟨[], e, w1, w2, k1, he, hsrc, hd, by simp, by simp, hl, htail, by omega⟩
  -- new paths map to old paths
  have dirA : ∀ {k p w r}, GPathN (elimNode ⟨h, nfa⟩ n).nfa.edges k p w r →
      GPath nfa.edges p w r := by
    intro k p w r hpath
    induction hpath with
    | refl p => exact ⟨0, GPathN.refl p⟩
    | step e he hsrc hlabw htail ih =>
      rename_i k1 p1 w1 w2 r1
      rcases (hmem e).1 he with ⟨hmemE, _, _⟩ | hprod
      · obtain ⟨k2, h2⟩ := ih
        exact ⟨k2 + 1, GPathN.step e hmemE hsrc hlabw h2⟩
      · obtain ⟨i, hi, o, ho, hsi, hso, heq⟩ := productsOf_mem.1 hprod
        obtain ⟨himem, hidst⟩ := (edgesIn_mem hq).1 hi
        obtain ⟨homem, hosrc⟩ := (edgesOut_mem hq).1 ho
        rw [heq] at hlabw hsrc
        obtain ⟨wi, wm, wo, hweq, hwi, hwm, hwo⟩ := (hprodLab i o himem homem _).1 hlabw
        obtain ⟨chunks, hflat, hch⟩ := (hmidsem wm).1 hwm
        have pathI : GPathN nfa.edges 1 p1 wi qPtr := by
          have hstep := GPathN.step i himem hsrc hwi (GPathN.refl i.dst)
          rw [List.append_nil, hidst] at hstep
          exact hstep
        have pathM : GPath nfa.edges qPtr wm qPtr := by
          rw [hflat]
          exact loops chunks hch
        have pathO : GPathN nfa.edges 1 qPtr wo o.dst := by
          have hstep := GPathN.step o homem hosrc hwo (GPathN.refl o.dst)
          rw [List.append_nil] at hstep
          exact hstep
        have htailOld : GPath nfa.edges o.dst w2 r1 := by
          have hod : e.dst = o.dst := by rw [heq]
          rw [← hod]
          exact ih
        have hfull : GPath nfa.edges p1 (wi ++ (wm ++ (wo ++ w2))) r1 :=
          gPathN_trans pathI (gPath_trans pathM (gPathN_trans pathO htailOld))
        rw [hweq, show ((wi ++ wm) ++ wo) ++ w2 = wi ++ (wm ++ (wo ++ w2)) by simp]
        exact hfull
  -- old paths map to new paths
  have dirB : ∀ k, ∀ p w r, GPathN nfa.edges k p w r → p ≠ qPtr → r ≠ qPtr →
      GPath (elimNode ⟨h, nfa⟩ n).nfa.edges p w r := by
    intro k
    induction k using Nat.strong_induction_on with
    | _ k ih =>
    intro p w r hpath hp hr
    cases hpath with
    | refl => exact ⟨0, GPathN.refl _⟩
    | step e he hsrc hl htail =>
      rename_i k1 w1 w2
      by_cases hd : e.dst = qPtr
      · have hiIn : e ∈ edgesIn nfa n := (edgesIn_mem hq).2 ⟨he, hd⟩
        have hselfI : ¬e.src = e.dst := by
          rw [hsrc, hd]
          exact hp
        rw [hd] at htail
        obtain ⟨chunks, o, wo, wrest, k', ho, hosrc, hodst, hw2, hch, hol, hrest, hk'⟩ :=
          exitQ k1 w2 r htail hr
        have hoOut : o ∈ edgesOut nfa n := (edgesOut_mem hq).2 ⟨ho, hosrc⟩
        have hselfO : ¬o.src = o.dst := by
          rw [hosrc]
          intro hc
          exact hodst hc.symm
        have hpe : (⟨e.src, o.dst, e.value ++ midOf nfa n ++ o.value⟩ : NFAEdge) ∈
            (elimNode ⟨h, nfa⟩ n).nfa.edges :=
          (hmem _).2 (Or.inr (productsOf_mem.2 ⟨e, hiIn, o, hoOut, hselfI, hselfO, rfl⟩))
        have hpeLab : LabelMat (e.value ++ midOf nfa n ++ o.value)
            ((w1 ++ chunks.flatten) ++ wo) := by
          refine (hprodLab e o he ho _).2 ⟨w1, chunks.flatten, wo, rfl, hl, ?_, hol⟩
          exact (hmidsem chunks.flatten).2 ⟨chunks, rfl, hch⟩
        obtain ⟨k2, htail'⟩ := ih k' (by omega) o.dst wrest r hrest hodst hr
        refine ⟨k2 + 1, ?_⟩
        have hstep := GPathN.step (⟨e.src, o.dst, e.value ++ midOf nfa n ++ o.value⟩ : NFAEdge)
          hpe hsrc hpeLab htail'
        rw [show w1 ++ w2 = ((w1 ++ chunks.flatten) ++ wo) ++ wrest by rw [hw2]; simp]
        exact hstep
      · have he' : e ∈ (elimNode ⟨h, nfa⟩ n).nfa.edges := by
          refine (hmem e).2 (Or.inl ⟨he, ?_, hd⟩)
          rw [hsrc]
          exact hp
        obtain ⟨k2, htail'⟩ := ih k1 (by omega) e.dst w2 r htail hd hr
        exact ⟨k2 + 1, GPathN.step e he' hsrc hl htail'⟩
  intro p r w hp hr
  constructor
  · rintro ⟨k, hpath⟩
    exact dirA hpath
  · rintro ⟨k, hpath⟩
    exact dirB k p w r hpath hp hr

/-- A successful elimination pass with the default (silent) callback keeps
the label invariant and preserves the language of paths between the two
synthetic pointers. -/
theorem elimPass_semantic {iPtr tPtr : Nat} :
    ∀ (ents : List (String × Nat)) (r : RunSt),
      CInv r.heap r.nfa iPtr tPtr true true →
      r.nfa.nodes = ents ++ [("__initial__", iPtr), ("__terminal__", tPtr)] →
      LabInv r.nfa.edges iPtr tPtr →
      ∃ r' : RunSt,
        elimPass iPtr tPtr (fun _ _ => none) (ents.map Prod.snd ++ [iPtr, tPtr]) r =
            .ok r' ∧
          CInv r'.heap r'.nfa iPtr tPtr true true ∧
          r'.nfa.nodes = [("__initial__", iPtr), ("__terminal__", tPtr)] ∧
          r'.heap = r.heap ∧
          LabInv r'.nfa.edges iPtr tPtr ∧
          (∀ w, GPath r'.nfa.edges iPtr w tPtr ↔ GPath r.nfa.edges iPtr w tPtr) := by
  intro ents
  induction ents with
  | nil =>
    intro r inv hshape hlab
    refine ⟨r, ?_, inv, by rw [hshape]; rfl, rfl, hlab, fun w => Iff.rfl⟩
    rw [List.map_nil, List.nil_append, elimPass_cons, if_pos (Or.inl rfl),
      elimPass_cons, if_pos (Or.inr rfl), elimPass_nil]
  | cons pr rest ih =>
    intro r inv hshape hlab
    obtain ⟨n, p⟩ := pr
    obtain ⟨inv', hnodes', hheap', hname, hpi, hpt⟩ := elim_step inv hshape
    have hq : lookupName r.nfa.nodes n = some p := by
      rw [hshape]
      simp [lookupName]
    have hlab' : LabInv (elimNode ⟨r.heap, r.nfa⟩ n).nfa.edges iPtr tPtr :=
      elimNode_labels inv hq hpi hpt hlab
    have hiff := elimNode_paths inv hq hpi hpt hlab iPtr tPtr
    rw [List.map_cons, List.cons_append]
    dsimp only
    rw [elimPass_cons, if_neg (by intro hc; rcases hc with hc | hc; exacts [hpi hc, hpt hc])]
    rw [hname]
    obtain ⟨r', hrun, invF, hnodesF, hheapF, hlabF, hiffF⟩ :=
      ih ⟨(elimNode ⟨r.heap, r.nfa⟩ n).heap, (elimNode ⟨r.heap, r.nfa⟩ n).nfa,
        r.trace ++ ["remove-node-" ++ n]⟩ inv' hnodes' hlab'
    refine ⟨r', hrun, invF, hnodesF, ?_, hlabF, ?_⟩
    · rw [hheapF]
      exact hheap'
    · intro w
      exact (hiffF w).trans (hiff w (Ne.symm hpi) (Ne.symm hpt))

/-- The elimination loop under the default callback: language preservation
between the two synthetic pointers. -/
theorem elimLoop_semantic {iPtr tPtr : Nat} (ents : List (String × Nat)) (r : RunSt)
    (inv : CInv r.heap r.nfa iPtr tPtr true true)
    (hshape : r.nfa.nodes = ents ++ [("__initial__", iPtr), ("__terminal__", tPtr)])
    (hlab : LabInv r.nfa.edges iPtr tPtr) :
    ∃ r' : RunSt,
      elimLoopF iPtr tPtr (fun _ _ => none) r.nfa.nodes.length r = .ok r' ∧
        CInv r'.heap r'.nfa iPtr tPtr true true ∧
        r'.nfa.nodes = [("__initial__", iPtr), ("__terminal__", tPtr)] ∧
        r'.heap = r.heap ∧
        LabInv r'.nfa.edges iPtr tPtr ∧
        (∀ w, GPath r'.nfa.edges iPtr w tPtr ↔ GPath r.nfa.edges iPtr w tPtr) := by
  rcases ents with _ | ⟨e0, es⟩
  · refine ⟨r, ?_, inv, by rw [hshape]; rfl, rfl, hlab, fun w => Iff.rfl⟩
    have hlen : r.nfa.nodes.length = 1 + 1 := by rw [hshape]; rfl
    rw [hlen, elimLoopF_succ]
    rw [if_neg (by omega)]
  · obtain ⟨r1, hpass, inv1, hnodes1, hheap1, hlab1, hiff1⟩ :=
      elimPass_semantic (e0 :: es) r inv hshape hlab
    refine ⟨r1, ?_, inv1, hnodes1, hheap1, hlab1, hiff1⟩
    have hlen : r.nfa.nodes.length = (es.length + 2) + 1 := by
      rw [hshape]
      simp only [List.length_append, List.length_cons, List.length_nil]
    rw [hlen, elimLoopF_succ]
    rw [if_pos (by omega)]
    have hsnap : r.nfa.nodes.map Prod.snd =
        (e0 :: es).map Prod.snd ++ [iPtr, tPtr] := by
      rw [hshape, List.map_append]
      rfl
    rw [hsnap, hpass]
    show elimLoopF iPtr tPtr (fun _ _ => none) (es.length + 2) r1 = Except.ok r1
    rw [show es.length + 2 = (es.length + 1) + 1 from rfl, elimLoopF_succ]
    rw [if_neg (by rw [hnodes1]; simp)]

/-- The elimination phase preserves the language of paths between the two
synthetic pointers of the normalized working state. -/
theorem convertElim_semantic (h : Heap) (nfa : NFA) (hwf : WF h nfa)
    (hrI : lookupName nfa.nodes "__initial__" = none)
    (hrT : lookupName nfa.nodes "__terminal__" = none)
    (hlabN : LabInv (normalizedState h nfa).st.nfa.edges h.length (h.length + 1)) :
    ∃ r' : RunSt,
      convertElimResult h nfa = .ok r' ∧
        CInv r'.heap r'.nfa h.length (h.length + 1) true true ∧
        r'.nfa.nodes = [("__initial__", h.length), ("__terminal__", h.length + 1)] ∧
        r'.heap = (normalizedState h nfa).st.heap ∧
        LabInv r'.nfa.edges h.length (h.length + 1) ∧
        (∀ w, GPath r'.nfa.edges h.length w (h.length + 1) ↔
          GPath (normalizedState h nfa).st.nfa.edges h.length w (h.length + 1)) := by
  obtain ⟨invN, ⟨ents, hshape, hA⟩, hcells, hI, hT⟩ := normalize_establishes h nfa hwf hrI hrT
  have hsetup := setupSynthetic_noReserved h nfa hrI hrT
  obtain ⟨r', hloop, inv', hnodes', hheap', hlab', hiff'⟩ :=
    @elimLoop_semantic (List.length h) (List.length h + 1) ents
    ⟨(normalizeNFA (setupSynthetic ⟨h, nfa⟩).1 (setupSynthetic ⟨h, nfa⟩).2.1
        (setupSynthetic ⟨h, nfa⟩).2.2).st.heap,
      (normalizeNFA (setupSynthetic ⟨h, nfa⟩).1 (setupSynthetic ⟨h, nfa⟩).2.1
        (setupSynthetic ⟨h, nfa⟩).2.2).st.nfa,
      ["start", "create-initial-terminal"]⟩ invN hshape hlabN
  dsimp only at hloop hheap' hlab' hiff'
  refine ⟨r', ?_, inv', hnodes', hheap', hlab', hiff'⟩
  show convertElimResult h nfa = Except.ok r'
  unfold convertElimResult
  dsimp only
  rw [hsetup] at hloop ⊢
  dsimp only at hloop ⊢
  exact hloop

/-! ### Name-level view of the normalization stage -/

/-- The name-level view of an edge: source record name, destination record
name, and label. -/
def edgeNames (H : Heap) (e : NFAEdge) : String × String × String :=
  ((heapGet H e.src).name, (heapGet H e.dst).name, e.value)

/-- The synthetic ε-edges (at name level) contributed by one node record
during normalization. -/
def epsEntry (h : Heap) (p : Nat) : List (String × String × String) :=
  (if (heapGet h p).isInitial then [("__initial__", (heapGet h p).name, "")] else []) ++
    (if (heapGet h p).isTerminal then [((heapGet h p).name, "__terminal__", "")] else [])

theorem epsEntry_clearedExt {h h' : Heap} (ce : ClearedExt h h') (q : Nat) :
    epsEntry h' q = epsEntry h q := by
  by_cases hq : q < h.length
  · unfold epsEntry
    rw [ce.2.1 q hq]
  · have h1 := ce.2.2 q (le_of_not_lt hq)
    have h2 := heapGet_of_ge h q (le_of_not_lt hq)
    unfold epsEntry
    rw [h1.1, h1.2, h2]
    rfl

theorem name_ptrSubst (h : Heap) (rec : NFANode) (cur q : Nat)
    (hcur : (heapGet h cur).name = rec.name) (hq : q < h.length) :
    (heapGet (h ++ [rec]) (ptrSubst (some cur) h.length q)).name = (heapGet h q).name := by
  unfold ptrSubst
  by_cases hc : (some q : Option Nat) = some cur
  · rw [if_pos hc, heapGet_append_end]
    injection hc with hc
    rw [hc, hcur]
  · rw [if_neg hc, heapGet_append_left _ _ _ hq]

/-- Replacing a node by a fresh record of the same name leaves the
name-level edge list unchanged. -/
theorem edgeNames_replaceNode {h : Heap} {nfa : NFA} (hwf : WF h nfa)
    {n : String} {cur : Nat} (hL : lookupName nfa.nodes n = some cur) (rec : NFANode)
    (hname : rec.name = n) :
    (replaceNode ⟨h, nfa⟩ n rec).nfa.edges.map
        (edgeNames (replaceNode ⟨h, nfa⟩ n rec).heap) =
      nfa.edges.map (edgeNames h) := by
  rw [replaceNode_eq2]
  dsimp only
  rw [List.map_map]
  refine List.map_congr_left ?_
  intro e he
  obtain ⟨hs, hd⟩ := hwf.2.2 e he
  have hslt : e.src < h.length := (ptr_of_lookup hwf hs).1
  have hdlt : e.dst < h.length := (ptr_of_lookup hwf hd).1
  have hcur : (heapGet h cur).name = rec.name := by
    rw [(ptr_of_lookup hwf hL).2, hname]
  show edgeNames (h ++ [rec]) _ = edgeNames h e
  unfold edgeNames
  dsimp only
  rw [hL, name_ptrSubst h rec cur e.src hcur hslt, name_ptrSubst h rec cur e.dst hcur hdlt]

/-- Name-level effect of the initial-branch composite
`AddEdge("__initial__", n, ""); ReplaceNode(n, clear)`. -/
theorem edgeNames_procInit {h : Heap} {nfa : NFA} {iPtr tPtr : Nat}
    (inv : CInv h nfa iPtr tPtr false false) {n : String} {cur : Nat}
    (hL : lookupName nfa.nodes n = some cur)
    (hnI : n ≠ "__initial__") (hnT : n ≠ "__terminal__") :
    (replaceNode (addEdge ⟨h, nfa⟩ "__initial__" n "") n ⟨n, false, false⟩).nfa.edges.map
        (edgeNames (replaceNode (addEdge ⟨h, nfa⟩ "__initial__" n "")
          n ⟨n, false, false⟩).heap) =
      nfa.edges.map (edgeNames h) ++ [("__initial__", n, "")] := by
  obtain ⟨hadd, invA⟩ := CInv_addEdge_initial inv hL hnI hnT
  rw [hadd]
  rw [edgeNames_replaceNode invA.wf hL ⟨n, false, false⟩ rfl]
  show (nfa.edges ++ [(⟨iPtr, cur, ""⟩ : NFAEdge)]).map (edgeNames h) = _
  rw [List.map_append]
  show _ ++ [edgeNames h (⟨iPtr, cur, ""⟩ : NFAEdge)] = _
  unfold edgeNames
  dsimp only
  rw [inv.recI, (ptr_of_lookup inv.wf hL).2]

/-- Name-level effect of the terminal-branch composite
`AddEdge(n, "__terminal__", ""); ReplaceNode(n, clear)`. -/
theorem edgeNames_procTerm {h : Heap} {nfa : NFA} {iPtr tPtr : Nat}
    (inv : CInv h nfa iPtr tPtr false false) {n : String} {cur : Nat}
    (hL : lookupName nfa.nodes n = some cur)
    (hnI : n ≠ "__initial__") (hnT : n ≠ "__terminal__") :
    (replaceNode (addEdge ⟨h, nfa⟩ n "__terminal__" "") n ⟨n, false, false⟩).nfa.edges.map
        (edgeNames (replaceNode (addEdge ⟨h, nfa⟩ n "__terminal__" "")
          n ⟨n, false, false⟩).heap) =
      nfa.edges.map (edgeNames h) ++ [(n, "__terminal__", "")] := by
  obtain ⟨hadd, invA⟩ := CInv_addEdge_terminal inv hL hnI hnT
  rw [hadd]
  rw [edgeNames_replaceNode invA.wf hL ⟨n, false, false⟩ rfl]
  show (nfa.edges ++ [(⟨cur, tPtr, ""⟩ : NFAEdge)]).map (edgeNames h) = _
  rw [List.map_append]
  show _ ++ [edgeNames h (⟨cur, tPtr, ""⟩ : NFAEdge)] = _
  unfold edgeNames
  dsimp only
  rw [inv.recT, (ptr_of_lookup inv.wf hL).2]

/-- One normalization step appends exactly the ε-entries of the processed
record to the name-level edge list. -/
theorem edgeNames_normalizeOne {h : Heap} {nfa : NFA} {iPtr tPtr : Nat} {b1 b2 : Bool}
    (inv : CInv h nfa iPtr tPtr false false) {p : Nat} (hp : RegOrClear ⟨h, nfa⟩ p) :
    (normalizeOne ⟨⟨h, nfa⟩, b1, b2⟩ p).st.nfa.edges.map
        (edgeNames (normalizeOne ⟨⟨h, nfa⟩, b1, b2⟩ p).st.heap) =
      nfa.edges.map (edgeNames h) ++ epsEntry h p := by
  by_cases hclear : (heapGet h p).isInitial = false ∧ (heapGet h p).isTerminal = false
  · have hid : normalizeOne ⟨⟨h, nfa⟩, b1, b2⟩ p = ⟨⟨h, nfa⟩, b1, b2⟩ := by
      unfold normalizeOne
      dsimp only
      rw [hclear.1, hclear.2]
      simp
    rw [hid]
    unfold epsEntry
    rw [hclear.1, hclear.2]
    simp
  · have hreg : Registered h nfa p := by
      rcases hp with hp | hp
      · exact hp
      · exact absurd hp hclear
    have hL : lookupName nfa.nodes (heapGet h p).name = some p := hreg
    have hnI : (heapGet h p).name ≠ "__initial__" := by
      intro hc
      have hpi : p = iPtr := by
        rw [hc, inv.lookI] at hL
        exact (Option.some_inj.1 hL).symm
      rw [hpi, inv.recI] at hclear
      exact hclear ⟨rfl, rfl⟩
    have hnT : (heapGet h p).name ≠ "__terminal__" := by
      intro hc
      have hpt : p = tPtr := by
        rw [hc, inv.lookT] at hL
        exact (Option.some_inj.1 hL).symm
      rw [hpt, inv.recT] at hclear
      exact hclear ⟨rfl, rfl⟩
    unfold normalizeOne
    dsimp only
    unfold epsEntry
    by_cases hI : (heapGet h p).isInitial = true
    · by_cases hT : (heapGet h p).isTerminal = true
      · rw [if_pos hT, if_pos hI]
        dsimp only
        obtain ⟨invR, _, hlookR, _, _⟩ := CInv_procInit inv hL hnI hnT
        rw [edgeNames_procTerm invR hlookR hnI hnT,
          edgeNames_procInit inv hL hnI hnT, List.append_assoc, if_pos hI, if_pos hT]
      · rw [if_neg hT, if_pos hI]
        dsimp only
        rw [edgeNames_procInit inv hL hnI hnT, if_pos hI, if_neg hT]
        rfl
    · by_cases hT : (heapGet h p).isTerminal = true
      · rw [if_pos hT, if_neg hI]
        dsimp only
        rw [edgeNames_procTerm inv hL hnI hnT, if_neg hI, if_pos hT]
        rfl
      · rw [Bool.not_eq_true] at hI hT
        exact absurd ⟨hI, hT⟩ hclear

theorem heapGet_name_heapSet (H : Heap) (p : Nat) (rec : NFANode)
    (hname : rec.name = (heapGet H p).name) (q : Nat) :
    (heapGet (heapSet H p rec) q).name = (heapGet H q).name := by
  by_cases hq : q = p
  · subst hq
    by_cases hlt : q < H.length
    · rw [heapGet_heapSet_self H q rec hlt, hname]
    · unfold heapSet
      rw [List.set_eq_of_length_le (le_of_not_lt hlt)]
  · rw [heapGet_heapSet_ne H p rec q hq]

/-- A field write that keeps the record name leaves the name-level view of
any edge unchanged. -/
theorem edgeNames_heapSet (H : Heap) (p : Nat) (rec : NFANode)
    (hname : rec.name = (heapGet H p).name) (e : NFAEdge) :
    edgeNames (heapSet H p rec) e = edgeNames H e := by
  unfold edgeNames
  rw [heapGet_name_heapSet H p rec hname e.src, heapGet_name_heapSet H p rec hname e.dst]

theorem edgeNames_setInitialFlag (H : Heap) (p : Nat) (b : Bool) (e : NFAEdge) :
    edgeNames (heapSet H p { heapGet H p with isInitial := b }) e = edgeNames H e :=
  edgeNames_heapSet H p { heapGet H p with isInitial := b } rfl e

theorem edgeNames_setTerminalFlag (H : Heap) (p : Nat) (b : Bool) (e : NFAEdge) :
    edgeNames (heapSet H p { heapGet H p with isTerminal := b }) e = edgeNames H e :=
  edgeNames_heapSet H p { heapGet H p with isTerminal := b } rfl e

/-- The normalization fold appends exactly the ε-entries of the processed
records to the name-level edge list. -/
theorem edgeNames_fold {iPtr tPtr : Nat} :
    ∀ (ps : List Nat) (ns : NormSt),
      CInv ns.st.heap ns.st.nfa iPtr tPtr false false →
      (∀ p ∈ ps, RegOrClear ns.st p) →
      ps.Nodup →
      (ps.foldl normalizeOne ns).st.nfa.edges.map
          (edgeNames (ps.foldl normalizeOne ns).st.heap) =
        ns.st.nfa.edges.map (edgeNames ns.st.heap) ++
          (ps.map (epsEntry ns.st.heap)).flatten := by
  intro ps
  induction ps with
  | nil => intro ns _ _ _; simp
  | cons p rest ih =>
    intro ns
    obtain ⟨⟨hh, nn⟩, b1, b2⟩ := ns
    intro inv hro hnd
    obtain ⟨inv', hkeys', hstab'⟩ :=
      normalize_step_all inv b1 b2 p (hro p (by simp))
    have hro' : ∀ q ∈ rest, RegOrClear (normalizeOne ⟨⟨hh, nn⟩, b1, b2⟩ p).st q := by
      intro q hq
      have hqne : q ≠ p := by
        intro hc
        rw [List.nodup_cons] at hnd
        exact hnd.1 (hc ▸ hq)
      exact hstab' q hqne (hro q (by simp [hq]))
    rw [List.foldl_cons]
    have hfold := ih (normalizeOne ⟨⟨hh, nn⟩, b1, b2⟩ p) inv' hro'
      (by rw [List.nodup_cons] at hnd; exact hnd.2)
    rw [hfold]
    have hstep := @edgeNames_normalizeOne hh nn iPtr tPtr b1 b2 inv p (hro p (by simp))
    rw [hstep]
    have hce := clearedExt_normalizeOne ⟨⟨hh, nn⟩, b1, b2⟩ p
    have heps : epsEntry (normalizeOne ⟨⟨hh, nn⟩, b1, b2⟩ p).st.heap = epsEntry hh :=
      funext (epsEntry_clearedExt hce)
    rw [heps, List.map_cons, List.flatten_cons, List.append_assoc]

/-- The name-level edge list of the fully normalized working copy: the
original edges (names and labels unchanged) followed by one ε-edge from
`__initial__` to every originally initial node and one ε-edge from every
originally terminal node to `__terminal__`. -/
theorem normalized_edgeNames (h : Heap) (nfa : NFA) (hwf : WF h nfa)
    (hrI : lookupName nfa.nodes "__initial__" = none)
    (hrT : lookupName nfa.nodes "__terminal__" = none) :
    (normalizedState h nfa).st.nfa.edges.map
        (edgeNames (normalizedState h nfa).st.heap) =
      nfa.edges.map (edgeNames h) ++
        (nfa.nodes.map (fun pr => epsEntry h pr.2)).flatten := by
  have hsetup := setupSynthetic_noReserved h nfa hrI hrT
  unfold normalizedState
  rw [hsetup]
  dsimp only
  set H2 : Heap := h ++ [⟨"__initial__", false, false⟩, ⟨"__terminal__", false, false⟩]
    with hH2
  set N2 : NFA := ⟨nfa.nodes ++ [("__initial__", h.length), ("__terminal__", h.length + 1)],
    nfa.edges⟩ with hN2
  have hgetI : heapGet H2 h.length = ⟨"__initial__", false, false⟩ := by
    rw [hH2, heapGet_append_right h _ h.length (le_refl _)]
    simp [heapGet]
  have hgetT : heapGet H2 (h.length + 1) = ⟨"__terminal__", false, false⟩ := by
    rw [hH2, heapGet_append_right h _ (h.length + 1) (by omega)]
    simp [heapGet]
  have hgetOld : ∀ p, p < h.length → heapGet H2 p = heapGet h p := by
    intro p hp
    rw [hH2, heapGet_append_left _ _ _ hp]
  have hlookI2 : lookupName N2.nodes "__initial__" = some h.length := by
    rw [hN2]
    dsimp only
    rw [lookupName_append, hrI]
    rfl
  have hlookT2 : lookupName N2.nodes "__terminal__" = some (h.length + 1) := by
    rw [hN2]
    dsimp only
    rw [lookupName_append, hrT]
    rw [lookupName_cons, if_neg (by decide), lookupName_cons, if_pos rfl]
  have hkeys2 : N2.nodes.map Prod.fst =
      nfa.nodes.map Prod.fst ++ ["__initial__", "__terminal__"] := by
    rw [hN2]
    simp
  have hwf2 : WF H2 N2 := by
    refine ⟨?_, ?_, ?_⟩
    · intro pr hpr
      rw [hN2] at hpr
      rcases List.mem_append.1 hpr with hpr | hpr
      · obtain ⟨hlt, hn⟩ := hwf.1 pr hpr
        refine ⟨by rw [hH2]; simp; omega, ?_⟩
        rw [hgetOld pr.2 hlt]
        exact hn
      · rcases List.mem_cons.1 hpr with rfl | hpr
        · exact ⟨by rw [hH2]; simp, by rw [hgetI]⟩
        · rcases List.mem_singleton.1 hpr with rfl
          exact ⟨by rw [hH2]; simp, by rw [hgetT]⟩
    · rw [hkeys2]
      refine List.Nodup.append hwf.2.1 (by decide) ?_
      intro k hk1 hk2
      rcases List.mem_cons.1 hk2 with rfl | hk2
      · rw [lookupName_eq_none_iff] at hrI
        exact hrI hk1
      · rcases List.mem_singleton.1 hk2 with rfl
        rw [lookupName_eq_none_iff] at hrT
        exact hrT hk1
    · intro e he
      rw [hN2] at he
      obtain ⟨hs, hd⟩ := hwf.2.2 e he
      constructor
      · unfold Registered at hs ⊢
        have hlt : e.src < h.length := (ptr_of_lookup hwf hs).1
        rw [hgetOld e.src hlt, hN2]
        dsimp only
        rw [lookupName_append, hs]
      · unfold Registered at hd ⊢
        have hlt : e.dst < h.length := (ptr_of_lookup hwf hd).1
        rw [hgetOld e.dst hlt, hN2]
        dsimp only
        rw [lookupName_append, hd]
  have inv2 : CInv H2 N2 h.length (h.length + 1) false false := by
    refine ⟨hwf2, hlookI2, hlookT2, hgetI, hgetT, ?_⟩
    intro e he
    rw [hN2] at he
    obtain ⟨hs, hd⟩ := hwf.2.2 e he
    have hlts : e.src < h.length := (ptr_of_lookup hwf hs).1
    have hltd : e.dst < h.length := (ptr_of_lookup hwf hd).1
    exact ⟨by omega, by omega⟩
  have hro2 : ∀ p ∈ N2.nodes.map Prod.snd, RegOrClear ⟨H2, N2⟩ p := by
    intro p hp
    rw [List.mem_map] at hp
    obtain ⟨pr, hpr, rfl⟩ := hp
    exact Or.inl (wf_entry_registered hwf2 hpr)
  have hfold := edgeNames_fold (N2.nodes.map Prod.snd)
    ⟨⟨H2, N2⟩, false, false⟩ inv2 hro2 (WF_snd_nodup hwf2)
  -- the two flag assignments keep every record name
  set HF : Heap := ((N2.nodes.map Prod.snd).foldl normalizeOne
    ⟨⟨H2, N2⟩, false, false⟩).st.heap with hHF
  set NF : NFA := ((N2.nodes.map Prod.snd).foldl normalizeOne
    ⟨⟨H2, N2⟩, false, false⟩).st.nfa with hNF
  show (NF.edges.map (edgeNames (heapSet (heapSet HF h.length
      { heapGet HF h.length with isInitial := true }) (h.length + 1)
      { heapGet (heapSet HF h.length { heapGet HF h.length with isInitial := true })
          (h.length + 1) with isTerminal := true }))) = _
  have hset1 : ∀ e : NFAEdge, edgeNames (heapSet (heapSet HF h.length
      { heapGet HF h.length with isInitial := true }) (h.length + 1)
      { heapGet (heapSet HF h.length { heapGet HF h.length with isInitial := true })
          (h.length + 1) with isTerminal := true }) e = edgeNames HF e := by
    intro e
    rw [edgeNames_setTerminalFlag, edgeNames_setInitialFlag]
  rw [List.map_congr_left (fun e _ => hset1 e)]
  rw [hfold]
  dsimp only
  -- original edges keep their names under the setup extension
  have horig : nfa.edges.map (edgeNames H2) = nfa.edges.map (edgeNames h) := by
    refine List.map_congr_left ?_
    intro e he
    obtain ⟨hs, hd⟩ := hwf.2.2 e he
    unfold edgeNames
    rw [hgetOld e.src (ptr_of_lookup hwf hs).1, hgetOld e.dst (ptr_of_lookup hwf hd).1]
  -- ε-entries of the two synthetic records are empty; the rest read the
  -- original records
  have heps : ((N2.nodes.map Prod.snd).map (epsEntry H2)).flatten =
      (nfa.nodes.map (fun pr => epsEntry h pr.2)).flatten := by
    rw [hN2]
    dsimp only
    rw [List.map_append, List.map_append, List.flatten_append]
    have hnew : (([("__initial__", h.length), ("__terminal__", h.length + 1)].map
        Prod.snd).map (epsEntry H2)).flatten = [] := by
      show (epsEntry H2 h.length ++ (epsEntry H2 (h.length + 1) ++ [])) = []
      unfold epsEntry
      rw [hgetI, hgetT]
      rfl
    rw [hnew, List.append_nil, List.map_map]
    congr 1
    refine List.map_congr_left ?_
    intro pr hpr
    show epsEntry H2 pr.2 = epsEntry h pr.2
    unfold epsEntry
    rw [hgetOld pr.2 (hwf.1 pr hpr).1]
  rw [horig, heps]

/-! ### The language of the normalized working copy -/

/-- The single-symbol edge-label restriction of the amended claim: every
edge label is one plain character. -/
def PlainLabels (nfa : NFA) : Prop :=
  ∀ e ∈ nfa.edges, ∃ c, plainChar c ∧ e.value.data = [c]

/-- A registered node record flagged initial. -/
def InitialReg (h : Heap) (nfa : NFA) (p : Nat) : Prop :=
  (∃ k, (k, p) ∈ nfa.nodes) ∧ (heapGet h p).isInitial = true

/-- A registered node record flagged terminal. -/
def TerminalReg (h : Heap) (nfa : NFA) (p : Nat) : Prop :=
  (∃ k, (k, p) ∈ nfa.nodes) ∧ (heapGet h p).isTerminal = true

theorem labelMat_empty {w : List Char} : LabelMat "" w ↔ w = [] :=
  Iff.trans (labelMat_printed PrintsSeq.nil w) seqMat_nil_iff

theorem labelMat_plain {s : String} {c : Char} (hc : plainChar c) (hd : s.data = [c]) :
    ∀ w, LabelMat s w ↔ w = [c] := by
  intro w
  have hpr : PrintsSeq [.rchar c false] s.data := by
    rw [hd]
    exact PrintsSeq.cons (PrintsAtom.char hc) PrintsSeq.nil
  exact Iff.trans (labelMat_printed hpr w) (Iff.trans seqMat_singleton_iff atomMat_char_iff)

/-- From a pointer without outgoing edges, the only walk is the empty one. -/
theorem gPathN_no_out {E : List NFAEdge} {t : Nat} (hno : ∀ e ∈ E, e.src ≠ t) :
    ∀ {k w r}, GPathN E k t w r → w = [] ∧ r = t := by
  intro k w r hp
  cases hp with
  | refl => exact ⟨rfl, rfl⟩
  | step e he hsrc _ _ => exact absurd hsrc (hno e he)

theorem epsEntry_mem {h : Heap} {p : Nat} {x : String × String × String} :
    x ∈ epsEntry h p ↔
      ((heapGet h p).isInitial = true ∧ x = ("__initial__", (heapGet h p).name, "")) ∨
      ((heapGet h p).isTerminal = true ∧ x = ((heapGet h p).name, "__terminal__", "")) := by
  unfold epsEntry
  by_cases hI : (heapGet h p).isInitial = true
  · by_cases hT : (heapGet h p).isTerminal = true
    · simp [hI, hT]
    · simp [hI, hT]
  · by_cases hT : (heapGet h p).isTerminal = true
    · simp [hI, hT]
    · simp [hI, hT]

/-- Membership characterization of the name-level edges of the normalized
working copy. -/
theorem normalized_edge_mem (h : Heap) (nfa : NFA) (hwf : WF h nfa)
    (hrI : lookupName nfa.nodes "__initial__" = none)
    (hrT : lookupName nfa.nodes "__terminal__" = none)
    (x : String × String × String) :
    (∃ e ∈ (normalizedState h nfa).st.nfa.edges,
        edgeNames (normalizedState h nfa).st.heap e = x) ↔
      ((∃ e0 ∈ nfa.edges, edgeNames h e0 = x) ∨
       (∃ pr ∈ nfa.nodes, (heapGet h pr.2).isInitial = true ∧
         x = ("__initial__", (heapGet h pr.2).name, "")) ∨
       (∃ pr ∈ nfa.nodes, (heapGet h pr.2).isTerminal = true ∧
         x = ((heapGet h pr.2).name, "__terminal__", ""))) := by
  have hEN := normalized_edgeNames h nfa hwf hrI hrT
  constructor
  · rintro ⟨e, he, rfl⟩
    have hx : edgeNames (normalizedState h nfa).st.heap e ∈
        (normalizedState h nfa).st.nfa.edges.map
          (edgeNames (normalizedState h nfa).st.heap) :=
      List.mem_map_of_mem _ he
    rw [hEN] at hx
    rcases List.mem_append.1 hx with hx | hx
    · obtain ⟨e0, he0, heq⟩ := List.mem_map.1 hx
      exact Or.inl ⟨e0, he0, heq⟩
    · obtain ⟨l, hl, hxl⟩ := List.mem_flatten.1 hx
      obtain ⟨pr, hpr, rfl⟩ := List.mem_map.1 hl
      rcases epsEntry_mem.1 hxl with ⟨hf, hx2⟩ | ⟨hf, hx2⟩
      · exact Or.inr (Or.inl ⟨pr, hpr, hf, hx2⟩)
      · exact Or.inr (Or.inr ⟨pr, hpr, hf, hx2⟩)
  · intro hx
    have hmem : x ∈ (normalizedState h nfa).st.nfa.edges.map
        (edgeNames (normalizedState h nfa).st.heap) := by
      rw [hEN]
      rcases hx with ⟨e0, he0, heq⟩ | ⟨pr, hpr, hf, hx2⟩ | ⟨pr, hpr, hf, hx2⟩
      · exact List.mem_append.2 (Or.inl (List.mem_map.2 ⟨e0, he0, heq⟩))
      · refine List.mem_append.2 (Or.inr (List.mem_flatten.2
          ⟨epsEntry h pr.2, List.mem_map.2 ⟨pr, hpr, rfl⟩, ?_⟩))
        exact epsEntry_mem.2 (Or.inl ⟨hf, hx2⟩)
      · refine List.mem_append.2 (Or.inr (List.mem_flatten.2
          ⟨epsEntry h pr.2, List.mem_map.2 ⟨pr, hpr, rfl⟩, ?_⟩))
        exact epsEntry_mem.2 (Or.inr ⟨hf, hx2⟩)
    obtain ⟨e, he, heq⟩ := List.mem_map.1 hmem
    exact ⟨e, he, heq⟩

/-- Under the single-symbol label restriction, the normalized working copy
satisfies the label invariant carried through the elimination loop. -/
theorem normalized_LabInv (h : Heap) (nfa : NFA) (hwf : WF h nfa)
    (hrI : lookupName nfa.nodes "__initial__" = none)
    (hrT : lookupName nfa.nodes "__terminal__" = none)
    (hpl : PlainLabels nfa) :
    LabInv (normalizedState h nfa).st.nfa.edges h.length (h.length + 1) := by
  have invN : CInv (normalizedState h nfa).st.heap (normalizedState h nfa).st.nfa
      h.length (h.length + 1) true true := (normalize_establishes h nfa hwf hrI hrT).1
  intro e he
  have hx := (normalized_edge_mem h nfa hwf hrI hrT
    (edgeNames (normalizedState h nfa).st.heap e)).1 ⟨e, he, rfl⟩
  rcases hx with ⟨e0, _, heq⟩ | ⟨pr, _, _, heq⟩ | ⟨pr, _, _, heq⟩
  · obtain ⟨c, hc, hdata⟩ := hpl e0 (by assumption)
    have hv : e.value = e0.value := by
      unfold edgeNames at heq
      simp only [Prod.mk.injEq] at heq
      exact heq.2.2.symm
    refine ⟨⟨[.rchar c false], ?_⟩, ?_⟩
    · rw [hv, hdata]
      exact PrintsSeq.cons (PrintsAtom.char hc) PrintsSeq.nil
    · intro hnil
      rw [hv, hdata] at hnil
      cases hnil
  · unfold edgeNames at heq
    simp only [Prod.mk.injEq] at heq
    have hsrc : e.src = h.length := by
      have hreg := (invN.wf.2.2 e he).1
      unfold Registered at hreg
      rw [heq.1, invN.lookI] at hreg
      exact (Option.some_inj.1 hreg).symm
    refine ⟨⟨[], ?_⟩, fun _ => Or.inl hsrc⟩
    rw [heq.2.2]
    exact PrintsSeq.nil
  · unfold edgeNames at heq
    simp only [Prod.mk.injEq] at heq
    have hdst : e.dst = h.length + 1 := by
      have hreg := (invN.wf.2.2 e he).2
      unfold Registered at hreg
      rw [heq.2.1, invN.lookT] at hreg
      exact (Option.some_inj.1 hreg).symm
    refine ⟨⟨[], ?_⟩, fun _ => Or.inr hdst⟩
    rw [heq.2.2]
    exact PrintsSeq.nil

/-- The words carried by walks of the normalized working copy from the
synthetic initial pointer to the synthetic terminal pointer are exactly the
words of accepting walks of the original automaton. -/
theorem normalized_paths (h : Heap) (nfa : NFA) (hwf : WF h nfa)
    (hrI : lookupName nfa.nodes "__initial__" = none)
    (hrT : lookupName nfa.nodes "__terminal__" = none) :
    ∀ w, GPath (normalizedState h nfa).st.nfa.edges h.length w (h.length + 1) ↔
      ∃ pI pT : Nat, InitialReg h nfa pI ∧ TerminalReg h nfa pT ∧
        GPath nfa.edges pI w pT := by
  have invN : CInv (normalizedState h nfa).st.heap (normalizedState h nfa).st.nfa
      h.length (h.length + 1) true true := (normalize_establishes h nfa hwf hrI hrT).1
  have hcase : ∀ e ∈ (normalizedState h nfa).st.nfa.edges,
      (∃ e0 ∈ nfa.edges, edgeNames h e0 = edgeNames (normalizedState h nfa).st.heap e) ∨
      (∃ pr ∈ nfa.nodes, (heapGet h pr.2).isInitial = true ∧
        edgeNames (normalizedState h nfa).st.heap e =
          ("__initial__", (heapGet h pr.2).name, "")) ∨
      (∃ pr ∈ nfa.nodes, (heapGet h pr.2).isTerminal = true ∧
        edgeNames (normalizedState h nfa).st.heap e =
          ((heapGet h pr.2).name, "__terminal__", "")) :=
    fun e he => (normalized_edge_mem h nfa hwf hrI hrT
      (edgeNames (normalizedState h nfa).st.heap e)).1 ⟨e, he, rfl⟩
  have hrev : ∀ x, ((∃ e0 ∈ nfa.edges, edgeNames h e0 = x) ∨
      (∃ pr ∈ nfa.nodes, (heapGet h pr.2).isInitial = true ∧
        x = ("__initial__", (heapGet h pr.2).name, "")) ∨
      (∃ pr ∈ nfa.nodes, (heapGet h pr.2).isTerminal = true ∧
        x = ((heapGet h pr.2).name, "__terminal__", ""))) →
      ∃ e ∈ (normalizedState h nfa).st.nfa.edges,
        edgeNames (normalizedState h nfa).st.heap e = x :=
    fun x hx => (normalized_edge_mem h nfa hwf hrI hrT x).2 hx
  have hresv : ∀ pr ∈ nfa.nodes, pr.1 ≠ "__initial__" ∧ pr.1 ≠ "__terminal__" := by
    intro pr hpr
    constructor
    · intro hc
      rw [lookupName_eq_none_iff] at hrI
      exact hrI (hc ▸ List.mem_map_of_mem Prod.fst hpr)
    · intro hc
      rw [lookupName_eq_none_iff] at hrT
      exact hrT (hc ▸ List.mem_map_of_mem Prod.fst hpr)
  -- middle walks: from any node registered under an original name to the
  -- synthetic terminal pointer
  have mid : ∀ k, ∀ a w t, GPathN (normalizedState h nfa).st.nfa.edges k a w t →
      t = h.length + 1 →
      ∀ ka pa, lookupName (normalizedState h nfa).st.nfa.nodes ka = some a →
        lookupName nfa.nodes ka = some pa →
        ∃ pT, TerminalReg h nfa pT ∧ GPath nfa.edges pa w pT := by
    intro k
    induction k using Nat.strong_induction_on with
    | _ k ih =>
      intro a w t hp ht ka pa hka hpa
      cases hp with
      | refl =>
        rw [ht] at hka
        have hka2 : ka = "__terminal__" := lookup_ptr_inj invN.wf hka invN.lookT
        rw [hka2, hrT] at hpa
        exact Option.noConfusion hpa
      | step e he hsrc hlab htail =>
        rename_i k1 w1 w2
        subst ht
        have hregS := (invN.wf.2.2 e he).1
        unfold Registered at hregS
        rw [hsrc] at hregS
        have hkaeq : (heapGet (normalizedState h nfa).st.heap a).name = ka :=
          lookup_ptr_inj invN.wf hregS hka
        rcases hcase e he with ⟨e0, he0, heq⟩ | ⟨⟨kq, pq⟩, hpr, hflag, heq⟩ |
          ⟨⟨kq, pq⟩, hpr, hflag, heq⟩
        · unfold edgeNames at heq
          simp only [Prod.mk.injEq] at heq
          obtain ⟨h1, h2, h3⟩ := heq
          rw [hsrc, hkaeq] at h1
          have hr0 := (hwf.2.2 e0 he0).1
          unfold Registered at hr0
          rw [h1] at hr0
          rw [hr0] at hpa
          have he0src : e0.src = pa := Option.some_inj.1 hpa
          have hdstN := (invN.wf.2.2 e he).2
          unfold Registered at hdstN
          have hdstO := (hwf.2.2 e0 he0).2
          unfold Registered at hdstO
          obtain ⟨pT, hterm, ⟨k2, hp2⟩⟩ := ih k1 (by omega) e.dst w2 _ htail rfl
            (heapGet h e0.dst).name e0.dst (by rw [h2]; exact hdstN) hdstO
          exact ⟨pT, hterm, ⟨k2 + 1,
            GPathN.step e0 he0 he0src (by rw [h3]; exact hlab) hp2⟩⟩
        · unfold edgeNames at heq
          simp only [Prod.mk.injEq] at heq
          rw [hsrc, hkaeq] at heq
          rw [heq.1, hrI] at hpa
          exact Option.noConfusion hpa
        · unfold edgeNames at heq
          simp only [Prod.mk.injEq] at heq
          obtain ⟨h1, h2, h3⟩ := heq
          rw [hsrc, hkaeq] at h1
          have hw1 : w1 = [] := by
            rw [h3] at hlab
            exact labelMat_empty.1 hlab
          have hdstN := (invN.wf.2.2 e he).2
          unfold Registered at hdstN
          rw [h2, invN.lookT] at hdstN
          have hdst : e.dst = h.length + 1 := (Option.some_inj.1 hdstN).symm
          rw [hdst] at htail
          have hnone : ∀ e' ∈ (normalizedState h nfa).st.nfa.edges,
              e'.src ≠ h.length + 1 := fun e' he' => (invN.edgeInv e' he').2
          obtain ⟨hw2, _⟩ := gPathN_no_out hnone htail
          have hprreg : lookupName nfa.nodes (heapGet h pq).name = some pq :=
            wf_entry_registered hwf hpr
          rw [h1, hprreg] at hpa
          have hpaeq : pa = pq := (Option.some_inj.1 hpa).symm
          subst hpaeq
          subst hw1
          subst hw2
          exact ⟨pa, ⟨⟨kq, hpr⟩, hflag⟩, ⟨0, GPathN.refl pa⟩⟩
  -- forward direction of the bridge
  have fwd : ∀ k s w t, GPathN (normalizedState h nfa).st.nfa.edges k s w t →
      s = h.length → t = h.length + 1 →
      ∃ pI pT : Nat, InitialReg h nfa pI ∧ TerminalReg h nfa pT ∧
        GPath nfa.edges pI w pT := by
    intro k s w t hp hs ht
    cases hp with
    | refl => omega
    | step e he hsrc hlab htail =>
      rename_i k1 w1 w2
      subst hs
      subst ht
      have hsname : (heapGet (normalizedState h nfa).st.heap e.src).name = "__initial__" := by
        rw [hsrc, invN.recI]
      rcases hcase e he with ⟨e0, he0, heq⟩ | ⟨⟨kq, pq⟩, hpr, hflag, heq⟩ |
        ⟨⟨kq, pq⟩, hpr, hflag, heq⟩
      · unfold edgeNames at heq
        simp only [Prod.mk.injEq] at heq
        obtain ⟨h1, _, _⟩ := heq
        rw [hsname] at h1
        have hr0 := (hwf.2.2 e0 he0).1
        unfold Registered at hr0
        rw [h1, hrI] at hr0
        exact Option.noConfusion hr0
      · unfold edgeNames at heq
        simp only [Prod.mk.injEq] at heq
        obtain ⟨_, h2, h3⟩ := heq
        have hw1 : w1 = [] := by
          rw [h3] at hlab
          exact labelMat_empty.1 hlab
        have hdstN := (invN.wf.2.2 e he).2
        unfold Registered at hdstN
        obtain ⟨pT, hterm, hpath⟩ := mid k1 e.dst w2 _ htail rfl
          (heapGet h pq).name pq (by rw [← h2]; exact hdstN)
          (wf_entry_registered hwf hpr)
        subst hw1
        exact ⟨pq, pT, ⟨⟨kq, hpr⟩, hflag⟩, hterm, hpath⟩
      · unfold edgeNames at heq
        simp only [Prod.mk.injEq] at heq
        obtain ⟨h1, _, _⟩ := heq
        rw [hsname] at h1
        have hq : (heapGet h pq).name = kq := (hwf.1 (kq, pq) hpr).2
        rw [hq] at h1
        exact absurd h1.symm (hresv (kq, pq) hpr).1
  -- backward middle: original walks lift to the normalized working copy
  have bwdmid : ∀ k pa w pb, GPathN nfa.edges k pa w pb →
      ∀ qa, lookupName (normalizedState h nfa).st.nfa.nodes
          (heapGet h pa).name = some qa →
      ∃ qb, lookupName (normalizedState h nfa).st.nfa.nodes
          (heapGet h pb).name = some qb ∧
        GPath (normalizedState h nfa).st.nfa.edges qa w qb := by
    intro k pa w pb hp
    induction hp with
    | refl p => exact fun qa hqa => ⟨qa, hqa, ⟨0, GPathN.refl qa⟩⟩
    | step e0 he0 hsrc hlab htail ih =>
      intro qa hqa
      obtain ⟨e, he, heq⟩ := hrev (edgeNames h e0) (Or.inl ⟨e0, he0, rfl⟩)
      unfold edgeNames at heq
      simp only [Prod.mk.injEq] at heq
      obtain ⟨h1, h2, h3⟩ := heq
      have hsrcN := (invN.wf.2.2 e he).1
      unfold Registered at hsrcN
      rw [h1, hsrc] at hsrcN
      rw [hsrcN] at hqa
      have hesrc : e.src = qa := Option.some_inj.1 hqa
      have hdstN := (invN.wf.2.2 e he).2
      unfold Registered at hdstN
      rw [h2] at hdstN
      obtain ⟨qb, hqb, ⟨k2, hp2⟩⟩ := ih e.dst hdstN
      exact ⟨qb, hqb, ⟨k2 + 1,
        GPathN.step e he hesrc (by rw [h3]; exact hlab) hp2⟩⟩
  intro w
  constructor
  · rintro ⟨k, hp⟩
    exact fwd k _ w _ hp rfl rfl
  · rintro ⟨pI, pT, ⟨⟨kI, hkI⟩, hflagI⟩, ⟨⟨kT, hkT⟩, hflagT⟩, ⟨k, hpath⟩⟩
    obtain ⟨e1, he1, heq1⟩ := hrev ("__initial__", (heapGet h pI).name, "")
      (Or.inr (Or.inl ⟨(kI, pI), hkI, hflagI, rfl⟩))
    unfold edgeNames at heq1
    simp only [Prod.mk.injEq] at heq1
    obtain ⟨h11, h12, h13⟩ := heq1
    have hsrc1 : e1.src = h.length := by
      have hreg := (invN.wf.2.2 e1 he1).1
      unfold Registered at hreg
      rw [h11, invN.lookI] at hreg
      exact (Option.some_inj.1 hreg).symm
    have hq0 : lookupName (normalizedState h nfa).st.nfa.nodes
        (heapGet h pI).name = some e1.dst := by
      have hreg := (invN.wf.2.2 e1 he1).2
      unfold Registered at hreg
      rw [h12] at hreg
      exact hreg
    obtain ⟨qb, hqb, hp2⟩ := bwdmid k pI w pT hpath e1.dst hq0
    obtain ⟨e2, he2, heq2⟩ := hrev ((heapGet h pT).name, "__terminal__", "")
      (Or.inr (Or.inr ⟨(kT, pT), hkT, hflagT, rfl⟩))
    unfold edgeNames at heq2
    simp only [Prod.mk.injEq] at heq2
    obtain ⟨h21, h22, h23⟩ := heq2
    have hsrc2 : e2.src = qb := by
      have hreg := (invN.wf.2.2 e2 he2).1
      unfold Registered at hreg
      rw [h21, hqb] at hreg
      exact (Option.some_inj.1 hreg).symm
    have hdst2 : e2.dst = h.length + 1 := by
      have hreg := (invN.wf.2.2 e2 he2).2
      unfold Registered at hreg
      rw [h22, invN.lookT] at hreg
      exact (Option.some_inj.1 hreg).symm
    have tail2 : GPath (normalizedState h nfa).st.nfa.edges qb [] (h.length + 1) := by
      refine ⟨1, ?_⟩
      have hstep := GPathN.step e2 he2 hsrc2
        (show LabelMat e2.value [] by rw [h23]; exact labelMat_empty.2 rfl)
        (GPathN.refl e2.dst)
      rw [hdst2] at hstep
      simpa using hstep
    obtain ⟨k2, hp2'⟩ := hp2
    obtain ⟨k3, hp3⟩ := gPathN_trans hp2' tail2
    refine ⟨k3 + 1, ?_⟩
    have hfull := GPathN.step e1 he1 hsrc1
      (show LabelMat e1.value [] by rw [h13]; exact labelMat_empty.2 rfl) hp3
    simpa using hfull

/-! ### The simulator accepts exactly the words of accepting walks -/

theorem gPathN_cons_plain {nfa : NFA} (hpl : PlainLabels nfa) {E : List NFAEdge}
    (hE : E = nfa.edges) :
    ∀ {k p w q}, GPathN E k p w q → ∀ {c : Char} {cs : List Char}, w = c :: cs →
      ∃ e ∈ nfa.edges, e.src = p ∧ e.value = String.singleton c ∧
        GPath nfa.edges e.dst cs q := by
  subst hE
  intro k p w q hp
  cases hp with
  | refl => intro c cs hw; exact absurd hw (by simp)
  | step e he hsrc hlab htail =>
    rename_i k1 w1 w2
    intro c cs hw
    obtain ⟨c0, hc0, hdata⟩ := hpl e he
    have hw1 : w1 = [c0] := (labelMat_plain hc0 hdata w1).1 hlab
    subst hw1
    rw [List.cons_append, List.nil_append] at hw
    injection hw with hc hcs
    subst hc
    subst hcs
    refine ⟨e, he, hsrc, ?_, ⟨k1, htail⟩⟩
    exact String.ext (by rw [hdata]; rfl)

theorem gPathN_nil_plain {nfa : NFA} (hpl : PlainLabels nfa) :
    ∀ {k p w q}, GPathN nfa.edges k p w q → w = [] → p = q := by
  intro k p w q hp
  cases hp with
  | refl => intro _; rfl
  | step e he hsrc hlab htail =>
    intro hw
    obtain ⟨c0, hc0, hdata⟩ := hpl e he
    have hw1 := (labelMat_plain hc0 hdata _).1 hlab
    subst hw1
    exact absurd hw (by simp)

/-- Membership in one simulator step. -/
theorem matchStep_mem (h : Heap) (nfa : NFA) (hwf : WF h nfa) (act : List Nat)
    (hreg : ∀ p ∈ act, Registered h nfa p) (c : Char) (q : Nat) :
    q ∈ matchStep h nfa act c ↔
      ∃ p ∈ act, ∃ e ∈ nfa.edges, e.src = p ∧ e.value = String.singleton c ∧
        e.dst = q := by
  unfold matchStep
  rw [List.mem_flatMap]
  constructor
  · rintro ⟨p, hp, hq⟩
    rw [List.mem_map] at hq
    obtain ⟨e, he, rfl⟩ := hq
    rw [List.mem_filter] at he
    obtain ⟨he, hval⟩ := he
    unfold edgesOut at he
    rw [List.mem_filter] at he
    obtain ⟨he, hsrc⟩ := he
    rw [hreg p hp] at hsrc
    refine ⟨p, hp, e, he, ?_, ?_, rfl⟩
    · have := of_decide_eq_true hsrc
      exact Option.some_inj.1 this
    · exact of_decide_eq_true hval
  · rintro ⟨p, hp, e, he, hsrc, hval, rfl⟩
    refine ⟨p, hp, List.mem_map.2 ⟨e, ?_, rfl⟩⟩
    rw [List.mem_filter]
    refine ⟨?_, decide_eq_true hval⟩
    unfold edgesOut
    rw [List.mem_filter]
    exact ⟨he, decide_eq_true (by rw [hreg p hp, hsrc])⟩

/-- The folded simulator state holds exactly the endpoints of walks from
the seed set spelling the consumed input. -/
theorem matchFold_walk (h : Heap) (nfa : NFA) (hwf : WF h nfa) (hpl : PlainLabels nfa) :
    ∀ (cs : List Char) (act : List Nat), (∀ p ∈ act, Registered h nfa p) →
      ∀ q, q ∈ cs.foldl (matchStep h nfa) act ↔
        ∃ p ∈ act, GPath nfa.edges p cs q ∧ Registered h nfa q := by
  intro cs
  induction cs with
  | nil =>
    intro act hreg q
    rw [List.foldl_nil]
    constructor
    · intro hq
      exact ⟨q, hq, ⟨0, GPathN.refl q⟩, hreg q hq⟩
    · rintro ⟨p, hp, ⟨k, hpath⟩, _⟩
      rw [gPathN_nil_plain hpl hpath rfl] at hp
      exact hp
  | cons c cs ih =>
    intro act hreg q
    rw [List.foldl_cons]
    have hreg' : ∀ p ∈ matchStep h nfa act c, Registered h nfa p := by
      intro p hp
      obtain ⟨_, _, e, he, _, _, rfl⟩ := (matchStep_mem h nfa hwf act hreg c p).1 hp
      exact (hwf.2.2 e he).2
    rw [ih (matchStep h nfa act c) hreg' q]
    constructor
    · rintro ⟨p', hp', hpath, hregq⟩
      obtain ⟨p, hp, e, he, hsrc, hval, rfl⟩ := (matchStep_mem h nfa hwf act hreg c p').1 hp'
      refine ⟨p, hp, ?_, hregq⟩
      obtain ⟨k2, htail⟩ := hpath
      obtain ⟨c0, hc0, hdata⟩ := hpl e he
      have hc0c : c0 = c := by
        rw [hval] at hdata
        injection hdata with h1 _
        exact h1.symm
      subst hc0c
      refine ⟨k2 + 1, ?_⟩
      have hstep := GPathN.step e he hsrc ((labelMat_plain hc0 hdata [c0]).2 rfl) htail
      exact hstep
    · rintro ⟨p, hp, ⟨k, hpath⟩, hregq⟩
      obtain ⟨e, he, hsrc, hval, htail⟩ :=
        @gPathN_cons_plain nfa hpl nfa.edges rfl k p (c :: cs) q hpath c cs rfl
      refine ⟨e.dst, ?_, htail, hregq⟩
      exact (matchStep_mem h nfa hwf act hreg c e.dst).2 ⟨p, hp, e, he, hsrc, hval, rfl⟩

/-- The simulator accepts exactly the words carried by walks from an
initial-flagged registered record to a terminal-flagged one. -/
theorem match_iff_walk (h : Heap) (nfa : NFA) (hwf : WF h nfa) (hpl : PlainLabels nfa)
    (input : String) :
    matchNFA h nfa input = true ↔
      ∃ pI pT : Nat, InitialReg h nfa pI ∧ TerminalReg h nfa pT ∧
        GPath nfa.edges pI input.data pT := by
  unfold matchNFA
  rw [List.any_eq_true]
  have hreg0 : ∀ p ∈ (nfa.nodes.map Prod.snd).filter (fun p => (heapGet h p).isInitial),
      Registered h nfa p := by
    intro p hp
    rw [List.mem_filter] at hp
    obtain ⟨hp, _⟩ := hp
    rw [List.mem_map] at hp
    obtain ⟨pr, hpr, rfl⟩ := hp
    exact wf_entry_registered hwf hpr
  constructor
  · rintro ⟨q, hq, hterm⟩
    obtain ⟨p, hp, hpath, hregq⟩ :=
      (matchFold_walk h nfa hwf hpl input.data _ hreg0 q).1 hq
    rw [List.mem_filter] at hp
    obtain ⟨hp1, hp2⟩ := hp
    rw [List.mem_map] at hp1
    obtain ⟨⟨k0, p0⟩, hpr, hsnd⟩ := hp1
    dsimp only at hsnd
    subst hsnd
    refine ⟨p0, q, ⟨⟨k0, hpr⟩, hp2⟩, ⟨⟨(heapGet h q).name, mem_of_lookupName _ _ _ hregq⟩,
      hterm⟩, hpath⟩
  · rintro ⟨pI, pT, ⟨⟨kI, hkI⟩, hflagI⟩, ⟨⟨kT, hkT⟩, hflagT⟩, hpath⟩
    refine ⟨pT, ?_, hflagT⟩
    refine (matchFold_walk h nfa hwf hpl input.data _ hreg0 pT).2
      ⟨pI, ?_, hpath, wf_entry_registered hwf hkT⟩
    rw [List.mem_filter]
    exact ⟨List.mem_map.2 ⟨(kI, pI), hkI, rfl⟩, hflagI⟩

/-! ### The language of the final regular expression -/

theorem atomMat_group_iff {alts : List (List RAtom)} {w : List Char} :
    AtomMat (.rgroup alts false) w ↔ ∃ s ∈ alts, SeqMat s w := by
  constructor
  · intro h
    cases h with
    | group hs hm => exact ⟨_, hs, hm⟩
  · rintro ⟨s, hs, hm⟩
    exact AtomMat.group hs hm

theorem parseRegex_single {v : String} {sq : List RAtom} (hpr : PrintsSeq sq v.data)
    (hne : sq ≠ []) : parseRegex v = some [sq] := by
  unfold parseRegex
  have halts : parseAltsF (2 * v.data.length + 4) (v.data ++ []) = some ([sq], []) :=
    parse_printed_alts (PrintsAlts.one hpr hne) (Or.inl rfl) (by omega)
  rw [List.append_nil] at halts
  rw [halts]

theorem engineAccepts_single {v : String} {sq : List RAtom} (hpr : PrintsSeq sq v.data)
    (hne : sq ≠ []) (w : String) : engineAccepts v w ↔ SeqMat sq w.data := by
  unfold engineAccepts
  rw [parseRegex_single hpr hne]
  constructor
  · rintro ⟨alts, halts, s, hs, hm⟩
    injection halts with halts
    subst halts
    rw [List.mem_singleton.1 hs] at hm
    exact hm
  · intro hm
    exact ⟨[sq], rfl, sq, List.mem_singleton.2 rfl, hm⟩

theorem parseRegex_group {alts : List (List RAtom)} {inner : String}
    (hpr : PrintsAlts alts inner.data) :
    parseRegex ("(" ++ inner ++ ")") = some [[.rgroup alts false]] := by
  unfold parseRegex
  have hdata : ("(" ++ inner ++ ")").data = '(' :: (inner.data ++ [')']) := by
    simp [String.data_append]
  rw [hdata]
  have hlen : ('(' :: (inner.data ++ [')'])).length = inner.data.length + 2 := by
    simp
  rw [hlen]
  have hf : 2 * (inner.data.length + 2) + 4 = (2 * inner.data.length + 7) + 1 := by omega
  rw [hf]
  have h1 : parseAltsF ((2 * inner.data.length + 7) + 1) ('(' :: (inner.data ++ [')'])) =
      match parseSeqF (2 * inner.data.length + 7) ('(' :: (inner.data ++ [')'])) with
      | some (s, rest) => parseAltsTail (parseAltsF (2 * inner.data.length + 7)) s rest
      | none => none := rfl
  rw [h1]
  have h2 : parseSeqF (2 * inner.data.length + 7) ('(' :: (inner.data ++ [')'])) =
      match parseAltsF (2 * inner.data.length + 6) (inner.data ++ [')']) with
      | some (alts2, rest2) => parseClose (parseSeqF (2 * inner.data.length + 6)) alts2 rest2
      | none => none := rfl
  rw [h2]
  have h3 : parseAltsF (2 * inner.data.length + 6) (inner.data ++ [')']) =
      some (alts, [')']) :=
    parse_printed_alts hpr (Or.inr ⟨[], rfl⟩) (by omega)
  rw [h3]
  dsimp only
  have h4 : parseClose (parseSeqF (2 * inner.data.length + 6)) alts [')'] =
      some ([.rgroup alts false], []) := rfl
  rw [h4]
  rfl

theorem engineAccepts_group {alts : List (List RAtom)} {inner : String}
    (hpr : PrintsAlts alts inner.data) (w : String) :
    engineAccepts ("(" ++ inner ++ ")") w ↔ ∃ s ∈ alts, SeqMat s w.data := by
  unfold engineAccepts
  rw [parseRegex_group hpr]
  constructor
  · rintro ⟨a2, ha2, s, hs, hm⟩
    injection ha2 with ha2
    subst ha2
    rw [List.mem_singleton.1 hs] at hm
    rw [seqMat_singleton_iff] at hm
    exact atomMat_group_iff.1 hm
  · rintro ⟨s, hs, hm⟩
    refine ⟨[[.rgroup alts false]], rfl, [.rgroup alts false], List.mem_singleton.2 rfl, ?_⟩
    rw [seqMat_singleton_iff]
    exact atomMat_group_iff.2 ⟨s, hs, hm⟩

/-- The language of `orJoin` over printable nonempty values: the union of
the values' label languages. -/
theorem orJoin_language (vals : List String)
    (hgood : ∀ v ∈ vals, (∃ sq, PrintsSeq sq v.data) ∧ v.data ≠ [])
    (hne : vals ≠ []) (w : String) :
    engineAccepts (orJoin vals) w ↔ ∃ v ∈ vals, LabelMat v w.data := by
  unfold orJoin
  have hfilter : vals.filter (fun s => s.utf8ByteSize > 0) = vals := by
    rw [List.filter_eq_self]
    intro v hv
    exact decide_eq_true (utf8_pos_iff.2 (hgood v hv).2)
  rw [hfilter]
  rcases vals with _ | ⟨v1, vs⟩
  · exact absurd rfl hne
  rcases vs with _ | ⟨v2, rest⟩
  · show engineAccepts v1 w ↔ _
    obtain ⟨⟨sq, hsq⟩, hne1⟩ := hgood v1 (List.mem_cons_self _ _)
    rw [engineAccepts_single hsq (printsSeq_ne_nil hsq hne1) w]
    constructor
    · intro hm
      exact ⟨v1, List.mem_singleton.2 rfl, (labelMat_printed hsq w.data).2 hm⟩
    · rintro ⟨v, hv, hm⟩
      rw [List.mem_singleton.1 hv] at hm
      exact (labelMat_printed hsq w.data).1 hm
  · obtain ⟨alts, hpa, hsem⟩ := printsAlts_of_values v1 (v2 :: rest) hgood
    show engineAccepts ("(" ++ String.intercalate "|" (v1 :: v2 :: rest) ++ ")") w ↔ _
    rw [engineAccepts_group hpa w]
    exact hsem w.data

/-- In the two-node final state every accepting walk is a single edge. -/
theorem final_gPath {r : RunSt} {iPtr tPtr : Nat}
    (inv : CInv r.heap r.nfa iPtr tPtr true true)
    (hnodes : r.nfa.nodes = [("__initial__", iPtr), ("__terminal__", tPtr)]) :
    ∀ w, GPath r.nfa.edges iPtr w tPtr ↔ ∃ e ∈ r.nfa.edges, LabelMat e.value w := by
  have hfin := final_edges_run inv hnodes
  have hne := inv.iPtr_ne_tPtr
  intro w
  constructor
  · rintro ⟨k, hp⟩
    have haux : ∀ k s w t, GPathN r.nfa.edges k s w t → s = iPtr → t = tPtr →
        ∃ e ∈ r.nfa.edges, LabelMat e.value w := by
      intro k s w t hp2 hs ht
      cases hp2 with
      | refl =>
        subst hs
        exact absurd ht hne
      | step e he hsrc hlab htail =>
        have hnoout : ∀ e' ∈ r.nfa.edges, e'.src ≠ tPtr := by
          intro e' he' hc
          exact hne ((hfin e' he').1 ▸ hc)
        rw [ht, (hfin e he).2] at htail
        obtain ⟨hw2, _⟩ := gPathN_no_out hnoout htail
        subst hw2
        refine ⟨e, he, ?_⟩
        rw [List.append_nil]
        exact hlab
    exact haux k iPtr w tPtr hp rfl rfl
  · rintro ⟨e, he, hm⟩
    refine ⟨1, ?_⟩
    have hstep := GPathN.step e he (hfin e he).1 hm (GPathN.refl e.dst)
    rw [(hfin e he).2] at hstep
    simpa using hstep

/-- C1 (amended): for a well-formed automaton without reserved node names
whose edge labels are single plain characters, with at least one initial and
one terminal flag, no node flagged both initial and terminal, and at least
one accepted string, `convert` returns a regular expression whose language
(under the modelled engine) consists exactly of the strings spelled by SOME
walk from an initial-flagged node to a terminal-flagged node; the original
claim's universal quantification over walks fails for nondeterministic
automata (see the counterexample). -/
theorem c1_walk_language (h : Heap) (nfa : NFA)
    (hwf : WF h nfa)
    (hrI : lookupName nfa.nodes "__initial__" = none)
    (hrT : lookupName nfa.nodes "__terminal__" = none)
    (hpl : PlainLabels nfa)
    (hasI : nfa.nodes.any (fun pr => (heapGet h pr.2).isInitial) = true)
    (hasT : nfa.nodes.any (fun pr => (heapGet h pr.2).isTerminal) = true)
    (hsep : ∀ pr ∈ nfa.nodes, (heapGet h pr.2).isInitial = false ∨
      (heapGet h pr.2).isTerminal = false)
    (w0 : String) (hw0 : matchNFA h nfa w0 = true) :
    ∃ regex : String, (toRegex h (some nfa)).result = .ok regex ∧
      ∀ w : String, engineAccepts regex w ↔
        ∃ pI pT : Nat, InitialReg h nfa pI ∧ TerminalReg h nfa pT ∧
          GPath nfa.edges pI w.data pT := by
  have hlabN := normalized_LabInv h nfa hwf hrI hrT hpl
  obtain ⟨r', hel, inv', hnodes', hheap', hlab', hiff'⟩ :=
    convertElim_semantic h nfa hwf hrI hrT hlabN
  have hfin := toRegex_eq_finalize h nfa hwf hrI hrT hasI hasT r' hel
  have hNP := normalized_paths h nfa hwf hrI hrT
  have hfg := final_gPath inv' hnodes'
  have hchain : ∀ wl : List Char, (∃ e ∈ r'.nfa.edges, LabelMat e.value wl) ↔
      ∃ pI pT : Nat, InitialReg h nfa pI ∧ TerminalReg h nfa pT ∧
        GPath nfa.edges pI wl pT := by
    intro wl
    rw [← hfg wl, hiff' wl, hNP wl]
  have hw0' := (match_iff_walk h nfa hwf hpl w0).1 hw0
  have hne : r'.nfa.edges ≠ [] := by
    obtain ⟨e, he, _⟩ := (hchain w0.data).2 hw0'
    intro hc
    rw [hc] at he
    cases he
  have hgood : ∀ v ∈ r'.nfa.edges.map NFAEdge.value,
      (∃ sq, PrintsSeq sq v.data) ∧ v.data ≠ [] := by
    intro v hv
    obtain ⟨e, he, rfl⟩ := List.mem_map.1 hv
    obtain ⟨hprint, _⟩ := hlab' e he
    refine ⟨hprint, ?_⟩
    intro hnil
    have hmat : LabelMat e.value [] := by
      have hv0 : e.value = "" := String.ext (by rw [hnil])
      rw [hv0]
      exact labelMat_empty.2 rfl
    obtain ⟨pI, pT, hI, hT, ⟨k, hpath⟩⟩ := (hchain []).1 ⟨e, he, hmat⟩
    have hpe : pI = pT := gPathN_nil_plain hpl hpath rfl
    obtain ⟨⟨kI, hkI⟩, hflagI⟩ := hI
    obtain ⟨⟨kT, hkT⟩, hflagT⟩ := hT
    rw [← hpe] at hflagT
    rcases hsep (kI, pI) hkI with hc | hc
    · rw [hc] at hflagI
      cases hflagI
    · rw [hc] at hflagT
      cases hflagT
  have hvalsne : r'.nfa.edges.map NFAEdge.value ≠ [] := by
    intro hc
    rw [List.map_eq_nil_iff] at hc
    exact hne hc
  refine ⟨orJoin (r'.nfa.edges.map NFAEdge.value), ?_, ?_⟩
  · rw [hfin, finalizeRegex_final inv' hnodes']
    dsimp only
    rw [if_neg hne]
  · intro w
    rw [orJoin_language _ hgood hvalsne w]
    constructor
    · rintro ⟨v, hv, hm⟩
      obtain ⟨e, he, rfl⟩ := List.mem_map.1 hv
      exact (hchain w.data).1 ⟨e, he, hm⟩
    · intro hx
      obtain ⟨e, he, hm⟩ := (hchain w.data).2 hx
      exact ⟨e.value, List.mem_map_of_mem _ he, hm⟩

/-- A nondeterministic automaton: node `A` (initial) has two `"a"`-edges,
one to the terminal node `B` and one to the plain node `C`. -/
def exNd : St :=
  let st : St := ⟨[], newNFA⟩
  let st := addEdge st "A" "B" "a"
  let st := addEdge st "A" "C" "a"
  let st := setInitial st "A"
  setTerminal st "B"

/-- Claim C1, counterexample: on the nondeterministic automaton `exNd`,
`convert` returns the regular expression `"a"`; the one-edge walk from the
initial node `A` (record 0) to `C` (record 2) spells `"a"`, ends on a node
not flagged terminal, and yet the returned expression matches `"a"` — so
matching a walk's string is not equivalent to that walk ending on a
terminal node. -/
theorem c1_counterexample :
    (toRegex exNd.heap (some exNd.nfa)).result = .ok "a" ∧
      (heapGet exNd.heap 0).isInitial = true ∧
      GPath exNd.nfa.edges 0 ("a" : String).data 2 ∧
      (heapGet exNd.heap 2).isTerminal = false ∧
      engineAccepts "a" "a" := by
  refine ⟨by decide, by decide, ?_, by decide, ?_⟩
  · refine ⟨1, ?_⟩
    have he : (⟨0, 2, "a"⟩ : NFAEdge) ∈ exNd.nfa.edges := by decide
    have hm : LabelMat "a" ['a'] :=
      ⟨[.rchar 'a' false], rfl, SeqMat.cons (AtomMat.char 'a') SeqMat.nil⟩
    exact GPathN.step (⟨0, 2, "a"⟩ : NFAEdge) he rfl hm (GPathN.refl 2)
  · exact ⟨[[.rchar 'a' false]], rfl, [.rchar 'a' false], List.mem_singleton.2 rfl,
      SeqMat.cons (AtomMat.char 'a') SeqMat.nil⟩

/-- Witness for the amended claim C1 at the concrete automaton `exNd`. -/
theorem c1_walk_language_witness :
    WF exNd.heap exNd.nfa ∧ matchNFA exNd.heap exNd.nfa "a" = true ∧
      (∃ regex : String, (toRegex exNd.heap (some exNd.nfa)).result = .ok regex ∧
        ∀ w : String, engineAccepts regex w ↔
          ∃ pI pT : Nat, InitialReg exNd.heap exNd.nfa pI ∧
            TerminalReg exNd.heap exNd.nfa pT ∧ GPath exNd.nfa.edges pI w.data pT) :=
  ⟨by decide, by decide,
    c1_walk_language exNd.heap exNd.nfa (by decide) (by decide) (by decide)
      (by
        intro e he
        have hE : exNd.nfa.edges = [⟨0, 1, "a"⟩, ⟨0, 2, "a"⟩] := rfl
        rw [hE] at he
        rcases List.mem_cons.1 he with rfl | he
        · exact ⟨'a', by decide, rfl⟩
        · rcases List.mem_singleton.1 he with rfl
          exact ⟨'a', by decide, rfl⟩)
      (by decide) (by decide) (by decide) "a" (by decide)⟩

end Nfa2Regex
